import Mathlib

/-!
# Concordance generator (KWIC): a shallow embedding and its verification

The development follows the C++ sources `main.cpp`, `BinarySearchTree.cpp`,
`ContextList.cpp`, `ListNode.cpp` and `TreeNode.cpp`.

Modelling conventions
* `std::string` is a list of characters (`Str`); `operator<` and `operator==` on strings are the
  lexicographic order and equality of lists.
* `int` is `Int`. The program computes on `int` only with `wordCount` (at most 6), loop
  counters and lengths of corpus tokens; tokens are taken to be shorter than 2^31 / 5
  characters, so that no `int` overflows.
* Code that can throw (`std::array::at`, `std::string::erase`) or that is a loop with no
  structural bound returns `Option`; `none` stands for an exception or for exhausted fuel.
* The program never calls `setlocale`, so `ispunct` and `tolower` are those of the "C" locale:
  a character outside ASCII is not punctuation and is left unchanged by `tolower`.
* Lists and trees are values where only their contents matter. Where a property is about the
  objects an operation reads and writes (the copies), the objects are in a free store (`Heap`):
  an address is a position, `new` takes the next position, `delete` empties a position, and a
  read through a null or dangling pointer is `none`. The functions on the free store follow
  the same source functions, statement by statement.
-/

namespace Concordance

/-- A `std::string`. -/
abbrev Str := List Char

/-! ## The C library in the "C" locale -/

/-- C `ispunct` in the "C" locale: the printable ASCII characters that are neither
alphanumeric nor the space, that is the codes 33-47, 58-64, 91-96 and 123-126. -/
def ispunct (c : Char) : Bool :=
  (33 ≤ c.toNat && c.toNat ≤ 47) || (58 ≤ c.toNat && c.toNat ≤ 64) ||
  (91 ≤ c.toNat && c.toNat ≤ 96) || (123 ≤ c.toNat && c.toNat ≤ 126)

/-- C `tolower` in the "C" locale: the letters A-Z (codes 65-90) are moved to a-z, every other
character is returned unchanged. -/
def tolower (c : Char) : Char :=
  if 65 ≤ c.toNat ∧ c.toNat ≤ 90 then Char.ofNat (c.toNat + 32) else c

/-! ## `std::string` primitives used by `removePunctAndLower` -/

/-- The expression `word[i]`. Inside the string it is the character at `i`; at `i = size()` it
is the terminating NUL. The loop of `removePunctAndLower` can also read positions past the
current end that were inside the string when the loop started: each `erase` has written a
terminator at the new end, so those positions hold NUL as well. -/
def charAt (word : Str) (i : Int) : Char :=
  if 0 ≤ i then word.getD i.toNat (Char.ofNat 0) else Char.ofNat 0

/-- The call `word.erase(pos, 1)`: throws `std::out_of_range` when `pos > size()`, removes the
character at `pos` otherwise (nothing when `pos = size()`). -/
def erase (word : Str) (pos : Int) : Option Str :=
  if 0 ≤ pos ∧ pos ≤ word.length then some (word.eraseIdx pos.toNat) else none

/-- The `for` loop of `removePunctAndLower`; `length` is the length measured before the loop.
`word.erase(i--, 1)` erases at `i` and leaves `i - 1`, which the loop increment brings back to
`i`. One unit of fuel is one evaluation of the loop condition. -/
def removePunctLoop : Nat → Int → Int → Str → Option Str
  | 0, _, _, _ => none
  | fuel + 1, i, length, word =>
    if i < length then
      if ispunct (charAt word i) then
        (erase word i).bind fun erased => removePunctLoop fuel (i - 1 + 1) length erased
      else
        removePunctLoop fuel (i + 1) length word
    else
      some word

/-- `BinarySearchTree::removePunctAndLower`: the erase loop, then `transform(..., ::tolower)`.
The loop evaluates its condition at most `2 * length + 1` times (one for each increment of `i`,
one for each erased character, one to leave). -/
def removePunctAndLower (word : Str) : Option Str :=
  (removePunctLoop (2 * word.length + 1) 0 word.length word).map (List.map tolower)

/-- The positions at which the loop of `removePunctAndLower` evaluates `word[i]`, in order,
each with `word.length()` at that moment; the arguments are those of `removePunctLoop`. -/
def removePunctReads : Nat → Int → Int → Str → List (Int × Nat)
  | 0, _, _, _ => []
  | fuel + 1, i, length, word =>
    if i < length then
      (i, word.length) ::
        (if ispunct (charAt word i) then
          match erase word i with
          | some erased => removePunctReads fuel (i - 1 + 1) length erased
          | none => []
        else
          removePunctReads fuel (i + 1) length word)
    else
      []

/-- The reads `word[i]` of a call of `removePunctAndLower`. -/
def removePunctAndLowerReads (word : Str) : List (Int × Nat) :=
  removePunctReads (2 * word.length + 1) 0 word.length word

/-! ## `ListNode::contextArr` -/

/-- `ListNode::contextArr`, that is `std::array<string, 11>`: slots 0-4 hold the words before
the keyword, slot 5 the keyword, slots 6-10 the words after it. -/
abbrev contextArr := {l : List Str // l.length = 11}

/-- A default-initialised `contextArr` (`ListNode::contextArr theContext;` in `main`): eleven
empty strings. -/
def contextArr.empty : contextArr := ⟨List.replicate 11 [], by decide⟩

/-- Reading `arr.at(i)` where `i` is a literal or a loop counter that the loop bounds keep
below 11, so that no exception is possible. -/
def contextArr.slot (arr : contextArr) (i : Fin 11) : Str := arr.val.getD i.val []

/-- Reading `arr.at(i)` for a computed index: `std::out_of_range` unless `0 ≤ i < 11`. -/
def contextArr.atIdx (arr : contextArr) (i : Int) : Option Str :=
  if 0 ≤ i ∧ i < 11 then some (arr.val.getD i.toNat []) else none

/-- The assignment `arr.at(i) = s` for a computed index: `std::out_of_range` unless
`0 ≤ i < 11`. -/
def contextArr.assignAt (arr : contextArr) (i : Int) (s : Str) : Option contextArr :=
  if 0 ≤ i ∧ i < 11 then some ⟨arr.val.set i.toNat s, by simp [arr.2]⟩ else none

/-- The loop `for (int i = 1; i < 11; i++) arr.at(i - 1) = arr.at(i);` of `shiftArray`; the
first argument counts the iterations that remain. -/
def shiftArrayLoop : Nat → Int → contextArr → Option contextArr
  | 0, _, arr => some arr
  | n + 1, i, arr =>
    (arr.atIdx i).bind fun s =>
      (arr.assignAt (i - 1) s).bind fun shifted => shiftArrayLoop n (i + 1) shifted

/-- `BinarySearchTree::shiftArray`: ten iterations for `i = 1 .. 10`, then
`arr.at(10) = ""`. -/
def shiftArray (arr : contextArr) : Option contextArr :=
  (shiftArrayLoop 10 1 arr).bind fun shifted => shifted.assignAt 10 []

/-- `BinarySearchTree::fillContextArray`; `wordCount` is passed by reference but never
assigned. -/
def fillContextArray (word : Str) (arr : contextArr) (wordCount : Int) : Option contextArr :=
  if wordCount < 0 then some arr
  else if wordCount < 5 then arr.assignAt (wordCount + 5) word
  else arr.assignAt 10 word

/-- The two reference parameters of `fillContextArray` after the call: the array, and
`wordCount`, to which the function never assigns. -/
def fillContextArrayRef (word : Str) (arr : contextArr) (wordCount : Int) :
    Option (contextArr × Int) :=
  (fillContextArray word arr wordCount).map fun filled => (filled, wordCount)

/-- `BinarySearchTree::isPunct`. -/
def isPunct (word : Str) : Bool :=
  word.length == 1 && ispunct (charAt word 0)

/-! ## `ContextList`, `TreeNode` -/

/-- A `ContextList`: the contexts of its `ListNode`s from `head` to `tail`. -/
abbrev ContextList := List contextArr

/-- `ContextList::add`: the new node becomes head and tail of an empty list, and is linked
after the tail otherwise. -/
def ContextList.add (list : ContextList) (context : contextArr) : ContextList :=
  match list with
  | [] => [context]
  | head :: rest => (head :: rest) ++ [context]

/-- `ContextList::copyNodes`: a fresh node with the same context for each node of the chain. -/
def ContextList.copyNodes : ContextList → ContextList
  | [] => []
  | context :: next => context :: ContextList.copyNodes next

/-- A `TreeNode*`: `nullptr`, or a node with its keyword, its context list and its two
children. -/
inductive TreeNode where
  | nullptr : TreeNode
  | node (keyWord : Str) (contextList : ContextList) (leftChildPtr rightChildPtr : TreeNode) :
      TreeNode
  deriving DecidableEq

/-- `BinarySearchTree::insert`. In the first branch the `TreeNode` constructor copy-constructs
its list from `newList`, which holds one node. -/
def insert : TreeNode → Str → contextArr → TreeNode
  | .nullptr, keyWord, context =>
    let newList := ContextList.add [] context
    .node keyWord (ContextList.copyNodes newList) .nullptr .nullptr
  | .node key list left right, keyWord, context =>
    if keyWord < key then
      .node key list (insert left keyWord context) right
    else if keyWord = key then
      .node key (ContextList.add list context) left right
    else
      .node key list left (insert right keyWord context)

/-- The nodes in the order in which `BinarySearchTree::inorder` visits them (left subtree, the
node itself, right subtree), each as its keyword and the context list that is printed. -/
def inorder : TreeNode → List (Str × ContextList)
  | .nullptr => []
  | .node key list left right => inorder left ++ (key, list) :: inorder right

/-! ## `BinarySearchTree` -/

/-- The data members of `BinarySearchTree`. -/
structure BinarySearchTree where
  root : TreeNode
  maxPreKeyLen : Int
  maxKeyLen : Int
  maxPostKeyLen : Int
  stopWords : Bool
  stopWordVector : List Str
  deriving DecidableEq

/-- The default constructor. -/
def BinarySearchTree.new : BinarySearchTree :=
  { root := .nullptr, maxPreKeyLen := 0, maxKeyLen := 0, maxPostKeyLen := 0,
    stopWords := false, stopWordVector := [] }

/-- `BinarySearchTree::isEmpty`. -/
def BinarySearchTree.isEmpty (t : BinarySearchTree) : Bool :=
  match t.root with
  | .nullptr => true
  | .node _ _ _ _ => false

/-- The loop of `isStopWord` over the stop-word vector; the last argument is `isStop`. -/
def isStopWordLoop : List Str → Str → Bool → Bool
  | [], _, isStop => isStop
  | stop :: rest, word, isStop => isStopWordLoop rest word (if word = stop then true else isStop)

/-- `BinarySearchTree::isStopWord`. -/
def BinarySearchTree.isStopWord (t : BinarySearchTree) (word : Str) : Bool :=
  isStopWordLoop t.stopWordVector word false

/-- The loops `for (...) len += (int)context.at(i).length();` of `setMaxLengths`, which start
from `len = 0`; `slots` lists the values that `i` takes. -/
def sumLengths (context : contextArr) (slots : List (Fin 11)) : Int :=
  slots.foldl (fun acc i => acc + ((context.slot i).length : Int)) 0

/-- `BinarySearchTree::setMaxLengths`. -/
def BinarySearchTree.setMaxLengths (t : BinarySearchTree) (context : contextArr) :
    BinarySearchTree :=
  let preKeyLen : Int := sumLengths context [0, 1, 2, 3, 4]
  let keyLen : Int := ((context.slot 5).length : Int)
  let postKeyLen : Int := sumLengths context [6, 7, 8, 9, 10]
  { t with
    maxPreKeyLen := if preKeyLen > t.maxPreKeyLen then preKeyLen else t.maxPreKeyLen
    maxKeyLen := if keyLen > t.maxKeyLen then keyLen else t.maxKeyLen
    maxPostKeyLen := if postKeyLen > t.maxPostKeyLen then postKeyLen else t.maxPostKeyLen }

/-- `BinarySearchTree::add`; the result is the index after the call (the function itself
returns `true` on every path). -/
def BinarySearchTree.add (t : BinarySearchTree) (keyWord : Str) (newContext : contextArr) :
    Option BinarySearchTree :=
  (removePunctAndLower keyWord).map fun keyWord =>
    let inserted : BinarySearchTree :=
      if !t.stopWords then
        { t with root := insert t.root keyWord newContext }
      else if t.stopWords && !t.isStopWord keyWord then
        { t with root := insert t.root keyWord newContext }
      else t
    inserted.setMaxLengths newContext

/-- The reading loop of `buildStopWordVector` over the tokens of the file: each is normalised
and pushed onto the vector. -/
def buildStopWordLoop : List Str → List Str → Option (List Str)
  | [], vector => some vector
  | stopWord :: rest, vector =>
    (removePunctAndLower stopWord).bind fun stopWord =>
      buildStopWordLoop rest (vector ++ [stopWord])

/-- `BinarySearchTree::buildStopWordVector`. The file is `none` when it cannot be opened and
the list of its whitespace-separated tokens otherwise. The result pairs the index with the
returned flag. -/
def BinarySearchTree.buildStopWordVector (t : BinarySearchTree)
    (stopWordFile : Option (List Str)) : Option (BinarySearchTree × Bool) :=
  match stopWordFile with
  | none => some (t, false)
  | some tokens =>
    (buildStopWordLoop tokens t.stopWordVector).map fun vector =>
      ({ t with stopWordVector := vector }, if vector.length = 0 then false else true)

/-- `BinarySearchTree::excludeStopWords`: `stopWords = buildStopWordVector(stopWordFile)`. -/
def BinarySearchTree.excludeStopWords (t : BinarySearchTree)
    (stopWordFile : Option (List Str)) : Option (BinarySearchTree × Bool) :=
  (t.buildStopWordVector stopWordFile).map fun r =>
    ({ r.1 with stopWords := r.2 }, r.2)

/-! ## `main` -/

/-- The variables of `main` that the reading loop and the flush loop change. `calls` is a
history variable: the arguments of the calls `concordance.add(key, theContext)` made so far,
oldest first. -/
structure MainState where
  wordCount : Int
  concordance : BinarySearchTree
  theContext : contextArr
  calls : List (Str × contextArr)
  deriving DecidableEq

/-- The statements `key = theContext.at(5); concordance.add(key, theContext);
shiftArray(theContext);` shared by the reading loop and the flush loop. -/
def addAndShift (s : MainState) : Option MainState :=
  let key := s.theContext.slot 5
  (s.concordance.add key s.theContext).bind fun concordance =>
    (shiftArray s.theContext).map fun shifted =>
      { s with concordance := concordance, theContext := shifted,
               calls := s.calls ++ [(key, s.theContext)] }

/-- The block `if ( wordCount >= 6 ) { ... }` that ends an iteration of the reading loop. -/
def emitBranch (s : MainState) : Option MainState :=
  if s.wordCount ≥ 6 then addAndShift s else some s

/-- One iteration of `while ( !fileReader.eof() )`. The argument is the outcome of
`fileReader >> word`: `some word` when a token was read, `none` when the read failed. A lone
punctuation token hits `continue`. -/
def loopBody (s : MainState) (read : Option Str) : Option MainState :=
  match read with
  | some word =>
    if isPunct word then some s
    else
      (fillContextArray word s.theContext s.wordCount).bind fun filled =>
        emitBranch { s with theContext := filled,
                            wordCount := if s.wordCount < 6 then s.wordCount + 1 else s.wordCount }
  | none => emitBranch s

/-- The reading loop over the successive outcomes of `fileReader >> word`. -/
def readLoop : MainState → List (Option Str) → Option MainState
  | s, [] => some s
  | s, read :: rest => (loopBody s read).bind fun next => readLoop next rest

/-- The outcomes of `fileReader >> word` for a corpus: one successful read for each token and,
when white space follows the last token (or the file has no token at all), one failed read,
after which `eof()` holds. -/
def reads (tokens : List Str) (trailing : Bool) : List (Option Str) :=
  tokens.map some ++ (if trailing then [none] else [])

/-- The flush loop `for (key = theContext.at(5); key != ""; shiftArray(theContext),
key = theContext.at(5)) concordance.add(key, theContext);`. One unit of fuel is one evaluation
of the loop condition. -/
def flushLoop : Nat → MainState → Option MainState
  | 0, _ => none
  | fuel + 1, s =>
    if s.theContext.slot 5 ≠ [] then (addAndShift s).bind fun next => flushLoop fuel next
    else some s

/-- The state of `main` before the reading loop: `wordCount = 0`, a default-constructed
concordance on which `excludeStopWords` has been called, an array of empty strings. -/
def initialState (stopWordFile : Option (List Str)) : Option MainState :=
  (BinarySearchTree.new.excludeStopWords stopWordFile).map fun r =>
    { wordCount := 0, concordance := r.1, theContext := contextArr.empty, calls := [] }

/-- `main` up to the end of the flush loop, for a stop-word file and a corpus. The window has
six slots from the keyword on, so the flush loop evaluates its condition at most seven times. -/
def run (stopWordFile : Option (List Str)) (tokens : List Str) (trailing : Bool) :
    Option MainState :=
  (initialState stopWordFile).bind fun s0 =>
    (readLoop s0 (reads tokens trailing)).bind fun s1 => flushLoop 7 s1

/-! ## The formatter: `ListNode` accessors, `ContextList::printFormatted`, `printConcordance` -/

/-- `ListNode::getKey`. -/
def getKey (context : contextArr) : Str :=
  context.slot 5

/-- `ListNode::getPreKeyContext`: the loop over `i = 0 .. 4` that appends slot `i` and, unless
`i == 4`, a space. -/
def getPreKeyContext (context : contextArr) : Str :=
  ([0, 1, 2, 3, 4] : List (Fin 11)).foldl
    (fun preKey i =>
      if i = 4 then preKey ++ context.slot i else preKey ++ context.slot i ++ [' ']) []

/-- `ListNode::getPostKeyContext`: the loop over `i = 6 .. 10` that appends slot `i` and, unless
`i == 10`, a space. -/
def getPostKeyContext (context : contextArr) : Str :=
  ([6, 7, 8, 9, 10] : List (Fin 11)).foldl
    (fun postKey i =>
      if i = 10 then postKey ++ context.slot i else postKey ++ context.slot i ++ [' ']) []

/-- The characters written by `cout << setw(width) << s` with the fill character `' '`: when
`s` is shorter than `width` the missing characters are spaces, put before `s` under `right`
and after it under `left`; a string that is not shorter is written as it is. -/
def putWidth (width : Int) (right : Bool) (s : Str) : Str :=
  let fill := List.replicate (width.toNat - s.length) ' '
  if right then fill ++ s else s ++ fill

/-- The call `s.append(count, ' ')` with an `int` count: the count is converted to `size_t`, so
a negative one exceeds `max_size()` and `std::length_error` is thrown. -/
def appendSpaces (s : Str) (count : Int) : Option Str :=
  if 0 ≤ count then some (s ++ List.replicate count.toNat ' ') else none

/-- The call `s.insert(s.begin(), count, ' ')` with an `int` count; as for `append`, a negative
count throws. -/
def insertSpaces (s : Str) (count : Int) : Option Str :=
  if 0 ≤ count then some (List.replicate count.toNat ' ' ++ s) else none

/-- The local `padAfter` of `printFormatted`: `(keyColWidth - currKeyLen) / 2`, the division of
`int` truncating towards zero. -/
def padAfter (keyColWidth currKeyLen : Int) : Int :=
  Int.tdiv (keyColWidth - currKeyLen) 2

/-- The local `padBefore` of `printFormatted`: `keyColWidth - padAfter - currKeyLen`. -/
def padBefore (keyColWidth currKeyLen : Int) : Int :=
  keyColWidth - padAfter keyColWidth currKeyLen - currKeyLen

/-- The first output of an iteration of `printFormatted`:
`cout << setw(preKeyColWidth) << right << currNode->getPreKeyContext()`. -/
def preField (preKeyLen : Int) (context : contextArr) : Str :=
  putWidth (preKeyLen + 40) true (getPreKeyContext context)

/-- The keyword as `printFormatted` pads it: `keyWord.append(padAfter, ' ')`, then
`keyWord.insert(keyWord.begin(), padBefore, ' ')`. -/
def paddedKey (keyLen : Int) (context : contextArr) : Option Str :=
  let keyWord := getKey context
  let keyColWidth := keyLen + 10
  let currKeyLen : Int := (keyWord.length : Int)
  (appendSpaces keyWord (padAfter keyColWidth currKeyLen)).bind fun appended =>
    insertSpaces appended (padBefore keyColWidth currKeyLen)

/-- The second output of an iteration of `printFormatted`:
`cout << setw(keyColWidth) << keyWord`, still under `right`. -/
def keyField (keyLen : Int) (context : contextArr) : Option Str :=
  (paddedKey keyLen context).map fun keyWord => putWidth (keyLen + 10) true keyWord

/-- The third output of an iteration of `printFormatted`:
`cout << setw(postKeyColWidth) << left << currNode->getPostKeyContext()`. -/
def postField (postKeyLen : Int) (context : contextArr) : Str :=
  putWidth (postKeyLen + 40) false (getPostKeyContext context)

/-- The line that one iteration of the loop of `printFormatted` writes for a node, without
the end of line that `cout << endl` adds. -/
def printLine (preKeyLen keyLen postKeyLen : Int) (context : contextArr) : Option Str :=
  (keyField keyLen context).map fun key =>
    preField preKeyLen context ++ key ++ postField postKeyLen context

/-- `ContextList::printFormatted`: the lines written, one iteration for each node from the
head on. -/
def printFormatted (preKeyLen keyLen postKeyLen : Int) : ContextList → Option (List Str)
  | [] => some []
  | context :: next =>
    (printLine preKeyLen keyLen postKeyLen context).bind fun line =>
      (printFormatted preKeyLen keyLen postKeyLen next).map fun rest => line :: rest

/-- The lines that `BinarySearchTree::inorder` writes for a subtree: those of the left subtree,
those of `printFormatted` on the list of the node, those of the right subtree. -/
def inorderOutput (preKeyLen keyLen postKeyLen : Int) : TreeNode → Option (List Str)
  | .nullptr => some []
  | .node _ list left right =>
    (inorderOutput preKeyLen keyLen postKeyLen left).bind fun before =>
      (printFormatted preKeyLen keyLen postKeyLen list).bind fun lines =>
        (inorderOutput preKeyLen keyLen postKeyLen right).map fun after =>
          before ++ lines ++ after

/-- `BinarySearchTree::printConcordance`: `inorder(root)` with the three maximum lengths. -/
def BinarySearchTree.printConcordance (t : BinarySearchTree) : Option (List Str) :=
  inorderOutput t.maxPreKeyLen t.maxKeyLen t.maxPostKeyLen t.root

/-! ## The linked representation of `ContextList`, copying, the end of `main` -/

/-- A `ContextList` with its two pointers: `chain` holds the contexts of the nodes reached
from `head` by `getNext()`, `tail` the position in that chain of the node `tail` points to
(`none` for `nullptr`). -/
structure LinkedList where
  chain : List contextArr
  tail : Option Nat
  deriving DecidableEq

/-- The default constructor of `ContextList`: `head` and `tail` are `nullptr`. -/
def LinkedList.new : LinkedList :=
  { chain := [], tail := none }

/-- `ContextList::add` on the linked representation. With `head == nullptr` the new node
becomes head and tail. Otherwise `tail->setNext(newNode)` replaces what follows the tail node
by the new node, which becomes the tail; a null tail is dereferenced (`none`). -/
def LinkedList.add (list : LinkedList) (context : contextArr) : Option LinkedList :=
  match list.chain with
  | [] => some { chain := [context], tail := some 0 }
  | head :: rest =>
    match list.tail with
    | none => none
    | some i =>
      if i < (head :: rest).length then
        some { chain := (head :: rest).take (i + 1) ++ [context], tail := some (i + 1) }
      else none

/-- `ContextList::clear`: every node is deleted and `head` ends as `nullptr`; `tail` is not
assigned. -/
def LinkedList.clear (list : LinkedList) : LinkedList :=
  { chain := [], tail := list.tail }

/-- The loop `curr = head; while (curr->getNext() != nullptr) curr = curr->getNext();` of the
copy constructor and of `operator=`: the position of the last node of the chain. With a null
`head` the first `curr->getNext()` dereferences `nullptr` (`none`). -/
def tailWalk : List contextArr → Option Nat
  | [] => none
  | [_] => some 0
  | _ :: next :: rest => (tailWalk (next :: rest)).map fun i => i + 1

/-- The copy constructor `ContextList::ContextList(const ContextList&)`:
`head = copyNodes(aList.head)`, then the walk to the last node, which becomes `tail`. -/
def LinkedList.copy (aList : LinkedList) : Option LinkedList :=
  let head := ContextList.copyNodes aList.chain
  (tailWalk head).map fun last => { chain := head, tail := some last }

/-- `ContextList::operator=`; `sameObject` tells whether `this == &rhs`. Otherwise `clear()`,
`head = copyNodes(rhs.head)` and the walk to the last node. -/
def LinkedList.assign (self rhs : LinkedList) (sameObject : Bool) : Option LinkedList :=
  if sameObject then some self
  else
    let cleared := self.clear
    let head := ContextList.copyNodes rhs.chain
    (tailWalk head).map fun last => { cleared with chain := head, tail := some last }

/-- The copy constructor of `ContextList` on the contexts alone: the copied chain, when the
walk to its last node can start. -/
def ContextList.copy (aList : ContextList) : Option ContextList :=
  (tailWalk (ContextList.copyNodes aList)).map fun _ => ContextList.copyNodes aList

/-- `BinarySearchTree::copyTree`: `new TreeNode(key, list)` copy-constructs the list, then the
left and the right subtree are copied. -/
def copyTree : TreeNode → Option TreeNode
  | .nullptr => some .nullptr
  | .node key list left right =>
    (ContextList.copy list).bind fun copiedList =>
      (copyTree left).bind fun copiedLeft =>
        (copyTree right).map fun copiedRight => .node key copiedList copiedLeft copiedRight

/-- The copy constructor `BinarySearchTree::BinarySearchTree(const BinarySearchTree&)`. -/
def BinarySearchTree.copy (tree : BinarySearchTree) : Option BinarySearchTree :=
  (copyTree tree.root).map fun root =>
    { root := root, maxPreKeyLen := tree.maxPreKeyLen, maxKeyLen := tree.maxKeyLen,
      maxPostKeyLen := tree.maxPostKeyLen, stopWords := tree.stopWords,
      stopWordVector := tree.stopWordVector }

/-- `BinarySearchTree::operator=`; `sameObject` tells whether `this == &rhs`. Otherwise the old
tree is destroyed and the members are set as in the copy constructor. -/
def BinarySearchTree.assign (self rhs : BinarySearchTree) (sameObject : Bool) :
    Option BinarySearchTree :=
  if sameObject then some self
  else
    (copyTree rhs.root).map fun root =>
      { root := root, maxPreKeyLen := rhs.maxPreKeyLen, maxKeyLen := rhs.maxKeyLen,
        maxPostKeyLen := rhs.maxPostKeyLen, stopWords := rhs.stopWords,
        stopWordVector := rhs.stopWordVector }

/-- The value that `BinarySearchTree::add` returns: its only `return` statement is
`return true`, after `setMaxLengths`. -/
def BinarySearchTree.addResult (t : BinarySearchTree) (keyWord : Str)
    (newContext : contextArr) : Option Bool :=
  (t.add keyWord newContext).map fun _ => true

/-- The end of `main`: `if ( concordance.isEmpty() )` the message, `else`
`concordance.printConcordance()`; the lines written to `cout`. -/
def output (concordance : BinarySearchTree) : Option (List Str) :=
  if concordance.isEmpty then some ["No words found in corpus file!".toList]
  else concordance.printConcordance

/-! ## The free store: objects behind pointers -/

/-- A `ListNode` object: `context` and `next`. A pointer is an address, `none` is `nullptr`. -/
structure ListCell where
  context : contextArr
  next : Option Nat
  deriving DecidableEq

/-- A `ContextList` object: its `head` and `tail` pointers. -/
structure ListObject where
  head : Option Nat
  tail : Option Nat
  deriving DecidableEq

/-- A `TreeNode` object; the member `contextList` is held by value. -/
structure TreeCell where
  keyWord : Str
  contextList : ListObject
  leftChildPtr : Option Nat
  rightChildPtr : Option Nat
  deriving DecidableEq

/-- A `BinarySearchTree` object: `root` is a pointer, the other members are held by value. -/
structure TreeObject where
  root : Option Nat
  maxPreKeyLen : Int
  maxKeyLen : Int
  maxPostKeyLen : Int
  stopWords : Bool
  stopWordVector : List Str
  deriving DecidableEq

/-- The objects of a program state. The address of an object is its position; `new` takes the
next position, `delete` leaves `none` at the position, and no address is handed out twice. -/
structure Heap where
  listNodes : List (Option ListCell)
  treeNodes : List (Option TreeCell)
  trees : List TreeObject
  deriving DecidableEq

/-- The state without objects. -/
def Heap.empty : Heap := { listNodes := [], treeNodes := [], trees := [] }

/-- The `ListNode` at an address, when there is one. -/
def Heap.listNode (h : Heap) (p : Nat) : Option ListCell := (h.listNodes[p]?).join

/-- The `TreeNode` at an address, when there is one. -/
def Heap.treeNode (h : Heap) (p : Nat) : Option TreeCell := (h.treeNodes[p]?).join

/-- The `BinarySearchTree` object at an address, when there is one. -/
def Heap.tree (h : Heap) (p : Nat) : Option TreeObject := h.trees[p]?

/-- The expression `new ListNode(...)`: the state with the new object and its address. -/
def Heap.newListNode (h : Heap) (cell : ListCell) : Heap × Nat :=
  ({ h with listNodes := h.listNodes ++ [some cell] }, h.listNodes.length)

/-- The expression `new TreeNode(...)` once its members are built. -/
def Heap.newTreeNode (h : Heap) (cell : TreeCell) : Heap × Nat :=
  ({ h with treeNodes := h.treeNodes ++ [some cell] }, h.treeNodes.length)

/-- A new `BinarySearchTree` object once its members are built. -/
def Heap.newTree (h : Heap) (t : TreeObject) : Heap × Nat :=
  ({ h with trees := h.trees ++ [t] }, h.trees.length)

/-- `ListNode::setNext` through a pointer; `none` when the pointer is null or dangling. -/
def setNext (h : Heap) (node : Option Nat) (nextNode : Option Nat) : Option Heap :=
  node.bind fun p => (h.listNode p).map fun cell =>
    { h with listNodes := h.listNodes.set p (some { cell with next := nextNode }) }

/-- `TreeNode::setLeftChild` through a pointer. -/
def setLeftChild (h : Heap) (node : Option Nat) (leftChild : Option Nat) : Option Heap :=
  node.bind fun p => (h.treeNode p).map fun cell =>
    { h with treeNodes := h.treeNodes.set p (some { cell with leftChildPtr := leftChild }) }

/-- `TreeNode::setRightChild` through a pointer. -/
def setRightChild (h : Heap) (node : Option Nat) (rightChild : Option Nat) : Option Heap :=
  node.bind fun p => (h.treeNode p).map fun cell =>
    { h with treeNodes := h.treeNodes.set p (some { cell with rightChildPtr := rightChild }) }

/-- `ContextList::copyNodes` on pointers: the new node first holds the `next` of the original,
then `setNext` replaces it by the copy of the rest. The first argument bounds the depth of the
recursion. -/
def Heap.copyNodes : Nat → Heap → Option Nat → Option (Heap × Option Nat)
  | 0, _, _ => none
  | _ + 1, h, none => some (h, none)
  | fuel + 1, h, some origHead =>
    (h.listNode origHead).bind fun orig =>
      let created := h.newListNode { context := orig.context, next := orig.next }
      (created.1.listNode origHead).bind fun orig =>
        (Heap.copyNodes fuel created.1 orig.next).bind fun rest =>
          (setNext rest.1 (some created.2) rest.2).map fun h => (h, some created.2)

/-- The loop `while (curr->getNext() != nullptr) curr = curr->getNext();` of the copy
constructor and of `operator=`; the result is `curr` after the loop. -/
def Heap.tailWalk : Nat → Heap → Option Nat → Option Nat
  | 0, _, _ => none
  | fuel + 1, h, curr =>
    curr.bind fun p => (h.listNode p).bind fun cell =>
      match cell.next with
      | none => some p
      | some next => Heap.tailWalk fuel h (some next)

/-- The copy constructor of `ContextList` on pointers; the loops get as many steps as there
are `ListNode` objects, one more than a chain without a cycle can take. -/
def Heap.copyList (h : Heap) (aList : ListObject) : Option (Heap × ListObject) :=
  (Heap.copyNodes (h.listNodes.length + 1) h aList.head).bind fun copied =>
    (Heap.tailWalk (copied.1.listNodes.length + 1) copied.1 copied.2).map fun curr =>
      (copied.1, { head := copied.2, tail := some curr })

/-- `ContextList::add` on pointers. -/
def Heap.addToList (h : Heap) (list : ListObject) (context : contextArr) :
    Option (Heap × ListObject) :=
  let created := h.newListNode { context := context, next := none }
  match list.head with
  | none => some (created.1, { head := some created.2, tail := some created.2 })
  | some _ =>
    (setNext created.1 list.tail (some created.2)).map fun h =>
      (h, { list with tail := some created.2 })

/-- `ContextList::clear` on pointers, which the destructor calls. -/
def Heap.clearList : Nat → Heap → ListObject → Option (Heap × ListObject)
  | 0, _, _ => none
  | fuel + 1, h, list =>
    match list.head with
    | none => some (h, list)
    | some nodeToDelete =>
      (h.listNode nodeToDelete).bind fun cell =>
        Heap.clearList fuel { h with listNodes := h.listNodes.set nodeToDelete none }
          { list with head := cell.next }

/-- `TreeNode::updateContextList` through a pointer. -/
def updateContextList (h : Heap) (node : Nat) (context : contextArr) : Option Heap :=
  (h.treeNode node).bind fun cell =>
    (h.addToList cell.contextList context).map fun added =>
      { added.1 with
        treeNodes := added.1.treeNodes.set node (some { cell with contextList := added.2 }) }

/-- `BinarySearchTree::insert` on pointers. In the first branch the local `newList` gets the
context, the `TreeNode` constructor copy-constructs its member from it, and `newList` is
destroyed when the function returns. -/
def Heap.insert : Nat → Heap → Option Nat → Str → contextArr → Option (Heap × Option Nat)
  | 0, _, _, _, _ => none
  | _ + 1, h, none, keyWord, context =>
    (h.addToList { head := none, tail := none } context).bind fun newList =>
      (newList.1.copyList newList.2).bind fun member =>
        let created := member.1.newTreeNode
          { keyWord := keyWord, contextList := member.2, leftChildPtr := none,
            rightChildPtr := none }
        (Heap.clearList (created.1.listNodes.length + 1) created.1 newList.2).map fun cleared =>
          (cleared.1, some created.2)
  | fuel + 1, h, some treePtr, keyWord, context =>
    (h.treeNode treePtr).bind fun cell =>
      if keyWord < cell.keyWord then
        (Heap.insert fuel h cell.leftChildPtr keyWord context).bind fun r =>
          (setLeftChild r.1 (some treePtr) r.2).map fun h => (h, some treePtr)
      else if keyWord = cell.keyWord then
        (updateContextList h treePtr context).map fun h => (h, some treePtr)
      else
        (Heap.insert fuel h cell.rightChildPtr keyWord context).bind fun r =>
          (setRightChild r.1 (some treePtr) r.2).map fun h => (h, some treePtr)

/-- `BinarySearchTree::copyTree` on pointers: `new TreeNode(key, list)` copy-constructs the
list and leaves both children null, then the copies of the subtrees are set. -/
def Heap.copyTree : Nat → Heap → Option Nat → Option (Heap × Option Nat)
  | 0, _, _ => none
  | _ + 1, h, none => some (h, none)
  | fuel + 1, h, some origTreePtr =>
    (h.treeNode origTreePtr).bind fun orig =>
      (h.copyList orig.contextList).bind fun member =>
        let created := member.1.newTreeNode
          { keyWord := orig.keyWord, contextList := member.2, leftChildPtr := none,
            rightChildPtr := none }
        (created.1.treeNode origTreePtr).bind fun orig =>
          (Heap.copyTree fuel created.1 orig.leftChildPtr).bind fun left =>
            (setLeftChild left.1 (some created.2) left.2).bind fun h =>
              (h.treeNode origTreePtr).bind fun orig =>
                (Heap.copyTree fuel h orig.rightChildPtr).bind fun right =>
                  (setRightChild right.1 (some created.2) right.2).map fun h =>
                    (h, some created.2)

/-- The members of a `BinarySearchTree` object other than the tree, as an index without
entries: what `isStopWord` and `setMaxLengths` read. -/
def TreeObject.members (t : TreeObject) : BinarySearchTree :=
  { root := .nullptr, maxPreKeyLen := t.maxPreKeyLen, maxKeyLen := t.maxKeyLen,
    maxPostKeyLen := t.maxPostKeyLen, stopWords := t.stopWords,
    stopWordVector := t.stopWordVector }

/-- `BinarySearchTree::setMaxLengths` on an object of the free store. -/
def TreeObject.setMaxLengths (t : TreeObject) (context : contextArr) : TreeObject :=
  { t with
    maxPreKeyLen := (t.members.setMaxLengths context).maxPreKeyLen,
    maxKeyLen := (t.members.setMaxLengths context).maxKeyLen,
    maxPostKeyLen := (t.members.setMaxLengths context).maxPostKeyLen }

/-- The default constructor of `BinarySearchTree` for a new object. -/
def Heap.newIndex (h : Heap) : Heap × Nat :=
  h.newTree
    { root := none, maxPreKeyLen := 0, maxKeyLen := 0, maxPostKeyLen := 0,
      stopWords := false, stopWordVector := [] }

/-- The copy constructor of `BinarySearchTree` for a new object, from the object at address
`tree`. -/
def Heap.copyIndex (h : Heap) (tree : Nat) : Option (Heap × Nat) :=
  (h.tree tree).bind fun source =>
    (Heap.copyTree (h.treeNodes.length + 1) h source.root).map fun copied =>
      copied.1.newTree { source with root := copied.2 }

/-- `BinarySearchTree::add` on the object at address `self`. -/
def Heap.add (h : Heap) (self : Nat) (keyWord : Str) (newContext : contextArr) : Option Heap :=
  (h.tree self).bind fun t =>
    (removePunctAndLower keyWord).bind fun keyWord =>
      let inserted : Option (Heap × TreeObject) :=
        if !t.stopWords then
          (Heap.insert (h.treeNodes.length + 1) h t.root keyWord newContext).map fun r =>
            (r.1, { t with root := r.2 })
        else if t.stopWords && !t.members.isStopWord keyWord then
          (Heap.insert (h.treeNodes.length + 1) h t.root keyWord newContext).map fun r =>
            (r.1, { t with root := r.2 })
        else some (h, t)
      inserted.map fun r =>
        { r.1 with trees := r.1.trees.set self (r.2.setMaxLengths newContext) }

/-- A sequence of calls `add(word, context)` on the object at address `self`. -/
def Heap.addAll (h : Heap) (self : Nat) : List (Str × contextArr) → Option Heap
  | [] => some h
  | call :: rest => (h.add self call.1 call.2).bind fun next => next.addAll self rest

/-- The contexts of a chain of `ListNode` objects, from `head` on. -/
def Heap.chain : Nat → Heap → Option Nat → Option ContextList
  | 0, _, _ => none
  | _ + 1, _, none => some []
  | fuel + 1, h, some p =>
    (h.listNode p).bind fun cell => (Heap.chain fuel h cell.next).map fun rest =>
      cell.context :: rest

/-- The tree of `TreeNode` objects below a pointer, each with the contexts of its list. -/
def Heap.subtree : Nat → Heap → Option Nat → Option TreeNode
  | 0, _, _ => none
  | _ + 1, _, none => some .nullptr
  | fuel + 1, h, some p =>
    (h.treeNode p).bind fun cell =>
      (Heap.chain (fuel + 1) h cell.contextList.head).bind fun list =>
        (Heap.subtree fuel h cell.leftChildPtr).bind fun left =>
          (Heap.subtree fuel h cell.rightChildPtr).map fun right =>
            .node cell.keyWord list left right

/-- The index that the object at address `tree` stands for. -/
def Heap.index (fuel : Nat) (h : Heap) (tree : Nat) : Option BinarySearchTree :=
  (h.tree tree).bind fun t =>
    (Heap.subtree fuel h t.root).map fun root =>
      { root := root, maxPreKeyLen := t.maxPreKeyLen, maxKeyLen := t.maxKeyLen,
        maxPostKeyLen := t.maxPostKeyLen, stopWords := t.stopWords,
        stopWordVector := t.stopWordVector }

/-! ## Notions used to state the properties -/

/-- The normalised form of a word as the specification describes it: the characters that are
not punctuation, in their order, each in lower case. -/
def normalize (word : Str) : Str :=
  (word.filter fun c => !ispunct c).map tolower

/-- The keywords of the nodes in the order of the in-order traversal. -/
def keys (t : TreeNode) : List Str :=
  (inorder t).map Prod.fst

/-- A sequence of calls `add(word, context)` on an index, in call order. -/
def addAll : BinarySearchTree → List (Str × contextArr) → Option BinarySearchTree
  | t, [] => some t
  | t, call :: rest => (t.add call.1 call.2).bind fun next => addAll next rest

/-- An index with no entry, maximum lengths 0 and the given stop-word flag and vector: what
the default constructor followed by `excludeStopWords` leaves. -/
def emptyIndex (stopWords : Bool) (stopWordVector : List Str) : BinarySearchTree :=
  { BinarySearchTree.new with stopWords := stopWords, stopWordVector := stopWordVector }

/-- Whether `add` reaches one of its two calls of `insert` for this word: stop words are
inactive, or the normalised word is not in the stop-word vector. -/
def BinarySearchTree.indexes (t : BinarySearchTree) (word : Str) : Bool :=
  !t.stopWords || !t.isStopWord (normalize word)

/-- The contexts, in call order, of the calls whose word is indexed and normalises to `k`. -/
def occurrences (t0 : BinarySearchTree) (calls : List (Str × contextArr)) (k : Str) :
    ContextList :=
  (calls.filter fun call => t0.indexes call.1 && decide (normalize call.1 = k)).map Prod.snd

/-- The local `preKeyLen` of `setMaxLengths`: the total length of slots 0-4. -/
def preKeyLen (context : contextArr) : Int :=
  sumLengths context [0, 1, 2, 3, 4]

/-- The local `keyLen` of `setMaxLengths`: the length of slot 5. -/
def keyLen (context : contextArr) : Int :=
  ((context.slot 5).length : Int)

/-- The local `postKeyLen` of `setMaxLengths`: the total length of slots 6-10. -/
def postKeyLen (context : contextArr) : Int :=
  sumLengths context [6, 7, 8, 9, 10]

/-- The array of empty strings inhabits `contextArr`. -/
instance : Inhabited contextArr := ⟨contextArr.empty⟩

/-- The index `t` holds what the calls `hist` put into the index `t0`, which had no entry:
the stop-word configuration is that of `t0`, the keys are strictly increasing in traversal
order and are the normalised indexed words, every entry lists its occurrences in call order,
and the maximum lengths are the running maxima. -/
structure Represents (t0 t : BinarySearchTree) (hist : List (Str × contextArr)) : Prop where
  stop : t.stopWords = t0.stopWords
  vec : t.stopWordVector = t0.stopWordVector
  sorted : (keys t.root).Sorted (· < ·)
  mem : ∀ k, k ∈ keys t.root ↔ ∃ call ∈ hist, t0.indexes call.1 = true ∧ normalize call.1 = k
  entries : ∀ e ∈ inorder t.root, e.2 = occurrences t0 hist e.1
  maxPre : t.maxPreKeyLen = (hist.map fun call => preKeyLen call.2).foldl max t0.maxPreKeyLen
  maxKey : t.maxKeyLen = (hist.map fun call => keyLen call.2).foldl max t0.maxKeyLen
  maxPost : t.maxPostKeyLen = (hist.map fun call => postKeyLen call.2).foldl max t0.maxPostKeyLen

/-- The content the specification prescribes for slot `m` of the record of the word at
position `i` (from 0) of the admitted words `ws`: the word at position `i + m - 5` when there
is one, the empty string otherwise. -/
def expectedSlot (ws : List Str) (i m : Nat) : Str :=
  if 5 ≤ i + m ∧ i + m < ws.length + 5 then ws.getD (i + m - 5) [] else []

/-- The context record the specification prescribes for the word at position `i` (from 0) of
the admitted words `ws`. -/
def expectedRecord (ws : List Str) (i : Nat) : contextArr :=
  ⟨(List.range 11).map (expectedSlot ws i), by simp⟩

/-- The calls of `add` the specification prescribes for the first `j` admitted words: the word
and its record, in corpus order. -/
def expectedCalls (ws : List Str) (j : Nat) : List (Str × contextArr) :=
  (List.range j).map fun i => (ws.getD i [], expectedRecord ws i)

/-- The tokens of the corpus that the reading loop admits: those that are not a lone
punctuation character. -/
def admitted (tokens : List Str) : List Str :=
  tokens.filter fun w => !isPunct w

/-- The state `s` of `main` when `j` records of the admitted words `ws` have been passed to
`add`: the window holds the record of position `j`, the calls made are the first `j` expected
calls, and the concordance is the index `c0` after those calls. -/
structure Window (c0 : BinarySearchTree) (ws : List Str) (j : Nat) (s : MainState) : Prop where
  ctx : ∀ n, n < 11 → s.theContext.val.getD n [] = expectedSlot ws j n
  calls : s.calls = expectedCalls ws j
  conc : addAll c0 s.calls = some s.concordance

/-- The state `s` of the reading loop after the admitted words `ws`. -/
structure Reading (c0 : BinarySearchTree) (ws : List Str) (s : MainState) : Prop where
  count : s.wordCount = ((min ws.length 6 : Nat) : Int)
  window : Window c0 ws (ws.length - 5) s

/-- The stop-word flag and vector that `excludeStopWords` leaves for a stop-word file. -/
def stopConfig (stopWordFile : Option (List Str)) : Bool × List Str :=
  match stopWordFile with
  | none => (false, [])
  | some tokens => (!tokens.isEmpty, tokens.map normalize)

/-- The corpus "a b c d e f g h". -/
def corpusAH : List Str :=
  ["a", "b", "c", "d", "e", "f", "g", "h"].map String.toList

/-- The corpus "the cat sat". -/
def corpusCat : List Str :=
  ["the", "cat", "sat"].map String.toList

/-- The corpus "b a B. a". -/
def corpusRepeat : List Str :=
  ["b", "a", "B.", "a"].map String.toList

/-- The corpus "a -- b". -/
def corpusHyphens : List Str :=
  ["a", "--", "b"].map String.toList

/-- The corpus "x y". -/
def corpusXY : List Str :=
  ["x", "y"].map String.toList

/-- The number of `add` calls that the flush loop has to make for a window: the length of the
longest run of non-empty strings that starts at slot 5. -/
def pending (arr : contextArr) : Nat :=
  ((arr.val.drop 5).takeWhile fun slot => decide (slot ≠ [])).length

/-- The non-empty words of a list joined by single spaces. -/
def joinWords (words : List Str) : Str :=
  List.intercalate [' '] (words.filter fun w => decide (w ≠ []))

/-- A record with the keyword "ab" alone. -/
def recordAb : contextArr :=
  ⟨["", "", "", "", "", "ab", "", "", "", "", ""].map String.toList, by decide⟩

/-- The record of "y" in the corpus "x y". -/
def recordY : contextArr :=
  ⟨["", "", "", "", "x", "y", "", "", "", "", ""].map String.toList, by decide⟩

/-- The index after `excludeStopWords` on a file with the one token "the". -/
def indexWithThe : BinarySearchTree :=
  { BinarySearchTree.new with stopWords := true, stopWordVector := ["the".toList] }

/-- A record with the keyword "the" alone. -/
def recordThe : contextArr :=
  ⟨["", "", "", "", "", "the", "", "", "", "", ""].map String.toList, by decide⟩

/-- The corpus "the , The". -/
def corpusOnlyThe : List Str :=
  ["the", ",", "The"].map String.toList

/-- The pointers of a linked list are consistent: the chain is empty, or `tail` points to its
last node. -/
def WellLinked (list : LinkedList) : Prop :=
  list.chain = [] ∨ list.tail = some (list.chain.length - 1)

/-- Every node of the tree holds at least one context: what `insert` establishes, and what the
walk to the last node in the copy constructor of `ContextList` relies on. -/
def listsNonEmpty : TreeNode → Bool
  | .nullptr => true
  | .node _ list left right => !list.isEmpty && listsNonEmpty left && listsNonEmpty right

/-- The index after `add("ab", recordAb)`, `add("y", recordY)`, `add("Ab.", recordAb)` on a
new index. -/
def indexAbY : BinarySearchTree :=
  { BinarySearchTree.new with
    root := insert (insert (insert .nullptr "ab".toList recordAb) "y".toList recordY)
      "ab".toList recordAb
    maxPreKeyLen := 1
    maxKeyLen := 2 }

/-- The numbers of objects of a state: a mark between the objects made before and after. -/
structure Mark where
  listNodes : Nat
  treeNodes : Nat
  trees : Nat
  deriving DecidableEq

/-- The mark of a state: every object of the state is before it. -/
def Heap.mark (h : Heap) : Mark :=
  { listNodes := h.listNodes.length, treeNodes := h.treeNodes.length, trees := h.trees.length }

/-- The first mark is not after the second. -/
def Mark.le (m n : Mark) : Prop :=
  m.listNodes ≤ n.listNodes ∧ m.treeNodes ≤ n.treeNodes ∧ m.trees ≤ n.trees

/-- Every pointer held by an object leads to an object that exists, a `next` or child pointer
to one made later than its holder, and every `TreeNode` has a `head` and a `tail`. -/
structure WellFormed (h : Heap) : Prop where
  next : ∀ a cell, h.listNode a = some cell → ∀ p, cell.next = some p →
    a < p ∧ (h.listNode p).isSome = true
  left : ∀ a cell, h.treeNode a = some cell → ∀ p, cell.leftChildPtr = some p →
    a < p ∧ (h.treeNode p).isSome = true
  right : ∀ a cell, h.treeNode a = some cell → ∀ p, cell.rightChildPtr = some p →
    a < p ∧ (h.treeNode p).isSome = true
  head : ∀ a cell, h.treeNode a = some cell →
    ∃ p, cell.contextList.head = some p ∧ (h.listNode p).isSome = true
  tail : ∀ a cell, h.treeNode a = some cell →
    ∃ p, cell.contextList.tail = some p ∧ (h.listNode p).isSome = true
  root : ∀ a t, h.tree a = some t → ∀ p, t.root = some p → (h.treeNode p).isSome = true

/-- No object made after the mark points to an object made before it. -/
structure Closed (m : Mark) (h : Heap) : Prop where
  head : ∀ a cell, m.treeNodes ≤ a → h.treeNode a = some cell →
    ∀ p, cell.contextList.head = some p → m.listNodes ≤ p
  tail : ∀ a cell, m.treeNodes ≤ a → h.treeNode a = some cell →
    ∀ p, cell.contextList.tail = some p → m.listNodes ≤ p
  root : ∀ a t, m.trees ≤ a → h.tree a = some t → ∀ p, t.root = some p → m.treeNodes ≤ p

/-- The objects made before the mark are the same in both states. -/
structure Agree (m : Mark) (h h' : Heap) : Prop where
  listNode : ∀ a, a < m.listNodes → h'.listNode a = h.listNode a
  treeNode : ∀ a, a < m.treeNodes → h'.treeNode a = h.treeNode a
  tree : ∀ a, a < m.trees → h'.tree a = h.tree a

/-- The second state has the objects of the first, possibly changed, and possibly more. -/
structure Grows (h h' : Heap) : Prop where
  mark : h.mark.le h'.mark
  listNode : ∀ a, (h.listNode a).isSome = true → (h'.listNode a).isSome = true
  treeNode : ∀ a, (h.treeNode a).isSome = true → (h'.treeNode a).isSome = true

/-- What a step of the program that works on objects after the mark keeps. -/
structure Step (m : Mark) (h h' : Heap) : Prop where
  wellFormed : WellFormed h'
  closed : Closed m h'
  agree : Agree m h h'
  grows : Grows h h'

/-- The state after `add("ab", recordAb)`, `add("y", recordY)`, `add("Ab.", recordAb)` on a
new index in the state without objects; the two deleted nodes were the local lists of
`insert`. -/
def heapAbY : Heap :=
  Heap.mk
    [none, some (ListCell.mk recordAb (some 4)), none, some (ListCell.mk recordY none),
      some (ListCell.mk recordAb none)]
    [some (TreeCell.mk "ab".toList (ListObject.mk (some 1) (some 4)) none (some 1)),
      some (TreeCell.mk "y".toList (ListObject.mk (some 3) (some 3)) none none)]
    [TreeObject.mk (some 0) 1 2 0 false []]

/-- A record with the keyword "Ab." alone. -/
def recordAbDot : contextArr :=
  ⟨["", "", "", "", "", "Ab.", "", "", "", "", ""].map String.toList, by decide⟩

/-- The ordering of a binary search tree: at every node the keys of the left subtree are
smaller than the key of the node and the keys of the right subtree are greater. -/
def isSearchTree : TreeNode → Prop
  | .nullptr => True
  | .node key _ left right =>
    (∀ k ∈ keys left, k < key) ∧ (∀ k ∈ keys right, key < k) ∧
      isSearchTree left ∧ isSearchTree right

/-! # Verification -/

/-! ## The normaliser -/

theorem toNat_ofNat_small (n : Nat) (h : n < 55296) : (Char.ofNat n).toNat = n := by
  have hv : n.isValidChar := Or.inl h
  simp only [Char.ofNat, hv, dite_true, Char.toNat, Char.ofNatAux]
  rfl

theorem ispunct_iff (c : Char) : ispunct c = true ↔
    (33 ≤ c.toNat ∧ c.toNat ≤ 47) ∨ (58 ≤ c.toNat ∧ c.toNat ≤ 64) ∨
    (91 ≤ c.toNat ∧ c.toNat ≤ 96) ∨ (123 ≤ c.toNat ∧ c.toNat ≤ 126) := by
  simp [ispunct, or_assoc]

theorem ispunct_tolower (c : Char) : ispunct (tolower c) = ispunct c := by
  rw [Bool.eq_iff_iff, ispunct_iff, ispunct_iff]
  unfold tolower
  split_ifs with h
  · rw [toNat_ofNat_small _ (by omega)]
    omega
  · rfl

theorem tolower_tolower (c : Char) : tolower (tolower c) = tolower c := by
  unfold tolower
  split_ifs with h h2
  · rw [toNat_ofNat_small _ (by omega)] at h2
    omega
  · rfl
  · rfl

theorem ispunct_nul : ispunct (Char.ofNat 0) = false := by decide

theorem charAt_of_lt (word : Str) (i : Nat) (h : i < word.length) :
    charAt word (i : Int) = word[i] := by
  simp [charAt, List.getD_eq_getElem?_getD, List.getElem?_eq_getElem h]

theorem charAt_of_ge (word : Str) (i : Nat) (h : word.length ≤ i) :
    charAt word (i : Int) = Char.ofNat 0 := by
  simp [charAt, List.getD_eq_getElem?_getD, List.getElem?_eq_none h]

theorem removePunctLoop_eq (fuel : Nat) : ∀ (i length : Nat) (word : Str),
    word.length ≤ length → (length - i) + (word.length - i) < fuel →
    removePunctLoop fuel (i : Int) (length : Int) word =
      some (word.take i ++ (word.drop i).filter fun c => !ispunct c) := by
  induction fuel with
  | zero => intro i length word _ h; omega
  | succ fuel ih =>
    intro i length word hlen hfuel
    rw [removePunctLoop]
    by_cases hi : i < length
    · have hi' : (i : Int) < (length : Int) := by exact_mod_cast hi
      rw [if_pos hi']
      by_cases hw : i < word.length
      · rw [charAt_of_lt word i hw]
        have hdrop := List.drop_eq_getElem_cons hw
        by_cases hp : ispunct word[i] = true
        · rw [if_pos hp]
          have he : erase word (i : Int) = some (word.eraseIdx i) := by
            simp [erase]; omega
          rw [he, Option.some_bind]
          have hi1 : ((i : Int) - 1 + 1) = (i : Int) := by omega
          rw [hi1, ih i length (word.eraseIdx i)
            (by rw [List.length_eraseIdx, if_pos hw]; omega)
            (by rw [List.length_eraseIdx, if_pos hw]; omega)]
          rw [hdrop, List.filter_cons]
          simp only [hp, Bool.not_true, Bool.false_eq_true, if_false]
          rw [List.eraseIdx_eq_take_drop_succ]
          congr 2
          · rw [List.take_append_of_le_length (by rw [List.length_take]; omega)]
            rw [List.take_take]; simp
          · rw [List.drop_append_of_le_length (by rw [List.length_take]; omega)]
            rw [List.drop_take]; simp
        · rw [if_neg hp]
          have hi1 : ((i : Int) + 1) = ((i + 1 : Nat) : Int) := by push_cast; rfl
          rw [hi1, ih (i + 1) length word hlen (by omega)]
          have hp' : (!ispunct word[i]) = true := by simp [hp]
          rw [hdrop, List.filter_cons, if_pos hp', List.take_succ, List.getElem?_eq_getElem hw,
            Option.toList_some, List.append_assoc, List.singleton_append]
      · have hw' : word.length ≤ i := by omega
        rw [charAt_of_ge word i hw', ispunct_nul]
        simp only [Bool.false_eq_true, if_false]
        have hi1 : ((i : Int) + 1) = ((i + 1 : Nat) : Int) := by push_cast; rfl
        rw [hi1, ih (i + 1) length word hlen (by omega)]
        rw [List.take_of_length_le (by omega), List.drop_eq_nil_of_le (by omega),
          List.take_of_length_le hw', List.drop_eq_nil_of_le hw']
    · have hi' : ¬ (i : Int) < (length : Int) := by exact_mod_cast hi
      rw [if_neg hi']
      have hw' : word.length ≤ i := by omega
      rw [List.take_of_length_le hw', List.drop_eq_nil_of_le hw']
      simp

theorem removePunctAndLower_eq (word : Str) :
    removePunctAndLower word = some (normalize word) := by
  unfold removePunctAndLower normalize
  have h := removePunctLoop_eq (2 * word.length + 1) 0 word.length word (le_refl _) (by omega)
  rw [show ((0 : Nat) : Int) = 0 from rfl] at h
  rw [h]
  simp

/-! ## The search tree -/

theorem copyNodes_eq (l : ContextList) : ContextList.copyNodes l = l := by
  induction l with
  | nil => rfl
  | cons c l ih => simp [ContextList.copyNodes, ih]

theorem ContextList_add_eq (l : ContextList) (c : contextArr) : ContextList.add l c = l ++ [c] := by
  cases l <;> rfl

theorem keys_node (key : Str) (list : ContextList) (left right : TreeNode) :
    keys (.node key list left right) = keys left ++ key :: keys right := by
  simp [keys, inorder]

theorem mem_keys_insert (t : TreeNode) (k : Str) (c : contextArr) (k' : Str) :
    k' ∈ keys (insert t k c) ↔ k' = k ∨ k' ∈ keys t := by
  induction t with
  | nullptr => simp [insert, keys, inorder]
  | node key list left right ihl ihr =>
    rw [insert]
    split_ifs with h1 h2
    · simp only [keys_node, List.mem_append, List.mem_cons, ihl]; tauto
    · subst h2; simp only [keys_node, List.mem_append, List.mem_cons]; tauto
    · simp only [keys_node, List.mem_append, List.mem_cons, ihr]; tauto

theorem sorted_keys_insert (t : TreeNode) (k : Str) (c : contextArr)
    (h : (keys t).Sorted (· < ·)) : (keys (insert t k c)).Sorted (· < ·) := by
  induction t with
  | nullptr => simp [insert, keys, inorder]
  | node key list left right ihl ihr =>
    rw [keys_node] at h
    unfold List.Sorted at h ihl ihr ⊢
    rw [List.pairwise_append, List.pairwise_cons] at h
    obtain ⟨hl, ⟨hkr, hr⟩, hlr⟩ := h
    rw [insert]
    split_ifs with h1 h2
    · rw [keys_node, List.pairwise_append, List.pairwise_cons]
      refine ⟨ihl hl, ⟨hkr, hr⟩, ?_⟩
      intro a ha b hb
      rw [mem_keys_insert] at ha
      rcases ha with rfl | ha
      · rcases List.mem_cons.1 hb with rfl | hb
        · exact h1
        · exact lt_trans h1 (hkr b hb)
      · exact hlr a ha b hb
    · rw [keys_node, List.pairwise_append, List.pairwise_cons]
      exact ⟨hl, ⟨hkr, hr⟩, hlr⟩
    · have h3 : key < k := lt_of_le_of_ne (not_lt.1 h1) (Ne.symm h2)
      rw [keys_node, List.pairwise_append, List.pairwise_cons]
      refine ⟨hl, ⟨?_, ihr hr⟩, ?_⟩
      · intro b hb
        rw [mem_keys_insert] at hb
        rcases hb with rfl | hb
        · exact h3
        · exact hkr b hb
      · intro a ha b hb
        rcases List.mem_cons.1 hb with rfl | hb
        · exact hlr a ha _ (List.mem_cons_self _ _)
        · rw [mem_keys_insert] at hb
          rcases hb with rfl | hb
          · exact lt_trans (hlr a ha key (List.mem_cons_self _ _)) h3
          · exact hlr a ha b (List.mem_cons_of_mem _ hb)

theorem mem_keys_of_mem_inorder {t : TreeNode} {e : Str × ContextList} (h : e ∈ inorder t) :
    e.1 ∈ keys t := List.mem_map_of_mem _ h

theorem entries_insert (f : Str → ContextList) (t : TreeNode) (k : Str) (c : contextArr)
    (hs : (keys t).Sorted (· < ·)) (hf : ∀ e ∈ inorder t, e.2 = f e.1)
    (hk : k ∉ keys t → f k = []) :
    ∀ e ∈ inorder (insert t k c), e.2 = if e.1 = k then f k ++ [c] else f e.1 := by
  induction t with
  | nullptr =>
    intro e he
    simp only [insert, inorder, List.nil_append, List.mem_singleton] at he
    subst he
    simp [ContextList.add, ContextList.copyNodes, hk (by simp [keys, inorder])]
  | node key list left right ihl ihr =>
    rw [keys_node] at hs hk
    unfold List.Sorted at hs ihl ihr
    rw [List.pairwise_append, List.pairwise_cons] at hs
    obtain ⟨hl, ⟨hkr, hr⟩, hlr⟩ := hs
    have hfl : ∀ e ∈ inorder left, e.2 = f e.1 := fun e he => hf e (by simp [inorder, he])
    have hfr : ∀ e ∈ inorder right, e.2 = f e.1 := fun e he => hf e (by simp [inorder, he])
    have hfk : list = f key := hf (key, list) (by simp [inorder])
    have hlk : ∀ a ∈ keys left, a < key := fun a ha => hlr a ha key (List.mem_cons_self _ _)
    intro e he
    rw [insert] at he
    split_ifs at he with h1 h2
    · simp only [inorder, List.mem_append, List.mem_cons] at he
      rcases he with he | rfl | he
      · refine ihl hl hfl (fun hnk => hk ?_) e he
        simp only [List.mem_append, List.mem_cons, not_or]
        exact ⟨hnk, ne_of_lt h1, fun hm => lt_asymm h1 (hkr k hm)⟩
      · simp [ne_of_gt h1, hfk]
      · have : k < e.1 := lt_trans h1 (hkr _ (mem_keys_of_mem_inorder he))
        simp [ne_of_gt this, hfr e he]
    · subst h2
      simp only [inorder, List.mem_append, List.mem_cons] at he
      rcases he with he | rfl | he
      · have : e.1 < k := hlk _ (mem_keys_of_mem_inorder he)
        simp [ne_of_lt this, hfl e he]
      · simp [ContextList_add_eq, hfk]
      · have : k < e.1 := hkr _ (mem_keys_of_mem_inorder he)
        simp [ne_of_gt this, hfr e he]
    · have h3 : key < k := lt_of_le_of_ne (not_lt.1 h1) (Ne.symm h2)
      simp only [inorder, List.mem_append, List.mem_cons] at he
      rcases he with he | rfl | he
      · have : e.1 < k := lt_trans (hlk _ (mem_keys_of_mem_inorder he)) h3
        simp [ne_of_lt this, hfl e he]
      · simp [ne_of_lt h3, hfk]
      · refine ihr hr hfr (fun hnk => hk ?_) e he
        simp only [List.mem_append, List.mem_cons, not_or]
        exact ⟨fun hm => lt_asymm h3 (hlk k hm), ne_of_gt h3, hnk⟩

/-! ## The index -/

theorem indexes_congr {t t0 : BinarySearchTree} (h1 : t.stopWords = t0.stopWords)
    (h2 : t.stopWordVector = t0.stopWordVector) (w : Str) : t.indexes w = t0.indexes w := by
  simp [BinarySearchTree.indexes, BinarySearchTree.isStopWord, h1, h2]

theorem max_eq_ite (a b : Int) : (if a > b then a else b) = max b a := by
  rcases le_or_lt a b with h | h
  · rw [if_neg (not_lt.2 h), max_eq_left h]
  · rw [if_pos h, max_eq_right (le_of_lt h)]

theorem add_eq (t : BinarySearchTree) (w : Str) (c : contextArr) :
    t.add w c = some
      ((if t.indexes w then { t with root := insert t.root (normalize w) c } else t).setMaxLengths c) := by
  unfold BinarySearchTree.add
  rw [removePunctAndLower_eq, Option.map_some']
  congr 2
  unfold BinarySearchTree.indexes
  cases t.stopWords <;> cases t.isStopWord (normalize w) <;> simp

theorem represents_init (t0 : BinarySearchTree) (h : t0.root = .nullptr) : Represents t0 t0 [] where
  stop := rfl
  vec := rfl
  sorted := by simp [h, keys, inorder]
  mem := by simp [h, keys, inorder]
  entries := by simp [h, inorder]
  maxPre := rfl
  maxKey := rfl
  maxPost := rfl

theorem setMaxLengths_root (t : BinarySearchTree) (c : contextArr) :
    (t.setMaxLengths c).root = t.root := rfl
theorem setMaxLengths_stopWords (t : BinarySearchTree) (c : contextArr) :
    (t.setMaxLengths c).stopWords = t.stopWords := rfl
theorem setMaxLengths_stopWordVector (t : BinarySearchTree) (c : contextArr) :
    (t.setMaxLengths c).stopWordVector = t.stopWordVector := rfl
theorem setMaxLengths_maxPre (t : BinarySearchTree) (c : contextArr) :
    (t.setMaxLengths c).maxPreKeyLen = max t.maxPreKeyLen (preKeyLen c) := max_eq_ite _ _
theorem setMaxLengths_maxKey (t : BinarySearchTree) (c : contextArr) :
    (t.setMaxLengths c).maxKeyLen = max t.maxKeyLen (keyLen c) := max_eq_ite _ _
theorem setMaxLengths_maxPost (t : BinarySearchTree) (c : contextArr) :
    (t.setMaxLengths c).maxPostKeyLen = max t.maxPostKeyLen (postKeyLen c) := max_eq_ite _ _

theorem represents_setMax {t0 t : BinarySearchTree} {hist : List (Str × contextArr)}
    (h : Represents t0 t hist) (w : Str) (c : contextArr) (root : TreeNode)
    (hs : (keys root).Sorted (· < ·))
    (hm : ∀ k, k ∈ keys root ↔
      ∃ call ∈ hist ++ [(w, c)], t0.indexes call.1 = true ∧ normalize call.1 = k)
    (he : ∀ e ∈ inorder root, e.2 = occurrences t0 (hist ++ [(w, c)]) e.1) :
    Represents t0 (({ t with root := root } : BinarySearchTree).setMaxLengths c)
      (hist ++ [(w, c)]) where
  stop := h.stop
  vec := h.vec
  sorted := hs
  mem := hm
  entries := he
  maxPre := by
    rw [setMaxLengths_maxPre, List.map_append, List.foldl_append, ← h.maxPre]; rfl
  maxKey := by
    rw [setMaxLengths_maxKey, List.map_append, List.foldl_append, ← h.maxKey]; rfl
  maxPost := by
    rw [setMaxLengths_maxPost, List.map_append, List.foldl_append, ← h.maxPost]; rfl

theorem represents_add {t0 t : BinarySearchTree} {hist : List (Str × contextArr)}
    (h : Represents t0 t hist) (w : Str) (c : contextArr) :
    ∃ t', t.add w c = some t' ∧ Represents t0 t' (hist ++ [(w, c)]) := by
  refine ⟨_, add_eq t w c, ?_⟩
  have hix : t.indexes w = t0.indexes w := indexes_congr h.stop h.vec w
  by_cases hi : t0.indexes w = true
  · rw [hix, if_pos hi]
    apply represents_setMax h
    · exact sorted_keys_insert _ _ _ h.sorted
    · intro k
      rw [mem_keys_insert, h.mem]
      constructor
      · rintro (rfl | ⟨call, hc, h1, h2⟩)
        · exact ⟨(w, c), by simp, hi, rfl⟩
        · exact ⟨call, by simp [hc], h1, h2⟩
      · rintro ⟨call, hc, h1, h2⟩
        rcases List.mem_append.1 hc with hc | hc
        · exact Or.inr ⟨call, hc, h1, h2⟩
        · simp only [List.mem_singleton] at hc
          subst hc
          exact Or.inl h2.symm
    · intro e he
      have := entries_insert (occurrences t0 hist) t.root (normalize w) c h.sorted h.entries
        (by
          intro hk
          unfold occurrences
          rw [List.map_eq_nil_iff, List.filter_eq_nil_iff]
          intro call hc hcall
          simp only [Bool.and_eq_true, decide_eq_true_eq] at hcall
          exact hk ((h.mem _).2 ⟨call, hc, hcall.1, hcall.2⟩)) e he
      rw [this]
      unfold occurrences
      rw [List.filter_append, List.map_append]
      by_cases hek : e.1 = normalize w
      · simp [hek, hi]
      · simp [hek, Ne.symm hek]
  · rw [hix, if_neg hi]
    have := represents_setMax h w c t.root h.sorted
      (by
        intro k
        rw [h.mem]
        constructor
        · rintro ⟨call, hc, h1, h2⟩
          exact ⟨call, by simp [hc], h1, h2⟩
        · rintro ⟨call, hc, h1, h2⟩
          rcases List.mem_append.1 hc with hc | hc
          · exact ⟨call, hc, h1, h2⟩
          · simp only [List.mem_singleton] at hc
            subst hc
            exact absurd h1 hi)
      (by
        intro e he
        rw [h.entries e he]
        unfold occurrences
        rw [List.filter_append, List.map_append]
        simp [hi])
    exact this

theorem represents_addAll {t0 : BinarySearchTree} (calls : List (Str × contextArr)) :
    ∀ {t : BinarySearchTree} {hist : List (Str × contextArr)}, Represents t0 t hist →
    ∃ t', addAll t calls = some t' ∧ Represents t0 t' (hist ++ calls) := by
  induction calls with
  | nil => intro t hist h; exact ⟨t, rfl, by simpa using h⟩
  | cons call rest ih =>
    intro t hist h
    obtain ⟨t1, h1, hr1⟩ := represents_add h call.1 call.2
    obtain ⟨t2, h2, hr2⟩ := ih hr1
    refine ⟨t2, ?_, by simpa using hr2⟩
    simp [addAll, h1, h2]

/-! ## Running maxima -/

theorem foldl_max_ge_init (l : List Int) (m : Int) : m ≤ l.foldl max m := by
  induction l generalizing m with
  | nil => exact le_refl m
  | cons x l ih => exact le_trans (le_max_left m x) (ih (max m x))

theorem foldl_max_ge_mem (l : List Int) (m : Int) : ∀ x ∈ l, x ≤ l.foldl max m := by
  induction l generalizing m with
  | nil => intro x hx; cases hx
  | cons y l ih =>
    intro x hx
    rcases List.mem_cons.1 hx with rfl | hx
    · exact le_trans (le_max_right m x) (foldl_max_ge_init l (max m x))
    · exact ih (max m y) x hx

theorem foldl_max_attained (l : List Int) (m : Int) :
    l.foldl max m = m ∨ ∃ x ∈ l, l.foldl max m = x := by
  induction l generalizing m with
  | nil => exact Or.inl rfl
  | cons y l ih =>
    rcases ih (max m y) with h | ⟨x, hx, h⟩
    · rcases max_choice m y with hm | hm
      · left; rw [List.foldl_cons, h, hm]
      · right; exact ⟨y, List.mem_cons_self _ _, by rw [List.foldl_cons, h, hm]⟩
    · right; exact ⟨x, List.mem_cons_of_mem _ hx, h⟩

theorem foldl_max_zero_attained (l : List Int) (hl : l ≠ []) (h0 : ∀ x ∈ l, 0 ≤ x) :
    ∃ x ∈ l, l.foldl max 0 = x := by
  rcases foldl_max_attained l 0 with h | h
  · obtain ⟨x, hx⟩ := List.exists_mem_of_ne_nil l hl
    refine ⟨x, hx, ?_⟩
    have h1 := foldl_max_ge_mem l 0 x hx
    have h2 := h0 x hx
    omega
  · exact h

theorem preKeyLen_eq (c : contextArr) : preKeyLen c =
    (((c.slot 0).length + (c.slot 1).length + (c.slot 2).length + (c.slot 3).length
      + (c.slot 4).length : Nat) : Int) := by
  simp [preKeyLen, sumLengths]

theorem postKeyLen_eq (c : contextArr) : postKeyLen c =
    (((c.slot 6).length + (c.slot 7).length + (c.slot 8).length + (c.slot 9).length
      + (c.slot 10).length : Nat) : Int) := by
  simp [postKeyLen, sumLengths]

theorem represents_emptyIndex (sw : Bool) (v : List Str) (calls : List (Str × contextArr)) :
    ∃ t, addAll (emptyIndex sw v) calls = some t ∧ Represents (emptyIndex sw v) t calls := by
  have := represents_addAll calls (represents_init (emptyIndex sw v) rfl)
  simpa using this

theorem sorted_lt_getElem_iff (l : List Str) (h : l.Sorted (· < ·)) (i j : Nat)
    (hi : i < l.length) (hj : j < l.length) : i < j ↔ l[i] < l[j] := by
  have hp : ∀ a b (ha : a < l.length) (hb : b < l.length), a < b → l[a] < l[b] :=
    fun a b ha hb hab => List.pairwise_iff_getElem.1 h a b ha hb hab
  constructor
  · exact hp i j hi hj
  · intro hlt
    by_contra hij
    rcases Nat.lt_or_eq_of_le (not_lt.1 hij) with h1 | h1
    · exact lt_asymm hlt (hp j i hj hi h1)
    · subst h1; exact lt_irrefl _ hlt

/-! ## The traversal of an index built by `add` -/

theorem keys_eq_of_represents {t0 t : BinarySearchTree} {hist : List (Str × contextArr)}
    (h : Represents t0 t hist) :
    keys t.root =
      (((hist.filter fun call => t0.indexes call.1).map fun call => normalize call.1).dedup).insertionSort
        (· ≤ ·) := by
  apply List.eq_of_perm_of_sorted (r := (· ≤ ·)) _ h.sorted.le_of_lt
    (List.sorted_insertionSort _ _)
  refine List.Perm.trans ?_ (List.perm_insertionSort _ _).symm
  rw [List.perm_ext_iff_of_nodup h.sorted.nodup (List.nodup_dedup _)]
  intro k
  rw [h.mem, List.mem_dedup, List.mem_map]
  constructor
  · rintro ⟨call, hc, h1, h2⟩
    exact ⟨call, List.mem_filter.2 ⟨hc, h1⟩, h2⟩
  · rintro ⟨call, hc, h2⟩
    exact ⟨call, (List.mem_filter.1 hc).1, (List.mem_filter.1 hc).2, h2⟩

theorem inorder_eq_of_represents {t0 t : BinarySearchTree} {hist : List (Str × contextArr)}
    (h : Represents t0 t hist) :
    inorder t.root =
      ((((hist.filter fun call => t0.indexes call.1).map fun call => normalize call.1).dedup).insertionSort
        (· ≤ ·)).map fun k => (k, occurrences t0 hist k) := by
  rw [← keys_eq_of_represents h, keys, List.map_map]
  conv_lhs => rw [← List.map_id (inorder t.root)]
  apply List.map_congr_left
  intro e he
  exact Prod.ext rfl (h.entries e he)

theorem indexes_of_inactive (t0 : BinarySearchTree) (h : t0.stopWords = false) (w : Str) :
    t0.indexes w = true := by
  simp [BinarySearchTree.indexes, h]

theorem occurrences_of_inactive (t0 : BinarySearchTree) (h : t0.stopWords = false)
    (calls : List (Str × contextArr)) (k : Str) :
    occurrences t0 calls k = (calls.filter fun call => normalize call.1 = k).map Prod.snd := by
  simp [occurrences, indexes_of_inactive t0 h]

theorem filter_indexes_of_inactive (t0 : BinarySearchTree) (h : t0.stopWords = false)
    (calls : List (Str × contextArr)) :
    (calls.filter fun call => t0.indexes call.1) = calls := by
  simp [indexes_of_inactive t0 h]

theorem add_eq_setMaxLengths_of_stop (t : BinarySearchTree) (word : Str) (ctx : contextArr)
    (hactive : t.stopWords = true) (hstop : t.isStopWord (normalize word) = true) :
    t.add word ctx = some (t.setMaxLengths ctx) := by
  rw [add_eq]
  have : t.indexes word = false := by simp [BinarySearchTree.indexes, hactive, hstop]
  simp [this]

theorem add_max (t : BinarySearchTree) (word : Str) (ctx : contextArr) :
    ∃ t', t.add word ctx = some t' ∧
      t'.maxPreKeyLen = max t.maxPreKeyLen (preKeyLen ctx) ∧
      t'.maxKeyLen = max t.maxKeyLen (keyLen ctx) ∧
      t'.maxPostKeyLen = max t.maxPostKeyLen (postKeyLen ctx) := by
  refine ⟨_, add_eq t word ctx, ?_⟩
  rw [setMaxLengths_maxPre, setMaxLengths_maxKey, setMaxLengths_maxPost]
  split_ifs <;> exact ⟨rfl, rfl, rfl⟩

theorem preKeyLen_nonneg (c : contextArr) : 0 ≤ preKeyLen c := by
  rw [preKeyLen_eq]; exact Int.natCast_nonneg _

theorem postKeyLen_nonneg (c : contextArr) : 0 ≤ postKeyLen c := by
  rw [postKeyLen_eq]; exact Int.natCast_nonneg _

theorem keyLen_nonneg (c : contextArr) : 0 ≤ keyLen c := Int.natCast_nonneg _

theorem foldl_max_map_spec (calls : List (Str × contextArr)) (f : contextArr → Int)
    (hf : ∀ c, 0 ≤ f c) (m : Int) (hm : m = (calls.map fun call => f call.2).foldl max 0) :
    (calls = [] → m = 0) ∧ (∀ call ∈ calls, f call.2 ≤ m) ∧
    (calls ≠ [] → ∃ call ∈ calls, m = f call.2) := by
  subst hm
  refine ⟨?_, ?_, ?_⟩
  · rintro rfl; rfl
  · intro call hc
    exact foldl_max_ge_mem _ 0 _ (List.mem_map_of_mem (fun call => f call.2) hc)
  · intro hne
    obtain ⟨x, hx, h⟩ := foldl_max_zero_attained (calls.map fun call => f call.2)
      (by simpa using hne) (by
        intro x hx
        obtain ⟨call, _, rfl⟩ := List.mem_map.1 hx
        exact hf _)
    obtain ⟨call, hc, rfl⟩ := List.mem_map.1 hx
    exact ⟨call, hc, h⟩

/-! ## The context array -/

theorem list_eleven (l : List Str) (h : l.length = 11) :
    ∃ a0 a1 a2 a3 a4 a5 a6 a7 a8 a9 a10, l = [a0, a1, a2, a3, a4, a5, a6, a7, a8, a9, a10] := by
  match l, h with
  | [a0, a1, a2, a3, a4, a5, a6, a7, a8, a9, a10], _ =>
    exact ⟨a0, a1, a2, a3, a4, a5, a6, a7, a8, a9, a10, rfl⟩

theorem contextArr_ext (a b : contextArr)
    (h : ∀ n, n < 11 → a.val.getD n [] = b.val.getD n []) : a = b := by
  apply Subtype.ext
  apply List.ext_getElem (by rw [a.2, b.2])
  intro n h1 h2
  have := h n (by rw [a.2] at h1; exact h1)
  simpa [List.getD_eq_getElem?_getD, List.getElem?_eq_getElem h1,
    List.getElem?_eq_getElem h2] using this

theorem expectedRecord_getD (ws : List Str) (i n : Nat) (hn : n < 11) :
    (expectedRecord ws i).val.getD n [] = expectedSlot ws i n := by
  simp [expectedRecord, List.getD_eq_getElem?_getD, List.getElem?_map, List.getElem?_range hn]

theorem shiftArray_some (arr : contextArr) :
    ∃ shifted, shiftArray arr = some shifted ∧
      ∀ n, n < 11 → shifted.val.getD n [] = if n < 10 then arr.val.getD (n + 1) [] else [] := by
  obtain ⟨l, hl⟩ := arr
  obtain ⟨a0, a1, a2, a3, a4, a5, a6, a7, a8, a9, a10, rfl⟩ := list_eleven l hl
  refine ⟨⟨[a1, a2, a3, a4, a5, a6, a7, a8, a9, a10, []], rfl⟩, rfl, ?_⟩
  intro n hn
  interval_cases n <;> rfl

theorem assignAt_some (arr : contextArr) (i : Nat) (hi : i < 11) (s : Str) :
    ∃ assigned, arr.assignAt (i : Int) s = some assigned ∧
      ∀ n, n < 11 → assigned.val.getD n [] = if n = i then s else arr.val.getD n [] := by
  have hc : (0 : Int) ≤ (i : Int) ∧ (i : Int) < 11 := by omega
  refine ⟨⟨arr.val.set i s, by simp [arr.2]⟩, ?_, ?_⟩
  · simp [contextArr.assignAt, hc]
  · intro n hn
    simp only [List.getD_eq_getElem?_getD, List.getElem?_set]
    by_cases h : n = i
    · subst h
      have : n < arr.val.length := by rw [arr.2]; exact hn
      simp [hn]
    · have : ¬ i = n := fun h' => h h'.symm
      simp [h, this]

/-! ## The window of `main` -/

theorem addAll_append (t : BinarySearchTree) (a b : List (Str × contextArr)) :
    addAll t (a ++ b) = (addAll t a).bind fun t' => addAll t' b := by
  induction a generalizing t with
  | nil => rfl
  | cons c a ih =>
    simp only [List.cons_append, addAll]
    cases t.add c.1 c.2 with
    | none => rfl
    | some t1 => simp [ih]

theorem expectedSlot_succ (ws : List Str) (j n : Nat) :
    expectedSlot ws j (n + 1) = expectedSlot ws (j + 1) n := by
  unfold expectedSlot
  rw [show j + (n + 1) = j + 1 + n by omega]

theorem expectedSlot_key (ws : List Str) (j : Nat) (h : j < ws.length) :
    expectedSlot ws j 5 = ws.getD j [] := by
  unfold expectedSlot
  rw [if_pos (by omega)]
  simp

theorem expectedSlot_key_of_ge (ws : List Str) (j : Nat) (h : ws.length ≤ j) :
    expectedSlot ws j 5 = [] := by
  unfold expectedSlot
  rw [if_neg (by omega)]

theorem expectedSlot_append (ws : List Str) (w : Str) (i m : Nat) (h : i + m < ws.length + 5) :
    expectedSlot (ws ++ [w]) i m = expectedSlot ws i m := by
  unfold expectedSlot
  by_cases h5 : 5 ≤ i + m
  · rw [if_pos ⟨h5, by simp; omega⟩, if_pos ⟨h5, h⟩]
    simp only [List.getD_eq_getElem?_getD]
    rw [List.getElem?_append_left (by omega)]
  · rw [if_neg (fun hc => h5 hc.1), if_neg (fun hc => h5 hc.1)]

theorem expectedSlot_new (ws : List Str) (w : Str) (i m : Nat) (h : i + m = ws.length + 5) :
    expectedSlot (ws ++ [w]) i m = w := by
  unfold expectedSlot
  rw [if_pos ⟨by omega, by simp; omega⟩]
  simp only [List.getD_eq_getElem?_getD]
  rw [List.getElem?_append_right (by omega)]
  simp [show i + m - 5 - ws.length = 0 by omega]

theorem expectedSlot_beyond (ws : List Str) (i m : Nat) (h : ws.length + 5 ≤ i + m) :
    expectedSlot ws i m = [] := by
  unfold expectedSlot
  rw [if_neg (by omega)]

theorem expectedRecord_append (ws : List Str) (w : Str) (i : Nat) (h : i + 6 ≤ ws.length) :
    expectedRecord (ws ++ [w]) i = expectedRecord ws i := by
  apply contextArr_ext
  intro n hn
  rw [expectedRecord_getD _ _ _ hn, expectedRecord_getD _ _ _ hn,
    expectedSlot_append _ _ _ _ (by omega)]

theorem expectedCalls_append (ws : List Str) (w : Str) (j : Nat) (h : j + 5 ≤ ws.length ∨ j = 0) :
    expectedCalls (ws ++ [w]) j = expectedCalls ws j := by
  unfold expectedCalls
  apply List.map_congr_left
  intro i hi
  have hi' : i < j := List.mem_range.1 hi
  have hj : j + 5 ≤ ws.length := by omega
  rw [expectedRecord_append _ _ _ (by omega)]
  simp only [List.getD_eq_getElem?_getD]
  rw [List.getElem?_append_left (by omega)]

theorem expectedCalls_succ (ws : List Str) (j : Nat) :
    expectedCalls ws (j + 1) = expectedCalls ws j ++ [(ws.getD j [], expectedRecord ws j)] := by
  simp [expectedCalls, List.range_succ]

theorem addAndShift_window {c0 : BinarySearchTree} {ws : List Str} {j : Nat} {s : MainState}
    (h : Window c0 ws j s) (hj : j < ws.length) (hw : ws.length ≤ j + 6) :
    ∃ s', addAndShift s = some s' ∧ Window c0 ws (j + 1) s' ∧ s'.wordCount = s.wordCount := by
  obtain ⟨shifted, hshift, hget⟩ := shiftArray_some s.theContext
  have hkey : s.theContext.slot 5 = ws.getD j [] := by
    rw [← expectedSlot_key ws j hj, ← h.ctx 5 (by omega)]
    rfl
  have hrec : s.theContext = expectedRecord ws j := by
    apply contextArr_ext
    intro n hn
    rw [h.ctx n hn, expectedRecord_getD _ _ _ hn]
  obtain ⟨t', ht'⟩ : ∃ t', s.concordance.add (s.theContext.slot 5) s.theContext = some t' :=
    ⟨_, add_eq _ _ _⟩
  refine ⟨{ s with concordance := t', theContext := shifted,
                   calls := s.calls ++ [(s.theContext.slot 5, s.theContext)] }, ?_, ?_, rfl⟩
  · unfold addAndShift
    simp only [ht', hshift, Option.some_bind, Option.map_some']
  · constructor
    · intro n hn
      show shifted.val.getD n [] = _
      rw [hget n hn]
      split_ifs with h10
      · rw [h.ctx (n + 1) (by omega), expectedSlot_succ]
      · rw [expectedSlot_beyond _ _ _ (by omega)]
    · show s.calls ++ [(s.theContext.slot 5, s.theContext)] = _
      rw [expectedCalls_succ, h.calls, hkey, ← hrec]
    · show addAll c0 (s.calls ++ [(s.theContext.slot 5, s.theContext)]) = _
      rw [addAll_append, h.conc]
      simp [addAll, ht']

/-! ## The reading loop and the flush loop -/

theorem loopBody_punct (s : MainState) (w : Str) (hp : isPunct w = true) :
    loopBody s (some w) = some s := by
  simp [loopBody, hp]

theorem loopBody_word {c0 : BinarySearchTree} {ws : List Str} {s : MainState}
    (h : Reading c0 ws s) (w : Str) (hp : isPunct w = false) :
    ∃ s', loopBody s (some w) = some s' ∧ Reading c0 (ws ++ [w]) s' := by
  have hcount := h.count
  have hwin := h.window
  by_cases hk : ws.length < 5
  · have hmin : min ws.length 6 = ws.length := by omega
    have hj : ws.length - 5 = 0 := by omega
    rw [hmin] at hcount
    rw [hj] at hwin
    obtain ⟨filled, hfill, hget⟩ := assignAt_some s.theContext (ws.length + 5) (by omega) w
    refine ⟨{ s with theContext := filled, wordCount := s.wordCount + 1 }, ?_, ?_, ?_⟩
    · have h1 : ¬ s.wordCount < 0 := by omega
      have h2 : s.wordCount < 5 := by omega
      have h3 : s.wordCount < 6 := by omega
      have h4 : ¬ s.wordCount + 1 ≥ 6 := by omega
      have h5 : s.wordCount + 5 = ((ws.length + 5 : Nat) : Int) := by push_cast; omega
      simp only [loopBody, hp, Bool.false_eq_true, if_false, fillContextArray, h1, h2, h3, if_true,
        h5, hfill, Option.some_bind, emitBranch, h4]
    · show s.wordCount + 1 = _
      rw [hcount, List.length_append, List.length_singleton]
      have : min (ws.length + 1) 6 = ws.length + 1 := by omega
      rw [this]; push_cast; rfl
    · rw [show (ws ++ [w]).length - 5 = 0 by simp; omega]
      constructor
      · intro n hn
        show filled.val.getD n [] = _
        rw [hget n hn]
        split_ifs with hn5
        · rw [expectedSlot_new _ _ _ _ (by omega)]
        · rw [hwin.ctx n hn]
          by_cases hlt : n < ws.length + 5
          · rw [expectedSlot_append _ _ _ _ (by omega)]
          · rw [expectedSlot_beyond _ _ _ (by omega),
              expectedSlot_beyond _ _ _ (by simp; omega)]
      · show s.calls = _
        rw [hwin.calls, expectedCalls_append _ _ _ (Or.inr rfl)]
      · exact hwin.conc
  · have hk5 : 5 ≤ ws.length := by omega
    obtain ⟨filled, hfill, hget⟩ := assignAt_some s.theContext 10 (by omega) w
    have hwin1 : Window c0 (ws ++ [w]) (ws.length - 5)
        { s with theContext := filled, wordCount := 6 } := by
      constructor
      · intro n hn
        show filled.val.getD n [] = _
        rw [hget n hn]
        split_ifs with hn10
        · rw [expectedSlot_new _ _ _ _ (by omega)]
        · rw [hwin.ctx n hn, expectedSlot_append _ _ _ _ (by omega)]
      · show s.calls = _
        rw [hwin.calls, expectedCalls_append _ _ _ (Or.inl (by omega))]
      · exact hwin.conc
    obtain ⟨s', hs', hwin', hwc⟩ := addAndShift_window hwin1
      (by rw [List.length_append, List.length_singleton]; omega)
      (by rw [List.length_append, List.length_singleton]; omega)
    refine ⟨s', ?_, ?_, ?_⟩
    · have h1 : ¬ s.wordCount < 0 := by omega
      have h2 : ¬ s.wordCount < 5 := by omega
      have h3 : (if s.wordCount < 6 then s.wordCount + 1 else s.wordCount) = 6 := by
        split_ifs <;> omega
      have h5 : (10 : Int) = ((10 : Nat) : Int) := rfl
      simp only [loopBody, hp, Bool.false_eq_true, if_false, fillContextArray, h1, h2, h3]
      rw [h5, hfill]
      simp only [Option.some_bind, emitBranch, ge_iff_le, le_refl, if_true]
      exact hs'
    · rw [hwc, List.length_append, List.length_singleton]
      have : min (ws.length + 1) 6 = 6 := by omega
      rw [this]; rfl
    · rw [show (ws ++ [w]).length - 5 = ws.length - 5 + 1 by simp; omega]
      exact hwin'

theorem readLoop_append (s : MainState) (a b : List (Option Str)) :
    readLoop s (a ++ b) = (readLoop s a).bind fun s' => readLoop s' b := by
  induction a generalizing s with
  | nil => rfl
  | cons r a ih =>
    simp only [List.cons_append, readLoop]
    cases loopBody s r with
    | none => rfl
    | some s1 => simp [ih]

theorem readLoop_tokens {c0 : BinarySearchTree} (tokens : List Str) :
    ∀ {ws : List Str} {s : MainState}, Reading c0 ws s →
    ∃ s', readLoop s (tokens.map some) = some s' ∧ Reading c0 (ws ++ admitted tokens) s' := by
  induction tokens with
  | nil => intro ws s h; exact ⟨s, rfl, by simpa [admitted] using h⟩
  | cons w tokens ih =>
    intro ws s h
    by_cases hp : isPunct w = true
    · obtain ⟨s', hs', hr⟩ := ih h
      refine ⟨s', ?_, ?_⟩
      · simp only [List.map_cons, readLoop, loopBody_punct s w hp, Option.some_bind, hs']
      · simpa [admitted, hp] using hr
    · have hp' : isPunct w = false := by simpa using hp
      obtain ⟨s1, hs1, hr1⟩ := loopBody_word h w hp'
      obtain ⟨s', hs', hr⟩ := ih hr1
      refine ⟨s', ?_, ?_⟩
      · simp only [List.map_cons, readLoop, hs1, Option.some_bind, hs']
      · simpa [admitted, hp'] using hr

theorem readLoop_trailing {c0 : BinarySearchTree} {ws : List Str} {s : MainState}
    (h : Reading c0 ws s) (trailing : Bool) :
    ∃ s' j, readLoop s (if trailing then [none] else []) = some s' ∧ Window c0 ws j s' ∧
      j ≤ ws.length ∧ ws.length ≤ j + 6 := by
  have hcount := h.count
  cases trailing with
  | false => exact ⟨s, ws.length - 5, rfl, h.window, by omega, by omega⟩
  | true =>
    by_cases hk : 6 ≤ ws.length
    · obtain ⟨s', hs', hwin', -⟩ := addAndShift_window h.window (by omega) (by omega)
      refine ⟨s', ws.length - 5 + 1, ?_, hwin', by omega, by omega⟩
      have h6 : s.wordCount ≥ 6 := by omega
      simp [readLoop, loopBody, emitBranch, h6, hs']
    · refine ⟨s, ws.length - 5, ?_, h.window, by omega, by omega⟩
      have h6 : ¬ s.wordCount ≥ 6 := by omega
      simp [readLoop, loopBody, emitBranch, h6]

theorem flushLoop_window {c0 : BinarySearchTree} {ws : List Str} (hne : ∀ w ∈ ws, w ≠ [])
    (fuel : Nat) : ∀ {j : Nat} {s : MainState}, Window c0 ws j s → j ≤ ws.length →
    ws.length ≤ j + 6 → ws.length - j < fuel →
    ∃ s', flushLoop fuel s = some s' ∧ Window c0 ws ws.length s' := by
  induction fuel with
  | zero => intro j s _ _ _ h; omega
  | succ fuel ih =>
    intro j s h hj hw hfuel
    have hslot : s.theContext.slot 5 = expectedSlot ws j 5 := h.ctx 5 (by omega)
    by_cases hlt : j < ws.length
    · have hkey : s.theContext.slot 5 ≠ [] := by
        rw [hslot, expectedSlot_key ws j hlt, List.getD_eq_getElem?_getD,
          List.getElem?_eq_getElem hlt]
        exact hne _ (List.getElem_mem _)
      obtain ⟨s1, hs1, hwin1, -⟩ := addAndShift_window h hlt hw
      obtain ⟨s', hs', hwin'⟩ := ih hwin1 (by omega) (by omega) (by omega)
      refine ⟨s', ?_, hwin'⟩
      simp only [flushLoop, hkey, ne_eq, not_false_eq_true, if_true, hs1, Option.some_bind, hs']
    · have hkey : s.theContext.slot 5 = [] := by
        rw [hslot, expectedSlot_key_of_ge ws j (by omega)]
      have hjw : j = ws.length := by omega
      refine ⟨s, ?_, hjw ▸ h⟩
      simp [flushLoop, hkey]

theorem buildStopWordLoop_eq (tokens vector : List Str) :
    buildStopWordLoop tokens vector = some (vector ++ tokens.map normalize) := by
  induction tokens generalizing vector with
  | nil => simp [buildStopWordLoop]
  | cons w tokens ih => simp [buildStopWordLoop, removePunctAndLower_eq, ih]

theorem initialState_eq (stopWordFile : Option (List Str)) :
    initialState stopWordFile = some
      { wordCount := 0,
        concordance := emptyIndex (stopConfig stopWordFile).1 (stopConfig stopWordFile).2,
        theContext := contextArr.empty, calls := [] } := by
  cases stopWordFile with
  | none => rfl
  | some tokens =>
    simp only [initialState, BinarySearchTree.excludeStopWords,
      BinarySearchTree.buildStopWordVector, buildStopWordLoop_eq, Option.map_some', stopConfig,
      emptyIndex, BinarySearchTree.new, List.nil_append]
    cases tokens <;> simp

theorem reading_initial (c0 : BinarySearchTree) :
    Reading c0 [] { wordCount := 0, concordance := c0, theContext := contextArr.empty,
                    calls := [] } where
  count := rfl
  window :=
    { ctx := by
        intro n hn
        interval_cases n <;> rfl
      calls := rfl
      conc := rfl }

theorem run_window (stopWordFile : Option (List Str)) (tokens : List Str) (trailing : Bool)
    (hne : ∀ w ∈ tokens, w ≠ []) :
    ∃ s, run stopWordFile tokens trailing = some s ∧
      Window (emptyIndex (stopConfig stopWordFile).1 (stopConfig stopWordFile).2)
        (admitted tokens) (admitted tokens).length s := by
  obtain ⟨s1, hs1, hr1⟩ := readLoop_tokens tokens
    (reading_initial (emptyIndex (stopConfig stopWordFile).1 (stopConfig stopWordFile).2))
  rw [List.nil_append] at hr1
  obtain ⟨s2, j, hs2, hwin2, hj, hw⟩ := readLoop_trailing hr1 trailing
  have hne' : ∀ w ∈ admitted tokens, w ≠ [] := fun w hw => hne w (List.mem_filter.1 hw).1
  obtain ⟨s3, hs3, hwin3⟩ := flushLoop_window hne' 7 hwin2 hj hw (by omega)
  refine ⟨s3, ?_, hwin3⟩
  simp only [run, initialState_eq, Option.some_bind, reads, readLoop_append, hs1, hs2, hs3]

/-! ## Stop words and the calls of a run -/

theorem isStopWordLoop_eq (vector : List Str) (word : Str) (isStop : Bool) :
    isStopWordLoop vector word isStop = (isStop || decide (word ∈ vector)) := by
  induction vector generalizing isStop with
  | nil => simp [isStopWordLoop]
  | cons stop rest ih =>
    rw [isStopWordLoop, ih]
    by_cases h : word = stop
    · simp [h]
    · cases isStop <;> simp [h]

theorem isStopWord_iff (t : BinarySearchTree) (word : Str) :
    t.isStopWord word = true ↔ word ∈ t.stopWordVector := by
  simp [BinarySearchTree.isStopWord, isStopWordLoop_eq]

theorem map_getD_range (ws : List Str) :
    (List.range ws.length).map (fun i => ws.getD i []) = ws := by
  apply List.ext_getElem (by simp)
  intro n h1 h2
  simp [List.getD_eq_getElem?_getD, List.getElem?_eq_getElem h2]

theorem mem_expectedCalls (ws : List Str) (call : Str × contextArr) :
    call ∈ expectedCalls ws ws.length ↔
      ∃ i, i < ws.length ∧ call = (ws.getD i [], expectedRecord ws i) := by
  simp only [expectedCalls, List.mem_map, List.mem_range]
  constructor
  · rintro ⟨i, hi, rfl⟩; exact ⟨i, hi, rfl⟩
  · rintro ⟨i, hi, rfl⟩; exact ⟨i, hi, rfl⟩

theorem exists_call_iff (ws : List Str) (p : Str → Prop) :
    (∃ call ∈ expectedCalls ws ws.length, p call.1) ↔ ∃ w ∈ ws, p w := by
  constructor
  · rintro ⟨call, hc, hp⟩
    obtain ⟨i, hi, rfl⟩ := (mem_expectedCalls ws call).1 hc
    refine ⟨ws.getD i [], ?_, hp⟩
    rw [List.getD_eq_getElem?_getD, List.getElem?_eq_getElem hi]
    exact List.getElem_mem _
  · rintro ⟨w, hw, hp⟩
    obtain ⟨i, hi, rfl⟩ := List.getElem_of_mem hw
    refine ⟨(ws.getD i [], expectedRecord ws i), (mem_expectedCalls ws _).2 ⟨i, hi, rfl⟩, ?_⟩
    simpa [List.getD_eq_getElem?_getD, List.getElem?_eq_getElem hi] using hp

theorem occurrences_expectedCalls (t0 : BinarySearchTree) (ws : List Str) (k : Str) :
    occurrences t0 (expectedCalls ws ws.length) k =
      ((List.range ws.length).filter fun i =>
        t0.indexes (ws.getD i []) && decide (normalize (ws.getD i []) = k)).map
        (expectedRecord ws) := by
  simp only [occurrences, expectedCalls, List.filter_map, List.map_map]
  rfl

theorem length_filter_range (ws : List Str) (p : Str → Bool) :
    ((List.range ws.length).filter fun i => p (ws.getD i [])).length = (ws.filter p).length := by
  conv_rhs => rw [← map_getD_range ws, List.filter_map, List.length_map]
  rfl

theorem run_represents (stopWordFile : Option (List Str)) (tokens : List Str) (trailing : Bool)
    (hne : ∀ w ∈ tokens, w ≠ []) :
    ∃ s, run stopWordFile tokens trailing = some s ∧
      s.calls = expectedCalls (admitted tokens) (admitted tokens).length ∧
      Represents (emptyIndex (stopConfig stopWordFile).1 (stopConfig stopWordFile).2)
        s.concordance (expectedCalls (admitted tokens) (admitted tokens).length) := by
  obtain ⟨s, hs, hwin⟩ := run_window stopWordFile tokens trailing hne
  obtain ⟨t, ht, hr⟩ := represents_emptyIndex (stopConfig stopWordFile).1
    (stopConfig stopWordFile).2 (expectedCalls (admitted tokens) (admitted tokens).length)
  have hconc := hwin.conc
  rw [hwin.calls, ht] at hconc
  have : t = s.concordance := Option.some.inj hconc
  subst this
  exact ⟨s, hs, hwin.calls, hr⟩

theorem expectedCalls_length (ws : List Str) (j : Nat) : (expectedCalls ws j).length = j := by
  simp [expectedCalls]

theorem expectedCalls_getElem (ws : List Str) (j i : Nat) (hi : i < (expectedCalls ws j).length) :
    (expectedCalls ws j)[i] = (ws.getD i [], expectedRecord ws i) := by
  simp [expectedCalls]

theorem expectedRecord_slot (ws : List Str) (i : Nat) (m : Fin 11) :
    (expectedRecord ws i).slot m = expectedSlot ws i m.val :=
  expectedRecord_getD ws i m.val m.isLt

theorem stopConfig_inactive (stopWordFile : Option (List Str))
    (h : stopWordFile = none ∨ stopWordFile = some []) : stopConfig stopWordFile = (false, []) := by
  rcases h with rfl | rfl <;> rfl

/-! ## Lone punctuation and short corpora -/

theorem isPunct_iff (word : Str) : isPunct word = true ↔ ∃ c, word = [c] ∧ ispunct c = true := by
  constructor
  · intro h
    simp only [isPunct, Bool.and_eq_true, beq_iff_eq] at h
    obtain ⟨hlen, hp⟩ := h
    match word, hlen with
    | [c], _ => exact ⟨c, rfl, by simpa [charAt] using hp⟩
  · rintro ⟨c, rfl, hc⟩
    simpa [isPunct, charAt] using hc

theorem readLoop_trailing_short (s : MainState) (trailing : Bool) (h : s.wordCount < 6) :
    readLoop s (if trailing then [none] else []) = some s := by
  have h6 : ¬ s.wordCount ≥ 6 := by omega
  cases trailing <;> simp [readLoop, loopBody, emitBranch, h6]

theorem expectedCalls_zero (ws : List Str) : expectedCalls ws 0 = [] := rfl

theorem run_short (stopWordFile : Option (List Str)) (tokens : List Str) (trailing : Bool)
    (hne : ∀ w ∈ tokens, w ≠ []) (hshort : (admitted tokens).length < 6) :
    ∃ s0 s1 s, initialState stopWordFile = some s0 ∧
      readLoop s0 (reads tokens trailing) = some s1 ∧ s1.calls = [] ∧
      flushLoop 7 s1 = some s ∧ run stopWordFile tokens trailing = some s ∧
      s.calls = expectedCalls (admitted tokens) (admitted tokens).length := by
  obtain ⟨s1, hs1, hr1⟩ := readLoop_tokens tokens
    (reading_initial (emptyIndex (stopConfig stopWordFile).1 (stopConfig stopWordFile).2))
  rw [List.nil_append] at hr1
  have hwc : s1.wordCount < 6 := by
    rw [hr1.count]; omega
  have hwin := hr1.window
  rw [show (admitted tokens).length - 5 = 0 by omega] at hwin
  have hne' : ∀ w ∈ admitted tokens, w ≠ [] := fun w hw => hne w (List.mem_filter.1 hw).1
  obtain ⟨s, hs, hwin'⟩ := flushLoop_window hne' 7 hwin (by omega) (by omega) (by omega)
  have hread : readLoop
      { wordCount := 0,
        concordance := emptyIndex (stopConfig stopWordFile).1 (stopConfig stopWordFile).2,
        theContext := contextArr.empty, calls := [] } (reads tokens trailing) = some s1 := by
    rw [reads, readLoop_append, hs1, Option.some_bind, readLoop_trailing_short s1 trailing hwc]
  refine ⟨_, s1, s, initialState_eq stopWordFile, hread, hwin.calls, hs, ?_, hwin'.calls⟩
  simp only [run, initialState_eq, Option.some_bind, hread, hs]

/-! ## The flush loop from any state -/

theorem shiftArray_val (arr : contextArr) :
    ∃ shifted, shiftArray arr = some shifted ∧ shifted.val = arr.val.tail ++ [[]] := by
  obtain ⟨l, hl⟩ := arr
  obtain ⟨a0, a1, a2, a3, a4, a5, a6, a7, a8, a9, a10, rfl⟩ := list_eleven l hl
  exact ⟨⟨[a1, a2, a3, a4, a5, a6, a7, a8, a9, a10, []], rfl⟩, rfl, rfl⟩

theorem takeWhile_append_stop (p : Str → Bool) (l : List Str) (x : Str) (hx : p x = false) :
    (l ++ [x]).takeWhile p = l.takeWhile p := by
  induction l with
  | nil => simp [List.takeWhile, hx]
  | cons a l ih =>
    simp only [List.cons_append, List.takeWhile_cons]
    split_ifs
    · rw [ih]
    · rfl

theorem pending_le (arr : contextArr) : pending arr ≤ 6 := by
  unfold pending
  refine le_trans (List.takeWhile_prefix _).length_le ?_
  simp [arr.2]

theorem pending_of_empty (arr : contextArr) (h : arr.slot 5 = []) : pending arr = 0 := by
  obtain ⟨l, hl⟩ := arr
  obtain ⟨a0, a1, a2, a3, a4, a5, a6, a7, a8, a9, a10, rfl⟩ := list_eleven l hl
  have h5 : a5 = [] := h
  subst h5
  simp [pending]

theorem pending_shift (arr shifted : contextArr) (h : arr.slot 5 ≠ [])
    (hs : shifted.val = arr.val.tail ++ [[]]) : pending arr = pending shifted + 1 := by
  obtain ⟨l, hl⟩ := arr
  obtain ⟨a0, a1, a2, a3, a4, a5, a6, a7, a8, a9, a10, rfl⟩ := list_eleven l hl
  have h5 : a5 ≠ [] := h
  simp only [List.tail_cons] at hs
  unfold pending
  rw [hs]
  have := takeWhile_append_stop (fun slot => decide (slot ≠ [])) [a6, a7, a8, a9, a10] []
    (by simp)
  simp only [List.drop_succ_cons, List.drop_zero, List.cons_append, List.nil_append] at this ⊢
  rw [this, List.takeWhile_cons]
  simp [h5]

theorem addAndShift_general (s : MainState) :
    ∃ s', addAndShift s = some s' ∧ s'.theContext.val = s.theContext.val.tail ++ [[]] ∧
      s'.calls = s.calls ++ [(s.theContext.slot 5, s.theContext)] ∧
      s'.wordCount = s.wordCount := by
  obtain ⟨shifted, hshift, hval⟩ := shiftArray_val s.theContext
  obtain ⟨t', ht'⟩ : ∃ t', s.concordance.add (s.theContext.slot 5) s.theContext = some t' :=
    ⟨_, add_eq _ _ _⟩
  refine ⟨{ s with concordance := t', theContext := shifted,
                   calls := s.calls ++ [(s.theContext.slot 5, s.theContext)] }, ?_, hval, rfl, rfl⟩
  unfold addAndShift
  simp only [ht', hshift, Option.some_bind, Option.map_some']

theorem flushLoop_general (fuel : Nat) : ∀ (s : MainState), pending s.theContext < fuel →
    ∃ s' added, flushLoop fuel s = some s' ∧ s'.theContext.slot 5 = [] ∧
      s'.calls = s.calls ++ added ∧ added.length = pending s.theContext ∧
      (∀ call ∈ added, call.2.slot 5 ≠ []) ∧ s'.wordCount = s.wordCount := by
  induction fuel with
  | zero => intro s h; omega
  | succ fuel ih =>
    intro s hfuel
    by_cases hkey : s.theContext.slot 5 = []
    · refine ⟨s, [], ?_, hkey, by simp, by rw [pending_of_empty _ hkey]; rfl, by simp, rfl⟩
      simp [flushLoop, hkey]
    · obtain ⟨s1, hs1, hval, hcalls, hwc⟩ := addAndShift_general s
      have hp := pending_shift s.theContext s1.theContext hkey hval
      obtain ⟨s', added, hs', hslot, hc', hlen, hall, hwc'⟩ := ih s1 (by omega)
      refine ⟨s', (s.theContext.slot 5, s.theContext) :: added, ?_, hslot, ?_, ?_, ?_, ?_⟩
      · simp only [flushLoop, hkey, ne_eq, not_false_eq_true, if_true, hs1, Option.some_bind, hs']
      · rw [hc', hcalls, List.append_assoc, List.singleton_append]
      · rw [List.length_cons, hlen, hp]
      · intro call hc
        rcases List.mem_cons.1 hc with rfl | hc
        · exact hkey
        · exact hall call hc
      · rw [hwc', hwc]

theorem flushLoop_succ (fuel : Nat) : ∀ (s s' : MainState), flushLoop fuel s = some s' →
    flushLoop (fuel + 1) s = some s' := by
  induction fuel with
  | zero => intro s s' h; simp [flushLoop] at h
  | succ fuel ih =>
    intro s s' h
    rw [flushLoop] at h ⊢
    split_ifs at h ⊢ with hkey
    · cases hadd : addAndShift s with
      | none => rw [hadd] at h; simp at h
      | some s1 =>
        rw [hadd, Option.some_bind] at h
        rw [Option.some_bind]
        exact ih s1 s' h
    · exact h

theorem flushLoop_mono (s s' : MainState) (fuel : Nat) (h : flushLoop fuel s = some s')
    (more : Nat) : flushLoop (fuel + more) s = some s' := by
  induction more with
  | zero => exact h
  | succ more ih => exact flushLoop_succ _ _ _ ih

/-! ## The formatter -/

theorem getPreKeyContext_eq (c : contextArr) :
    getPreKeyContext c = c.slot 0 ++ ' ' :: (c.slot 1 ++ ' ' :: (c.slot 2 ++ ' ' ::
      (c.slot 3 ++ ' ' :: c.slot 4))) := by
  simp [getPreKeyContext]

theorem getPostKeyContext_eq (c : contextArr) :
    getPostKeyContext c = c.slot 6 ++ ' ' :: (c.slot 7 ++ ' ' :: (c.slot 8 ++ ' ' ::
      (c.slot 9 ++ ' ' :: c.slot 10))) := by
  simp [getPostKeyContext]

theorem getPreKeyContext_length (c : contextArr) :
    ((getPreKeyContext c).length : Int) = preKeyLen c + 4 := by
  rw [getPreKeyContext_eq, preKeyLen_eq]
  simp only [List.length_append, List.length_cons]
  push_cast
  omega

theorem getPostKeyContext_length (c : contextArr) :
    ((getPostKeyContext c).length : Int) = postKeyLen c + 4 := by
  rw [getPostKeyContext_eq, postKeyLen_eq]
  simp only [List.length_append, List.length_cons]
  push_cast
  omega

theorem putWidth_length (width : Int) (right : Bool) (s : Str) (h : (s.length : Int) ≤ width) :
    ((putWidth width right s).length : Int) = width := by
  unfold putWidth
  cases right <;> simp only [Bool.false_eq_true, if_false, if_true, List.length_append,
    List.length_replicate] <;> omega

theorem putWidth_right_spaces (width : Int) (k : Nat) (x : Str)
    (h : ((k + x.length : Nat) : Int) ≤ width) :
    putWidth width true (List.replicate k ' ' ++ x) =
      List.replicate (width.toNat - x.length) ' ' ++ x := by
  unfold putWidth
  simp only [if_true, List.length_append, List.length_replicate]
  rw [← List.append_assoc, ← List.replicate_add]
  congr 2
  omega

theorem putWidth_left_spaces (width : Int) (k : Nat) (x : Str)
    (h : ((x.length + k : Nat) : Int) ≤ width) :
    putWidth width false (x ++ List.replicate k ' ') =
      x ++ List.replicate (width.toNat - x.length) ' ' := by
  unfold putWidth
  simp only [Bool.false_eq_true, if_false, List.length_append, List.length_replicate]
  rw [List.append_assoc, ← List.replicate_add]
  congr 2
  omega

theorem join_leading (a b c d e : Str) (h1 : b = [] → a = []) (h2 : c = [] → b = [])
    (h3 : d = [] → c = []) (h4 : e = [] → d = []) :
    ∃ k, a ++ ' ' :: (b ++ ' ' :: (c ++ ' ' :: (d ++ ' ' :: e))) =
      List.replicate k ' ' ++ joinWords [a, b, c, d, e] := by
  by_cases he : e = []
  · obtain rfl := he
    obtain rfl := h4 rfl
    obtain rfl := h3 rfl
    obtain rfl := h2 rfl
    obtain rfl := h1 rfl
    exact ⟨4, by simp [joinWords, List.intercalate, List.intersperse, List.flatten, List.replicate]⟩
  by_cases hd : d = []
  · obtain rfl := hd
    obtain rfl := h3 rfl
    obtain rfl := h2 rfl
    obtain rfl := h1 rfl
    exact ⟨4, by simp [joinWords, List.intercalate, List.intersperse, List.flatten, List.replicate, he]⟩
  by_cases hc : c = []
  · obtain rfl := hc
    obtain rfl := h2 rfl
    obtain rfl := h1 rfl
    exact ⟨3, by simp [joinWords, List.intercalate, List.intersperse, List.flatten, List.replicate, he, hd]⟩
  by_cases hb : b = []
  · obtain rfl := hb
    obtain rfl := h1 rfl
    exact ⟨2, by simp [joinWords, List.intercalate, List.intersperse, List.flatten, List.replicate, he, hd, hc]⟩
  by_cases ha : a = []
  · obtain rfl := ha
    exact ⟨1, by simp [joinWords, List.intercalate, List.intersperse, List.flatten, List.replicate, he, hd, hc, hb]⟩
  exact ⟨0, by simp [joinWords, List.intercalate, List.intersperse, List.flatten, he, hd, hc, hb, ha]⟩

theorem join_trailing (a b c d e : Str) (h1 : a = [] → b = []) (h2 : b = [] → c = [])
    (h3 : c = [] → d = []) (h4 : d = [] → e = []) :
    ∃ k, a ++ ' ' :: (b ++ ' ' :: (c ++ ' ' :: (d ++ ' ' :: e))) =
      joinWords [a, b, c, d, e] ++ List.replicate k ' ' := by
  by_cases ha : a = []
  · obtain rfl := ha
    obtain rfl := h1 rfl
    obtain rfl := h2 rfl
    obtain rfl := h3 rfl
    obtain rfl := h4 rfl
    exact ⟨4, by simp [joinWords, List.intercalate, List.intersperse, List.flatten, List.replicate]⟩
  by_cases hb : b = []
  · obtain rfl := hb
    obtain rfl := h2 rfl
    obtain rfl := h3 rfl
    obtain rfl := h4 rfl
    exact ⟨4, by simp [joinWords, List.intercalate, List.intersperse, List.flatten, List.replicate, ha]⟩
  by_cases hc : c = []
  · obtain rfl := hc
    obtain rfl := h3 rfl
    obtain rfl := h4 rfl
    exact ⟨3, by simp [joinWords, List.intercalate, List.intersperse, List.flatten, List.replicate, ha, hb]⟩
  by_cases hd : d = []
  · obtain rfl := hd
    obtain rfl := h4 rfl
    exact ⟨2, by simp [joinWords, List.intercalate, List.intersperse, List.flatten, List.replicate, ha, hb, hc]⟩
  by_cases he : e = []
  · obtain rfl := he
    exact ⟨1, by simp [joinWords, List.intercalate, List.intersperse, List.flatten, List.replicate, ha, hb, hc, hd]⟩
  exact ⟨0, by simp [joinWords, List.intercalate, List.intersperse, List.flatten, ha, hb, hc, hd, he]⟩

theorem padAfter_spec (width len : Int) (h : len ≤ width) :
    0 ≤ padAfter width len ∧ 2 * padAfter width len ≤ width - len ∧
      width - len < 2 * padAfter width len + 2 ∧ padAfter width len = (width - len) / 2 := by
  have hnn : 0 ≤ width - len := by omega
  have he : padAfter width len = (width - len) / 2 := by
    unfold padAfter
    exact Int.tdiv_eq_ediv hnn (by decide)
  rw [he]
  omega

theorem padBefore_spec (width len : Int) (h : len ≤ width) :
    padAfter width len ≤ padBefore width len ∧ padBefore width len ≤ padAfter width len + 1 ∧
      padBefore width len + len + padAfter width len = width := by
  obtain ⟨h0, h1, h2, -⟩ := padAfter_spec width len h
  unfold padBefore
  omega

theorem paddedKey_eq (keyLen : Int) (c : contextArr)
    (h : ((c.slot 5).length : Int) ≤ keyLen + 10) :
    paddedKey keyLen c = some
      (List.replicate (padBefore (keyLen + 10) (c.slot 5).length).toNat ' ' ++
        (c.slot 5 ++ List.replicate (padAfter (keyLen + 10) (c.slot 5).length).toNat ' ')) := by
  obtain ⟨h0, -, -, -⟩ := padAfter_spec _ _ h
  obtain ⟨h1, -, -⟩ := padBefore_spec _ _ h
  have h2 : 0 ≤ padBefore (keyLen + 10) (c.slot 5).length := le_trans h0 h1
  simp [paddedKey, getKey, appendSpaces, insertSpaces, h0, h2]

theorem keyField_eq (keyLen : Int) (c : contextArr)
    (h : ((c.slot 5).length : Int) ≤ keyLen + 10) :
    keyField keyLen c = some
      (List.replicate (padBefore (keyLen + 10) (c.slot 5).length).toNat ' ' ++
        (c.slot 5 ++ List.replicate (padAfter (keyLen + 10) (c.slot 5).length).toNat ' ')) := by
  obtain ⟨h0, -, -, -⟩ := padAfter_spec _ _ h
  obtain ⟨h1, -, h3⟩ := padBefore_spec _ _ h
  have h2 : 0 ≤ padBefore (keyLen + 10) (c.slot 5).length := le_trans h0 h1
  rw [keyField, paddedKey_eq keyLen c h, Option.map_some', putWidth]
  simp only [if_true, List.length_append, List.length_replicate]
  have : (keyLen + 10).toNat - ((padBefore (keyLen + 10) (c.slot 5).length).toNat +
      ((c.slot 5).length + (padAfter (keyLen + 10) (c.slot 5).length).toNat)) = 0 := by
    omega
  rw [this]
  rfl

theorem keyField_length (keyLen : Int) (c : contextArr) (key : Str)
    (h : ((c.slot 5).length : Int) ≤ keyLen + 10) (hk : keyField keyLen c = some key) :
    (key.length : Int) = keyLen + 10 := by
  obtain ⟨h0, -, -, -⟩ := padAfter_spec _ _ h
  obtain ⟨h1, -, h3⟩ := padBefore_spec _ _ h
  rw [keyField_eq keyLen c h] at hk
  rw [← Option.some.inj hk]
  simp only [List.length_append, List.length_replicate]
  push_cast
  omega

/-! ## The printed concordance -/

theorem record_of_entry {t0 t : BinarySearchTree} {hist : List (Str × contextArr)}
    (h : Represents t0 t hist) {e : Str × ContextList} (he : e ∈ inorder t.root)
    {r : contextArr} (hr : r ∈ e.2) : ∃ call ∈ hist, call.2 = r := by
  rw [h.entries e he, occurrences, List.mem_map] at hr
  obtain ⟨call, hc, rfl⟩ := hr
  exact ⟨call, (List.mem_filter.1 hc).1, rfl⟩

theorem lengths_le_max {sw : Bool} {v : List Str} {t : BinarySearchTree}
    {hist : List (Str × contextArr)} (h : Represents (emptyIndex sw v) t hist)
    {call : Str × contextArr} (hc : call ∈ hist) :
    preKeyLen call.2 ≤ t.maxPreKeyLen ∧ keyLen call.2 ≤ t.maxKeyLen ∧
      postKeyLen call.2 ≤ t.maxPostKeyLen := by
  exact ⟨(foldl_max_map_spec hist preKeyLen preKeyLen_nonneg _ h.maxPre).2.1 call hc,
    (foldl_max_map_spec hist keyLen keyLen_nonneg _ h.maxKey).2.1 call hc,
    (foldl_max_map_spec hist postKeyLen postKeyLen_nonneg _ h.maxPost).2.1 call hc⟩

theorem stored_lengths_le_max {sw : Bool} {v : List Str} {t : BinarySearchTree}
    {hist : List (Str × contextArr)} (h : Represents (emptyIndex sw v) t hist)
    {e : Str × ContextList} (he : e ∈ inorder t.root) {r : contextArr} (hr : r ∈ e.2) :
    preKeyLen r ≤ t.maxPreKeyLen ∧ keyLen r ≤ t.maxKeyLen ∧ postKeyLen r ≤ t.maxPostKeyLen := by
  obtain ⟨call, hc, rfl⟩ := record_of_entry h he hr
  exact lengths_le_max h hc

theorem printLine_eq (preLen keyLen' postLen : Int) (r : contextArr)
    (hk : keyLen r ≤ keyLen') :
    ∃ key, keyField keyLen' r = some key ∧ (key.length : Int) = keyLen' + 10 ∧
      printLine preLen keyLen' postLen r =
        some (preField preLen r ++ key ++ postField postLen r) := by
  have h : ((r.slot 5).length : Int) ≤ keyLen' + 10 := by
    have : keyLen r = ((r.slot 5).length : Int) := rfl
    omega
  refine ⟨_, keyField_eq keyLen' r h, keyField_length keyLen' r _ h (keyField_eq keyLen' r h), ?_⟩
  rw [printLine, keyField_eq keyLen' r h, Option.map_some']

theorem preField_length (preLen : Int) (r : contextArr) (h : preKeyLen r ≤ preLen) :
    ((preField preLen r).length : Int) = preLen + 40 := by
  apply putWidth_length
  rw [getPreKeyContext_length]; omega

theorem postField_length (postLen : Int) (r : contextArr) (h : postKeyLen r ≤ postLen) :
    ((postField postLen r).length : Int) = postLen + 40 := by
  apply putWidth_length
  rw [getPostKeyContext_length]; omega

theorem printFormatted_forall₂ (preLen keyLen' postLen : Int) (list : ContextList)
    (hk : ∀ r ∈ list, keyLen r ≤ keyLen') :
    ∃ lines, printFormatted preLen keyLen' postLen list = some lines ∧
      List.Forall₂ (fun r line => printLine preLen keyLen' postLen r = some line) list lines := by
  induction list with
  | nil => exact ⟨[], rfl, List.Forall₂.nil⟩
  | cons r list ih =>
    obtain ⟨lines, hl, hf⟩ := ih (fun r' hr' => hk r' (List.mem_cons_of_mem _ hr'))
    obtain ⟨key, -, -, hline⟩ := printLine_eq preLen keyLen' postLen r
      (hk r (List.mem_cons_self _ _))
    refine ⟨_ :: lines, ?_, List.Forall₂.cons hline hf⟩
    simp only [printFormatted, hline, Option.some_bind, hl, Option.map_some']

theorem inorderOutput_forall₂ (preLen keyLen' postLen : Int) (t : TreeNode)
    (hk : ∀ e ∈ inorder t, ∀ r ∈ e.2, keyLen r ≤ keyLen') :
    ∃ lines, inorderOutput preLen keyLen' postLen t = some lines ∧
      List.Forall₂ (fun r line => printLine preLen keyLen' postLen r = some line)
        ((inorder t).flatMap fun e => e.2) lines := by
  induction t with
  | nullptr => exact ⟨[], rfl, List.Forall₂.nil⟩
  | node key list left right ihl ihr =>
    obtain ⟨before, hb, hfb⟩ := ihl (fun e he => hk e (by simp [inorder, he]))
    obtain ⟨after, ha, hfa⟩ := ihr (fun e he => hk e (by simp [inorder, he]))
    obtain ⟨lines, hl, hfl⟩ := printFormatted_forall₂ preLen keyLen' postLen list
      (hk (key, list) (by simp [inorder]))
    refine ⟨before ++ lines ++ after, ?_, ?_⟩
    · simp only [inorderOutput, hb, hl, ha, Option.some_bind, Option.map_some']
    · simp only [inorder, List.flatMap_append, List.flatMap_cons]
      rw [List.append_assoc]
      exact List.rel_append hfb (List.rel_append hfl hfa)

theorem forall₂_exists_left {α β : Type} {R : α → β → Prop} {l₁ : List α} {l₂ : List β}
    (h : List.Forall₂ R l₁ l₂) : ∀ b ∈ l₂, ∃ a ∈ l₁, R a b := by
  induction h with
  | nil => intro b hb; cases hb
  | cons hab _ ih =>
    intro b hb
    rcases List.mem_cons.1 hb with rfl | hb
    · exact ⟨_, List.mem_cons_self _ _, hab⟩
    · obtain ⟨a, ha, hR⟩ := ih b hb
      exact ⟨a, List.mem_cons_of_mem _ ha, hR⟩

theorem printConcordance_forall₂ {sw : Bool} {v : List Str} {t : BinarySearchTree}
    {hist : List (Str × contextArr)} (h : Represents (emptyIndex sw v) t hist) :
    ∃ lines, t.printConcordance = some lines ∧
      List.Forall₂
        (fun r line => printLine t.maxPreKeyLen t.maxKeyLen t.maxPostKeyLen r = some line)
        ((inorder t.root).flatMap fun e => e.2) lines :=
  inorderOutput_forall₂ _ _ _ t.root (fun _ he _ hr => (stored_lengths_le_max h he hr).2.1)

/-! ## The fields of a window record -/

theorem expectedSlot_eq_nil_iff (ws : List Str) (hne : ∀ w ∈ ws, w ≠ []) (i m : Nat) :
    expectedSlot ws i m = [] ↔ ¬ (5 ≤ i + m ∧ i + m < ws.length + 5) := by
  unfold expectedSlot
  constructor
  · intro h hc
    rw [if_pos hc] at h
    have hlt : i + m - 5 < ws.length := by omega
    rw [List.getD_eq_getElem?_getD, List.getElem?_eq_getElem hlt] at h
    exact hne _ (List.getElem_mem _) h
  · intro h
    rw [if_neg h]

theorem preField_window (ws : List Str) (hne : ∀ w ∈ ws, w ≠ []) (i : Nat) (hi : i < ws.length)
    (preLen : Int) (h : preKeyLen (expectedRecord ws i) ≤ preLen) :
    preField preLen (expectedRecord ws i) =
      List.replicate ((preLen + 40).toNat -
        (joinWords [(expectedRecord ws i).slot 0, (expectedRecord ws i).slot 1,
          (expectedRecord ws i).slot 2, (expectedRecord ws i).slot 3,
          (expectedRecord ws i).slot 4]).length) ' ' ++
        joinWords [(expectedRecord ws i).slot 0, (expectedRecord ws i).slot 1,
          (expectedRecord ws i).slot 2, (expectedRecord ws i).slot 3,
          (expectedRecord ws i).slot 4] := by
  have hlen := getPreKeyContext_length (expectedRecord ws i)
  have hnil : ∀ m : Fin 11, (expectedRecord ws i).slot m = [] ↔
      ¬ (5 ≤ i + m.val ∧ i + m.val < ws.length + 5) := fun m => by
    rw [expectedRecord_slot]; exact expectedSlot_eq_nil_iff ws hne i m.val
  obtain ⟨k, hk⟩ := join_leading ((expectedRecord ws i).slot 0) ((expectedRecord ws i).slot 1)
    ((expectedRecord ws i).slot 2) ((expectedRecord ws i).slot 3) ((expectedRecord ws i).slot 4)
    (by rw [hnil 1, hnil 0]; simp only [Fin.val_one, Fin.val_zero]; omega)
    (by rw [hnil 2, hnil 1]; simp only [Fin.val_two, Fin.val_one]; omega)
    (by rw [hnil 3, hnil 2]; simp only [Fin.val_two]; show ¬ (5 ≤ i + 3 ∧ _) → ¬ (5 ≤ i + 2 ∧ _); omega)
    (by rw [hnil 4, hnil 3]; show ¬ (5 ≤ i + 4 ∧ _) → ¬ (5 ≤ i + 3 ∧ _); omega)
  rw [getPreKeyContext_eq] at hlen
  rw [preField, getPreKeyContext_eq, hk]
  rw [hk] at hlen
  apply putWidth_right_spaces
  simp only [List.length_append, List.length_replicate] at hlen
  omega

theorem postField_window (ws : List Str) (hne : ∀ w ∈ ws, w ≠ []) (i : Nat)
    (postLen : Int) (h : postKeyLen (expectedRecord ws i) ≤ postLen) :
    postField postLen (expectedRecord ws i) =
      joinWords [(expectedRecord ws i).slot 6, (expectedRecord ws i).slot 7,
          (expectedRecord ws i).slot 8, (expectedRecord ws i).slot 9,
          (expectedRecord ws i).slot 10] ++
        List.replicate ((postLen + 40).toNat -
          (joinWords [(expectedRecord ws i).slot 6, (expectedRecord ws i).slot 7,
            (expectedRecord ws i).slot 8, (expectedRecord ws i).slot 9,
            (expectedRecord ws i).slot 10]).length) ' ' := by
  have hlen := getPostKeyContext_length (expectedRecord ws i)
  have hnil : ∀ m : Fin 11, (expectedRecord ws i).slot m = [] ↔
      ¬ (5 ≤ i + m.val ∧ i + m.val < ws.length + 5) := fun m => by
    rw [expectedRecord_slot]; exact expectedSlot_eq_nil_iff ws hne i m.val
  obtain ⟨k, hk⟩ := join_trailing ((expectedRecord ws i).slot 6) ((expectedRecord ws i).slot 7)
    ((expectedRecord ws i).slot 8) ((expectedRecord ws i).slot 9) ((expectedRecord ws i).slot 10)
    (by rw [hnil 6, hnil 7]; show ¬ (5 ≤ i + 6 ∧ _) → ¬ (5 ≤ i + 7 ∧ _); omega)
    (by rw [hnil 7, hnil 8]; show ¬ (5 ≤ i + 7 ∧ _) → ¬ (5 ≤ i + 8 ∧ _); omega)
    (by rw [hnil 8, hnil 9]; show ¬ (5 ≤ i + 8 ∧ _) → ¬ (5 ≤ i + 9 ∧ _); omega)
    (by rw [hnil 9, hnil 10]; show ¬ (5 ≤ i + 9 ∧ _) → ¬ (5 ≤ i + 10 ∧ _); omega)
  rw [getPostKeyContext_eq] at hlen
  rw [postField, getPostKeyContext_eq, hk]
  rw [hk] at hlen
  apply putWidth_left_spaces
  simp only [List.length_append, List.length_replicate] at hlen
  omega

/-! ## Context strings, loading stop words, the empty index -/

theorem getPreKeyContext_ne_nil (c : contextArr) : getPreKeyContext c ≠ [] := by
  intro h
  have := getPreKeyContext_length c
  rw [h] at this
  have := preKeyLen_nonneg c
  simp at *
  omega

theorem getPostKeyContext_ne_nil (c : contextArr) : getPostKeyContext c ≠ [] := by
  intro h
  have := getPostKeyContext_length c
  rw [h] at this
  have := postKeyLen_nonneg c
  simp at *
  omega

theorem excludeStopWords_eq (t : BinarySearchTree) (stopWordFile : Option (List Str)) :
    t.excludeStopWords stopWordFile = some
      (match stopWordFile with
        | none => ({ t with stopWords := false }, false)
        | some tokens =>
          ({ t with stopWordVector := t.stopWordVector ++ tokens.map normalize,
                    stopWords := !(t.stopWordVector ++ tokens.map normalize).isEmpty },
            !(t.stopWordVector ++ tokens.map normalize).isEmpty)) := by
  cases stopWordFile with
  | none => rfl
  | some tokens =>
    simp only [BinarySearchTree.excludeStopWords, BinarySearchTree.buildStopWordVector,
      buildStopWordLoop_eq, Option.map_some']
    cases h : t.stopWordVector ++ tokens.map normalize <;> simp

theorem isEmpty_iff (t : BinarySearchTree) : t.isEmpty = true ↔ inorder t.root = [] := by
  unfold BinarySearchTree.isEmpty
  cases t.root with
  | nullptr => simp [inorder]
  | node key list left right => simp [inorder]

theorem isEmpty_iff_keys (t : BinarySearchTree) : t.isEmpty = true ↔ keys t.root = [] := by
  rw [isEmpty_iff, keys, List.map_eq_nil_iff]

theorem indexes_emptyIndex_iff (sw : Bool) (v : List Str) (w : Str) :
    (emptyIndex sw v).indexes w = true ↔ ¬ (sw = true ∧ normalize w ∈ v) := by
  unfold BinarySearchTree.indexes
  rw [Bool.or_eq_true, Bool.not_eq_true', Bool.not_eq_true',
    ← Bool.not_eq_true (b := BinarySearchTree.isStopWord _ _), isStopWord_iff]
  cases sw <;> simp [emptyIndex, BinarySearchTree.new]

/-! ## Linked lists, copies, traversals of two runs -/

theorem tailWalk_eq (l : List contextArr) (h : l ≠ []) : tailWalk l = some (l.length - 1) := by
  induction l with
  | nil => exact absurd rfl h
  | cons a l ih =>
    cases l with
    | nil => rfl
    | cons b l =>
      rw [tailWalk, ih (by simp)]
      simp

theorem ContextList_copy_eq (l : ContextList) (h : l ≠ []) : ContextList.copy l = some l := by
  rw [ContextList.copy, copyNodes_eq, tailWalk_eq l h, Option.map_some']

theorem LinkedList_copy_eq (l : LinkedList) (h : l.chain ≠ []) :
    l.copy = some { chain := l.chain, tail := some (l.chain.length - 1) } := by
  rw [LinkedList.copy]
  simp only [copyNodes_eq, tailWalk_eq l.chain h, Option.map_some']

theorem LinkedList_assign_eq (self rhs : LinkedList) (h : rhs.chain ≠ []) :
    self.assign rhs false = some { chain := rhs.chain, tail := some (rhs.chain.length - 1) } := by
  rw [LinkedList.assign]
  simp only [Bool.false_eq_true, if_false, copyNodes_eq, tailWalk_eq rhs.chain h,
    Option.map_some']

theorem LinkedList_add_eq (l : LinkedList) (c : contextArr) (h : WellLinked l) :
    ∃ l', l.add c = some l' ∧ l'.chain = l.chain ++ [c] ∧ WellLinked l' := by
  obtain ⟨chain, tail⟩ := l
  cases chain with
  | nil => exact ⟨_, rfl, rfl, Or.inr rfl⟩
  | cons a rest =>
    rcases h with h | h
    · cases h
    · simp only at h
      subst h
      refine ⟨{ chain := (a :: rest) ++ [c], tail := some ((a :: rest).length - 1 + 1) }, ?_, rfl,
        Or.inr ?_⟩
      · simp [LinkedList.add]
      · simp

theorem printFormatted_append (preLen keyLen' postLen : Int) (l : ContextList) (c : contextArr) :
    printFormatted preLen keyLen' postLen (l ++ [c]) =
      (printFormatted preLen keyLen' postLen l).bind fun before =>
        (printLine preLen keyLen' postLen c).map fun line => before ++ [line] := by
  induction l with
  | nil =>
    simp only [List.nil_append, printFormatted, Option.some_bind]
    cases printLine preLen keyLen' postLen c <;> rfl
  | cons a l ih =>
    rw [List.cons_append, printFormatted, printFormatted, ih]
    cases printLine preLen keyLen' postLen a with
    | none => rfl
    | some line =>
      cases printFormatted preLen keyLen' postLen l with
      | none => rfl
      | some before =>
        cases printLine preLen keyLen' postLen c <;> rfl

theorem listsNonEmpty_insert (t : TreeNode) (k : Str) (c : contextArr)
    (h : listsNonEmpty t = true) : listsNonEmpty (insert t k c) = true := by
  induction t with
  | nullptr => simp [insert, listsNonEmpty, copyNodes_eq, ContextList_add_eq]
  | node key list left right ihl ihr =>
    simp only [listsNonEmpty, Bool.and_eq_true, Bool.not_eq_true', List.isEmpty_eq_false] at h
    obtain ⟨⟨h1, h2⟩, h3⟩ := h
    unfold insert
    split_ifs
    · simp [listsNonEmpty, h1, ihl h2, h3]
    · simp [listsNonEmpty, ContextList_add_eq, h2, h3]
    · simp [listsNonEmpty, h1, h2, ihr h3]

theorem copyTree_eq (t : TreeNode) (h : listsNonEmpty t = true) : copyTree t = some t := by
  induction t with
  | nullptr => rfl
  | node key list left right ihl ihr =>
    simp only [listsNonEmpty, Bool.and_eq_true, Bool.not_eq_true', List.isEmpty_eq_false] at h
    obtain ⟨⟨h1, h2⟩, h3⟩ := h
    have hl : list ≠ [] := by
      intro hnil; rw [hnil] at h1; simp at h1
    simp [copyTree, ContextList_copy_eq list hl, ihl h2, ihr h3]

theorem listsNonEmpty_add (t : BinarySearchTree) (w : Str) (c : contextArr)
    (h : listsNonEmpty t.root = true) :
    ∃ t', t.add w c = some t' ∧ listsNonEmpty t'.root = true := by
  refine ⟨_, add_eq t w c, ?_⟩
  rw [setMaxLengths_root]
  split_ifs
  · exact listsNonEmpty_insert _ _ _ h
  · exact h

theorem listsNonEmpty_excludeStopWords (t : BinarySearchTree) (stopWordFile : Option (List Str))
    (h : listsNonEmpty t.root = true) :
    ∃ r, t.excludeStopWords stopWordFile = some r ∧ listsNonEmpty r.1.root = true := by
  refine ⟨_, excludeStopWords_eq t stopWordFile, ?_⟩
  cases stopWordFile <;> exact h

theorem mem_inorder_iff {t0 t : BinarySearchTree} {hist : List (Str × contextArr)}
    (h : Represents t0 t hist) (k : Str) (l : ContextList) :
    (k, l) ∈ inorder t.root ↔
      (∃ call ∈ hist, t0.indexes call.1 = true ∧ normalize call.1 = k) ∧
        l = occurrences t0 hist k := by
  rw [← h.mem k]
  constructor
  · intro hm
    exact ⟨List.mem_map.2 ⟨_, hm, rfl⟩, h.entries _ hm⟩
  · rintro ⟨hk, hl⟩
    obtain ⟨e, he, hek⟩ := List.mem_map.1 hk
    have := h.entries e he
    obtain ⟨k', l'⟩ := e
    simp only at hek this
    subst hek
    rw [hl, ← this]
    exact he

/-! ## Reading and writing the free store -/

theorem join_getElem?_append_single {α : Type} (s : List (Option α)) (x : Option α) (a : Nat) :
    ((s ++ [x])[a]?).join = if a = s.length then x else (s[a]?).join := by
  by_cases h : a = s.length
  · subst h; simp
  · rw [if_neg h]
    rcases Nat.lt_or_gt_of_ne h with h1 | h1
    · rw [List.getElem?_append_left h1]
    · rw [List.getElem?_eq_none (by simp; omega), List.getElem?_eq_none (by omega)]

theorem join_getElem?_set {α : Type} (s : List (Option α)) (p : Nat) (x : Option α) (a : Nat)
    (hp : p < s.length) : ((s.set p x)[a]?).join = if a = p then x else (s[a]?).join := by
  by_cases h : a = p
  · subst h; simp [hp]
  · rw [if_neg h, List.getElem?_set_ne (Ne.symm h)]

theorem lt_of_join_isSome {α : Type} {s : List (Option α)} {a : Nat}
    (h : ((s[a]?).join).isSome = true) : a < s.length := by
  by_contra hlt
  rw [List.getElem?_eq_none (by omega)] at h
  simp at h

theorem listNode_lt {h : Heap} {a : Nat} (hl : (h.listNode a).isSome = true) :
    a < h.listNodes.length := lt_of_join_isSome hl

theorem treeNode_lt {h : Heap} {a : Nat} (hl : (h.treeNode a).isSome = true) :
    a < h.treeNodes.length := lt_of_join_isSome hl

theorem tree_lt {h : Heap} {a : Nat} {t : TreeObject} (hl : h.tree a = some t) :
    a < h.trees.length := by
  by_contra hlt
  rw [Heap.tree, List.getElem?_eq_none (by omega)] at hl
  cases hl

theorem isSome_of_eq_some {α : Type} {x : Option α} {c : α} (h : x = some c) :
    x.isSome = true := by rw [h]; rfl

theorem listNode_newListNode (h : Heap) (cell : ListCell) (a : Nat) :
    (h.newListNode cell).1.listNode a =
      if a = h.listNodes.length then some cell else h.listNode a :=
  join_getElem?_append_single _ _ _

theorem treeNode_newTreeNode (h : Heap) (cell : TreeCell) (a : Nat) :
    (h.newTreeNode cell).1.treeNode a =
      if a = h.treeNodes.length then some cell else h.treeNode a :=
  join_getElem?_append_single _ _ _

theorem tree_newTree (h : Heap) (t : TreeObject) (a : Nat) :
    (h.newTree t).1.tree a = if a = h.trees.length then some t else h.tree a := by
  unfold Heap.tree Heap.newTree
  by_cases ha : a = h.trees.length
  · subst ha; simp
  · rw [if_neg ha]
    rcases Nat.lt_or_gt_of_ne ha with h1 | h1
    · exact List.getElem?_append_left h1
    · rw [List.getElem?_eq_none (by simp; omega), List.getElem?_eq_none (by omega)]

theorem setNext_eq (h : Heap) (p : Nat) (cell : ListCell) (nextNode : Option Nat)
    (hc : h.listNode p = some cell) :
    setNext h (some p) nextNode = some
      { h with listNodes := h.listNodes.set p (some { cell with next := nextNode }) } := by
  simp [setNext, hc]

theorem setLeftChild_eq (h : Heap) (p : Nat) (cell : TreeCell) (child : Option Nat)
    (hc : h.treeNode p = some cell) :
    setLeftChild h (some p) child = some
      { h with treeNodes := h.treeNodes.set p (some { cell with leftChildPtr := child }) } := by
  simp [setLeftChild, hc]

theorem setRightChild_eq (h : Heap) (p : Nat) (cell : TreeCell) (child : Option Nat)
    (hc : h.treeNode p = some cell) :
    setRightChild h (some p) child = some
      { h with treeNodes := h.treeNodes.set p (some { cell with rightChildPtr := child }) } := by
  simp [setRightChild, hc]

theorem listNode_set (h : Heap) (p : Nat) (x : Option ListCell) (a : Nat)
    (hp : (h.listNode p).isSome = true) :
    Heap.listNode { h with listNodes := h.listNodes.set p x } a =
      if a = p then x else h.listNode a :=
  join_getElem?_set _ _ _ _ (listNode_lt hp)

theorem treeNode_set (h : Heap) (p : Nat) (x : Option TreeCell) (a : Nat)
    (hp : (h.treeNode p).isSome = true) :
    Heap.treeNode { h with treeNodes := h.treeNodes.set p x } a =
      if a = p then x else h.treeNode a :=
  join_getElem?_set _ _ _ _ (treeNode_lt hp)

theorem tree_set (h : Heap) (p : Nat) (t : TreeObject) (a : Nat) (hp : p < h.trees.length) :
    Heap.tree { h with trees := h.trees.set p t } a = if a = p then some t else h.tree a := by
  unfold Heap.tree
  by_cases ha : a = p
  · subst ha; simp [hp]
  · rw [if_neg ha]; exact List.getElem?_set_ne (Ne.symm ha)

theorem setNext_spec (h : Heap) (p : Nat) (cell : ListCell) (nextNode : Option Nat)
    (hc : h.listNode p = some cell) :
    ∃ h', setNext h (some p) nextNode = some h' ∧ h'.treeNodes = h.treeNodes ∧
      h'.trees = h.trees ∧ h'.listNodes.length = h.listNodes.length ∧
      ∀ a, h'.listNode a = if a = p then some { cell with next := nextNode } else h.listNode a :=
  ⟨_, setNext_eq h p cell nextNode hc, rfl, rfl, List.length_set _ _ _,
    fun a => listNode_set h p _ a (isSome_of_eq_some hc)⟩

theorem setLeftChild_spec (h : Heap) (p : Nat) (cell : TreeCell) (child : Option Nat)
    (hc : h.treeNode p = some cell) :
    ∃ h', setLeftChild h (some p) child = some h' ∧ h'.listNodes = h.listNodes ∧
      h'.trees = h.trees ∧ h'.treeNodes.length = h.treeNodes.length ∧
      ∀ a, h'.treeNode a =
        if a = p then some { cell with leftChildPtr := child } else h.treeNode a :=
  ⟨_, setLeftChild_eq h p cell child hc, rfl, rfl, List.length_set _ _ _,
    fun a => treeNode_set h p _ a (isSome_of_eq_some hc)⟩

theorem setRightChild_spec (h : Heap) (p : Nat) (cell : TreeCell) (child : Option Nat)
    (hc : h.treeNode p = some cell) :
    ∃ h', setRightChild h (some p) child = some h' ∧ h'.listNodes = h.listNodes ∧
      h'.trees = h.trees ∧ h'.treeNodes.length = h.treeNodes.length ∧
      ∀ a, h'.treeNode a =
        if a = p then some { cell with rightChildPtr := child } else h.treeNode a :=
  ⟨_, setRightChild_eq h p cell child hc, rfl, rfl, List.length_set _ _ _,
    fun a => treeNode_set h p _ a (isSome_of_eq_some hc)⟩

/-! ## Steps after a mark -/

theorem mark_le_refl (m : Mark) : m.le m := ⟨Nat.le_refl _, Nat.le_refl _, Nat.le_refl _⟩

theorem mark_le_trans {m n k : Mark} (h1 : m.le n) (h2 : n.le k) : m.le k :=
  ⟨Nat.le_trans h1.1 h2.1, Nat.le_trans h1.2.1 h2.2.1, Nat.le_trans h1.2.2 h2.2.2⟩

theorem grows_refl (h : Heap) : Grows h h :=
  ⟨mark_le_refl _, fun _ x => x, fun _ x => x⟩

theorem grows_trans {h1 h2 h3 : Heap} (a : Grows h1 h2) (b : Grows h2 h3) : Grows h1 h3 :=
  ⟨mark_le_trans a.mark b.mark, fun x hx => b.listNode x (a.listNode x hx),
    fun x hx => b.treeNode x (a.treeNode x hx)⟩

theorem agree_refl (m : Mark) (h : Heap) : Agree m h h :=
  ⟨fun _ _ => rfl, fun _ _ => rfl, fun _ _ => rfl⟩

theorem agree_trans {m : Mark} {h1 h2 h3 : Heap} (a : Agree m h1 h2) (b : Agree m h2 h3) :
    Agree m h1 h3 :=
  ⟨fun x hx => (b.listNode x hx).trans (a.listNode x hx),
    fun x hx => (b.treeNode x hx).trans (a.treeNode x hx),
    fun x hx => (b.tree x hx).trans (a.tree x hx)⟩

theorem agree_mono {m n : Mark} {h1 h2 : Heap} (a : Agree n h1 h2) (hmn : m.le n) :
    Agree m h1 h2 :=
  ⟨fun x hx => a.listNode x (Nat.lt_of_lt_of_le hx hmn.1),
    fun x hx => a.treeNode x (Nat.lt_of_lt_of_le hx hmn.2.1),
    fun x hx => a.tree x (Nat.lt_of_lt_of_le hx hmn.2.2)⟩

theorem step_refl {m : Mark} {h : Heap} (hw : WellFormed h) (hc : Closed m h) : Step m h h :=
  ⟨hw, hc, agree_refl m h, grows_refl h⟩

theorem step_trans {m : Mark} {h1 h2 h3 : Heap} (a : Step m h1 h2) (b : Step m h2 h3) :
    Step m h1 h3 :=
  ⟨b.wellFormed, b.closed, agree_trans a.agree b.agree, grows_trans a.grows b.grows⟩

theorem closed_mark (h : Heap) : Closed h.mark h := by
  refine ⟨?_, ?_, ?_⟩
  · intro a cell ha hc
    exact absurd (treeNode_lt (isSome_of_eq_some hc)) (by simpa [Heap.mark] using ha)
  · intro a cell ha hc
    exact absurd (treeNode_lt (isSome_of_eq_some hc)) (by simpa [Heap.mark] using ha)
  · intro a t ha hc
    exact absurd (tree_lt hc) (by simpa [Heap.mark] using ha)

/-- A step after a later mark is a step after an earlier mark that the state was closed for. -/
theorem step_weaken {m n : Mark} {h h' : Heap} (s : Step n h h') (hmn : m.le n)
    (hc : Closed m h) : Step m h h' := by
  refine ⟨s.wellFormed, ⟨?_, ?_, ?_⟩, agree_mono s.agree hmn, s.grows⟩
  · intro a cell ha hcell p hp
    by_cases hlt : a < n.treeNodes
    · rw [s.agree.treeNode a hlt] at hcell
      exact hc.head a cell ha hcell p hp
    · exact Nat.le_trans hmn.1 (s.closed.head a cell (by omega) hcell p hp)
  · intro a cell ha hcell p hp
    by_cases hlt : a < n.treeNodes
    · rw [s.agree.treeNode a hlt] at hcell
      exact hc.tail a cell ha hcell p hp
    · exact Nat.le_trans hmn.1 (s.closed.tail a cell (by omega) hcell p hp)
  · intro a t ha ht p hp
    by_cases hlt : a < n.trees
    · rw [s.agree.tree a hlt] at ht
      exact hc.root a t ha ht p hp
    · exact Nat.le_trans hmn.2.1 (s.closed.root a t (by omega) ht p hp)

/-! ## Copying a list on the free store -/

theorem treeNode_congr {h h' : Heap} (ht : h'.treeNodes = h.treeNodes) (a : Nat) :
    h'.treeNode a = h.treeNode a := by
  unfold Heap.treeNode; rw [ht]

theorem tree_congr {h h' : Heap} (ht : h'.trees = h.trees) (a : Nat) :
    h'.tree a = h.tree a := by
  unfold Heap.tree; rw [ht]

theorem listNode_congr {h h' : Heap} (ht : h'.listNodes = h.listNodes) (a : Nat) :
    h'.listNode a = h.listNode a := by
  unfold Heap.listNode; rw [ht]

/-- A state that differs from a well-formed one only by new `ListNode` objects that point to
later new ones is a step from it. -/
theorem step_of_new_listNodes {m : Mark} {h h' : Heap} (hw : WellFormed h) (hc : Closed m h)
    (hm : m.le h.mark) (ht : h'.treeNodes = h.treeNodes) (hts : h'.trees = h.trees)
    (hlen : h.listNodes.length ≤ h'.listNodes.length)
    (hold : ∀ a, a < h.listNodes.length → h'.listNode a = h.listNode a)
    (hnew : ∀ a cell, h.listNodes.length ≤ a → h'.listNode a = some cell →
      ∀ p, cell.next = some p → a < p ∧ (h'.listNode p).isSome = true) : Step m h h' := by
  have hlive : ∀ p, (h.listNode p).isSome = true → (h'.listNode p).isSome = true := by
    intro p hp
    rw [hold p (listNode_lt hp)]; exact hp
  refine ⟨⟨?_, ?_, ?_, ?_, ?_, ?_⟩, ⟨?_, ?_, ?_⟩, ⟨?_, ?_, ?_⟩, ⟨?_, hlive, ?_⟩⟩
  · intro a cell hcell p hp
    by_cases ha : a < h.listNodes.length
    · rw [hold a ha] at hcell
      obtain ⟨h1, h2⟩ := hw.next a cell hcell p hp
      exact ⟨h1, hlive p h2⟩
    · exact hnew a cell (by omega) hcell p hp
  · intro a cell hcell p hp
    rw [treeNode_congr ht] at hcell ⊢
    exact hw.left a cell hcell p hp
  · intro a cell hcell p hp
    rw [treeNode_congr ht] at hcell ⊢
    exact hw.right a cell hcell p hp
  · intro a cell hcell
    rw [treeNode_congr ht] at hcell
    obtain ⟨p, h1, h2⟩ := hw.head a cell hcell
    exact ⟨p, h1, hlive p h2⟩
  · intro a cell hcell
    rw [treeNode_congr ht] at hcell
    obtain ⟨p, h1, h2⟩ := hw.tail a cell hcell
    exact ⟨p, h1, hlive p h2⟩
  · intro a t hcell p hp
    rw [tree_congr hts] at hcell
    rw [treeNode_congr ht]
    exact hw.root a t hcell p hp
  · intro a cell ha hcell
    rw [treeNode_congr ht] at hcell
    exact hc.head a cell ha hcell
  · intro a cell ha hcell
    rw [treeNode_congr ht] at hcell
    exact hc.tail a cell ha hcell
  · intro a t ha hcell
    rw [tree_congr hts] at hcell
    exact hc.root a t ha hcell
  · intro a ha
    exact hold a (Nat.lt_of_lt_of_le ha hm.1)
  · intro a _
    exact treeNode_congr ht a
  · intro a _
    exact tree_congr hts a
  · exact ⟨hlen, by simp [Heap.mark, ht], by simp [Heap.mark, hts]⟩
  · intro a ha
    rw [treeNode_congr ht]; exact ha

/-- Result of `copyNodes` on a chain whose nodes are all before position `m`: it completes,
changes no object that existed, and the new nodes form a chain of later and later nodes. -/
theorem copyNodes_spec (m : Nat) : ∀ (fuel : Nat) (h : Heap) (ptr : Option Nat),
    (∀ a cell, a < m → h.listNode a = some cell → ∀ p, cell.next = some p →
      a < p ∧ p < m ∧ (h.listNode p).isSome = true) →
    m ≤ h.listNodes.length →
    (∀ a, ptr = some a → a < m ∧ (h.listNode a).isSome = true ∧ m - a < fuel) →
    0 < fuel →
    ∃ h' r, Heap.copyNodes fuel h ptr = some (h', r) ∧
      h'.treeNodes = h.treeNodes ∧ h'.trees = h.trees ∧
      h.listNodes.length ≤ h'.listNodes.length ∧
      (∀ a, a < h.listNodes.length → h'.listNode a = h.listNode a) ∧
      (∀ a cell, h.listNodes.length ≤ a → h'.listNode a = some cell →
        ∀ p, cell.next = some p → a < p ∧ (h'.listNode p).isSome = true) ∧
      (ptr = none → r = none) ∧
      (∀ a, ptr = some a →
        ∃ q, r = some q ∧ h.listNodes.length ≤ q ∧ (h'.listNode q).isSome = true) := by
  intro fuel
  induction fuel with
  | zero => intro h ptr _ _ _ hf; exact absurd hf (by decide)
  | succ fuel ih =>
    intro h ptr hbelow hm hptr _
    cases ptr with
    | none =>
      refine ⟨h, none, rfl, rfl, rfl, Nat.le_refl _, fun _ _ => rfl, ?_, fun _ => rfl, ?_⟩
      · intro a cell ha hcell
        exact absurd (listNode_lt (isSome_of_eq_some hcell)) (by omega)
      · intro a ha; cases ha
    | some a =>
      obtain ⟨ham, hlive, hfuel⟩ := hptr a rfl
      obtain ⟨orig, horig⟩ := Option.isSome_iff_exists.1 hlive
      -- the state after `new ListNode(...)`
      have hread1 : ∀ x, x < h.listNodes.length →
          (h.newListNode { context := orig.context, next := orig.next }).1.listNode x =
            h.listNode x := by
        intro x hx
        rw [listNode_newListNode, if_neg (by omega)]
      have horig1 : (h.newListNode { context := orig.context, next := orig.next }).1.listNode a
          = some orig := by rw [hread1 a (by omega), horig]
      have hbelow1 : ∀ x cell, x < m →
          (h.newListNode { context := orig.context, next := orig.next }).1.listNode x
            = some cell →
          ∀ p, cell.next = some p → x < p ∧ p < m ∧
            ((h.newListNode { context := orig.context, next := orig.next }).1.listNode p).isSome
              = true := by
        intro x cell hx hcell p hp
        rw [hread1 x (by omega)] at hcell
        obtain ⟨h1, h2, h3⟩ := hbelow x cell hx hcell p hp
        refine ⟨h1, h2, ?_⟩
        rw [hread1 p (by omega)]; exact h3
      have hlen1 : (h.newListNode { context := orig.context, next := orig.next }).1.listNodes.length
          = h.listNodes.length + 1 := by simp [Heap.newListNode]
      obtain ⟨h2, rest, hrec, ht2, hts2, hlen2, hold2, hnew2, hnone2, hsome2⟩ :=
        ih (h.newListNode { context := orig.context, next := orig.next }).1 orig.next hbelow1
          (by rw [hlen1]; omega)
          (by
            intro p hp
            obtain ⟨h1, h2, h3⟩ := hbelow a orig ham horig p hp
            refine ⟨h2, ?_, by omega⟩
            rw [hread1 p (by omega)]; exact h3)
          (by omega)
      rw [hlen1] at hlen2 hold2 hnew2 hsome2
      have hcell2 : h2.listNode h.listNodes.length =
          some { context := orig.context, next := orig.next } := by
        rw [hold2 _ (by omega), listNode_newListNode, if_pos rfl]
      obtain ⟨h3, hset, ht3, hts3, hlen3, hread3⟩ := setNext_spec h2 _ _ rest hcell2
      have hkeep : ∀ q, (h2.listNode q).isSome = true → (h3.listNode q).isSome = true := by
        intro q hq
        rw [hread3]
        split_ifs
        · rfl
        · exact hq
      refine ⟨h3, some h.listNodes.length, ?_, ht3.trans ht2, hts3.trans hts2, by omega,
        ?_, ?_, ?_, ?_⟩
      · rw [Heap.copyNodes]
        simp only [horig, Option.some_bind, horig1, hrec]
        rw [show (h.newListNode { context := orig.context, next := orig.next }).2 =
          h.listNodes.length from rfl, hset]
        rfl
      · intro x hx
        rw [hread3, if_neg (by omega), hold2 x (by omega), hread1 x hx]
      · intro x cell hx hcell p hp
        rw [hread3] at hcell
        by_cases hx0 : x = h.listNodes.length
        · rw [if_pos hx0] at hcell
          cases hcell
          simp only at hp
          cases hnext : orig.next with
          | none =>
            rw [hnone2 hnext] at hp; cases hp
          | some q0 =>
            obtain ⟨q, hq, hq1, hq2⟩ := hsome2 q0 hnext
            rw [hq] at hp
            cases hp
            exact ⟨by omega, hkeep _ hq2⟩
        · rw [if_neg hx0] at hcell
          obtain ⟨h1, h3⟩ := hnew2 x cell (by omega) hcell p hp
          exact ⟨h1, hkeep _ h3⟩
      · intro hn; cases hn
      · intro _ _
        refine ⟨_, rfl, Nat.le_refl _, ?_⟩
        rw [hread3, if_pos rfl]
        rfl

/-- The walk to the last node completes on a chain of later and later nodes. -/
theorem tailWalk_spec (lo : Nat) (h : Heap)
    (hok : ∀ a cell, lo ≤ a → h.listNode a = some cell → ∀ p, cell.next = some p →
      a < p ∧ (h.listNode p).isSome = true) :
    ∀ (fuel a : Nat), lo ≤ a → (h.listNode a).isSome = true →
      h.listNodes.length - a < fuel →
      ∃ last, Heap.tailWalk fuel h (some a) = some last ∧ lo ≤ last ∧
        (h.listNode last).isSome = true := by
  intro fuel
  induction fuel with
  | zero => intro a _ _ hf; exact absurd hf (by omega)
  | succ fuel ih =>
    intro a ha hlive hf
    obtain ⟨cell, hcell⟩ := Option.isSome_iff_exists.1 hlive
    cases hnext : cell.next with
    | none =>
      refine ⟨a, ?_, ha, hlive⟩
      simp [Heap.tailWalk, hcell, hnext]
    | some p =>
      obtain ⟨h1, h2⟩ := hok a cell ha hcell p hnext
      obtain ⟨last, hl, hl1, hl2⟩ := ih p (by omega) h2 (by have := listNode_lt h2; omega)
      refine ⟨last, ?_, hl1, hl2⟩
      simp [Heap.tailWalk, hcell, hnext, hl]

/-- The copy constructor of `ContextList` on a list with a first node: it completes, is a
step after every mark, and `head` and `tail` of the copy point to new nodes. -/
theorem copyList_spec {m : Mark} {h : Heap} (hw : WellFormed h) (hc : Closed m h)
    (hm : m.le h.mark) (aList : ListObject) (a : Nat) (hhead : aList.head = some a)
    (hlive : (h.listNode a).isSome = true) :
    ∃ h' copied, h.copyList aList = some (h', copied) ∧ Step m h h' ∧
      h'.treeNodes = h.treeNodes ∧ h'.trees = h.trees ∧
      (∀ x, x < h.listNodes.length → h'.listNode x = h.listNode x) ∧
      ∃ q t, copied.head = some q ∧ copied.tail = some t ∧
        h.listNodes.length ≤ q ∧ h.listNodes.length ≤ t ∧
        (h'.listNode q).isSome = true ∧ (h'.listNode t).isSome = true := by
  obtain ⟨h', r, hcopy, ht, hts, hlen, hold, hnew, -, hsome⟩ :=
    copyNodes_spec h.listNodes.length (h.listNodes.length + 1) h aList.head
      (by
        intro x cell _ hcell p hp
        obtain ⟨h1, h2⟩ := hw.next x cell hcell p hp
        exact ⟨h1, listNode_lt h2, h2⟩)
      (Nat.le_refl _)
      (by
        intro x hx
        rw [hhead] at hx; cases hx
        exact ⟨listNode_lt hlive, hlive, by omega⟩)
      (by omega)
  obtain ⟨q, hq, hq1, hq2⟩ := hsome a hhead
  obtain ⟨last, hl, hl1, hl2⟩ := tailWalk_spec h.listNodes.length h' hnew
    (h'.listNodes.length + 1) q hq1 hq2 (by omega)
  refine ⟨h', { head := some q, tail := some last }, ?_,
    step_of_new_listNodes hw hc hm ht hts hlen hold hnew, ht, hts, hold,
    q, last, rfl, rfl, hq1, hl1, hq2, hl2⟩
  simp [Heap.copyList, hcopy, hq, hl]

/-! ## Writes that are steps -/

/-- A change of `ListNode` objects at or after the mark that keeps every object and the
order of the `next` pointers is a step. -/
theorem step_of_listNodes {m : Mark} {h h' : Heap} (hw : WellFormed h) (hc : Closed m h)
    (ht : h'.treeNodes = h.treeNodes) (hts : h'.trees = h.trees)
    (hlen : h.listNodes.length ≤ h'.listNodes.length)
    (hagree : ∀ a, a < m.listNodes → h'.listNode a = h.listNode a)
    (hlive : ∀ a, (h.listNode a).isSome = true → (h'.listNode a).isSome = true)
    (hnext : ∀ a cell, h'.listNode a = some cell → ∀ p, cell.next = some p →
      a < p ∧ (h'.listNode p).isSome = true) : Step m h h' := by
  refine ⟨⟨hnext, ?_, ?_, ?_, ?_, ?_⟩, ⟨?_, ?_, ?_⟩, ⟨hagree, ?_, ?_⟩, ⟨?_, hlive, ?_⟩⟩
  · intro a cell hcell p hp
    rw [treeNode_congr ht] at hcell ⊢
    exact hw.left a cell hcell p hp
  · intro a cell hcell p hp
    rw [treeNode_congr ht] at hcell ⊢
    exact hw.right a cell hcell p hp
  · intro a cell hcell
    rw [treeNode_congr ht] at hcell
    obtain ⟨p, h1, h2⟩ := hw.head a cell hcell
    exact ⟨p, h1, hlive p h2⟩
  · intro a cell hcell
    rw [treeNode_congr ht] at hcell
    obtain ⟨p, h1, h2⟩ := hw.tail a cell hcell
    exact ⟨p, h1, hlive p h2⟩
  · intro a t hcell p hp
    rw [tree_congr hts] at hcell
    rw [treeNode_congr ht]
    exact hw.root a t hcell p hp
  · intro a cell ha hcell
    rw [treeNode_congr ht] at hcell
    exact hc.head a cell ha hcell
  · intro a cell ha hcell
    rw [treeNode_congr ht] at hcell
    exact hc.tail a cell ha hcell
  · intro a t ha hcell
    rw [tree_congr hts] at hcell
    exact hc.root a t ha hcell
  · intro a _
    exact treeNode_congr ht a
  · intro a _
    exact tree_congr hts a
  · exact ⟨hlen, by simp [Heap.mark, ht], by simp [Heap.mark, hts]⟩
  · intro a ha
    rw [treeNode_congr ht]; exact ha

/-- Writing one `TreeNode` at or after the mark, new or in place of an old one, is a step when
its pointers lead to objects that exist, its children are later nodes, and its list is after
the mark. -/
theorem step_of_treeNode {m : Mark} {h h' : Heap} (hw : WellFormed h) (hc : Closed m h)
    (x : Nat) (cell : TreeCell) (hl : h'.listNodes = h.listNodes) (hts : h'.trees = h.trees)
    (hlen : h.treeNodes.length ≤ h'.treeNodes.length)
    (hother : ∀ a, a ≠ x → h'.treeNode a = h.treeNode a)
    (hx : h'.treeNode x = some cell) (hmx : m.treeNodes ≤ x)
    (hleft : ∀ p, cell.leftChildPtr = some p → x < p ∧ (h'.treeNode p).isSome = true)
    (hright : ∀ p, cell.rightChildPtr = some p → x < p ∧ (h'.treeNode p).isSome = true)
    (hhead : ∃ p, cell.contextList.head = some p ∧ (h.listNode p).isSome = true ∧
      m.listNodes ≤ p)
    (htail : ∃ p, cell.contextList.tail = some p ∧ (h.listNode p).isSome = true ∧
      m.listNodes ≤ p) : Step m h h' := by
  have hlive : ∀ a, (h.treeNode a).isSome = true → (h'.treeNode a).isSome = true := by
    intro a ha
    by_cases hax : a = x
    · rw [hax, hx]; rfl
    · rw [hother a hax]; exact ha
  refine ⟨⟨?_, ?_, ?_, ?_, ?_, ?_⟩, ⟨?_, ?_, ?_⟩, ⟨?_, ?_, ?_⟩, ⟨?_, ?_, hlive⟩⟩
  · intro a c hcell p hp
    rw [listNode_congr hl] at hcell ⊢
    exact hw.next a c hcell p hp
  · intro a c hcell p hp
    by_cases hax : a = x
    · subst hax
      rw [hx] at hcell; cases hcell
      exact hleft p hp
    · rw [hother a hax] at hcell
      obtain ⟨h1, h2⟩ := hw.left a c hcell p hp
      exact ⟨h1, hlive p h2⟩
  · intro a c hcell p hp
    by_cases hax : a = x
    · subst hax
      rw [hx] at hcell; cases hcell
      exact hright p hp
    · rw [hother a hax] at hcell
      obtain ⟨h1, h2⟩ := hw.right a c hcell p hp
      exact ⟨h1, hlive p h2⟩
  · intro a c hcell
    by_cases hax : a = x
    · subst hax
      rw [hx] at hcell; cases hcell
      obtain ⟨p, h1, h2, -⟩ := hhead
      exact ⟨p, h1, by rw [listNode_congr hl]; exact h2⟩
    · rw [hother a hax] at hcell
      obtain ⟨p, h1, h2⟩ := hw.head a c hcell
      exact ⟨p, h1, by rw [listNode_congr hl]; exact h2⟩
  · intro a c hcell
    by_cases hax : a = x
    · subst hax
      rw [hx] at hcell; cases hcell
      obtain ⟨p, h1, h2, -⟩ := htail
      exact ⟨p, h1, by rw [listNode_congr hl]; exact h2⟩
    · rw [hother a hax] at hcell
      obtain ⟨p, h1, h2⟩ := hw.tail a c hcell
      exact ⟨p, h1, by rw [listNode_congr hl]; exact h2⟩
  · intro a t hcell p hp
    rw [tree_congr hts] at hcell
    exact hlive p (hw.root a t hcell p hp)
  · intro a c ha hcell p hp
    by_cases hax : a = x
    · subst hax
      rw [hx] at hcell; cases hcell
      obtain ⟨q, h1, -, h3⟩ := hhead
      rw [h1] at hp; cases hp; exact h3
    · rw [hother a hax] at hcell
      exact hc.head a c ha hcell p hp
  · intro a c ha hcell p hp
    by_cases hax : a = x
    · subst hax
      rw [hx] at hcell; cases hcell
      obtain ⟨q, h1, -, h3⟩ := htail
      rw [h1] at hp; cases hp; exact h3
    · rw [hother a hax] at hcell
      exact hc.tail a c ha hcell p hp
  · intro a t ha hcell
    rw [tree_congr hts] at hcell
    exact hc.root a t ha hcell
  · intro a _
    exact listNode_congr hl a
  · intro a ha
    exact hother a (by omega)
  · intro a _
    exact tree_congr hts a
  · exact ⟨by simp [Heap.mark, hl], hlen, by simp [Heap.mark, hts]⟩
  · intro a ha
    rw [listNode_congr hl]; exact ha

/-- Writing one `BinarySearchTree` object at or after the mark, new or in place of an old
one, is a step when its `root` is null or a node after the mark. -/
theorem step_of_tree {m : Mark} {h h' : Heap} (hw : WellFormed h) (hc : Closed m h)
    (x : Nat) (t : TreeObject) (hl : h'.listNodes = h.listNodes)
    (htn : h'.treeNodes = h.treeNodes) (hlen : h.trees.length ≤ h'.trees.length)
    (hother : ∀ a, a ≠ x → h'.tree a = h.tree a)
    (hx : h'.tree x = some t) (hmx : m.trees ≤ x)
    (hroot : ∀ p, t.root = some p → (h.treeNode p).isSome = true ∧ m.treeNodes ≤ p) :
    Step m h h' := by
  refine ⟨⟨?_, ?_, ?_, ?_, ?_, ?_⟩, ⟨?_, ?_, ?_⟩, ⟨?_, ?_, ?_⟩, ⟨?_, ?_, ?_⟩⟩
  · intro a c hcell p hp
    rw [listNode_congr hl] at hcell ⊢
    exact hw.next a c hcell p hp
  · intro a c hcell p hp
    rw [treeNode_congr htn] at hcell ⊢
    exact hw.left a c hcell p hp
  · intro a c hcell p hp
    rw [treeNode_congr htn] at hcell ⊢
    exact hw.right a c hcell p hp
  · intro a c hcell
    rw [treeNode_congr htn] at hcell
    obtain ⟨p, h1, h2⟩ := hw.head a c hcell
    exact ⟨p, h1, by rw [listNode_congr hl]; exact h2⟩
  · intro a c hcell
    rw [treeNode_congr htn] at hcell
    obtain ⟨p, h1, h2⟩ := hw.tail a c hcell
    exact ⟨p, h1, by rw [listNode_congr hl]; exact h2⟩
  · intro a t' hcell p hp
    rw [treeNode_congr htn]
    by_cases hax : a = x
    · subst hax
      rw [hx] at hcell; cases hcell
      exact (hroot p hp).1
    · rw [hother a hax] at hcell
      exact hw.root a t' hcell p hp
  · intro a c ha hcell
    rw [treeNode_congr htn] at hcell
    exact hc.head a c ha hcell
  · intro a c ha hcell
    rw [treeNode_congr htn] at hcell
    exact hc.tail a c ha hcell
  · intro a t' ha hcell p hp
    by_cases hax : a = x
    · subst hax
      rw [hx] at hcell; cases hcell
      exact (hroot p hp).2
    · rw [hother a hax] at hcell
      exact hc.root a t' ha hcell p hp
  · intro a _
    exact listNode_congr hl a
  · intro a _
    exact treeNode_congr htn a
  · intro a ha
    exact hother a (by omega)
  · exact ⟨by simp [Heap.mark, hl], by simp [Heap.mark, htn], hlen⟩
  · intro a ha
    rw [listNode_congr hl]; exact ha
  · intro a ha
    rw [treeNode_congr htn]; exact ha

/-! ## The operations of a `TreeNode` on the free store -/

/-- `ContextList::add` on a list that is empty or whose `tail` is a node after the mark: it
completes, is a step, and the new node is the new `tail`. -/
theorem addToList_spec {m : Mark} {h : Heap} (hw : WellFormed h) (hc : Closed m h)
    (hm : m.le h.mark) (list : ListObject) (context : contextArr)
    (hlist : list.head = none ∨
      ∃ t, list.tail = some t ∧ (h.listNode t).isSome = true ∧ m.listNodes ≤ t) :
    ∃ h' added, h.addToList list context = some (h', added) ∧ Step m h h' ∧
      h'.treeNodes = h.treeNodes ∧ h'.trees = h.trees ∧
      h'.listNodes.length = h.listNodes.length + 1 ∧
      h'.listNode h.listNodes.length = some { context := context, next := none } ∧
      (∀ a, a < m.listNodes → h'.listNode a = h.listNode a) ∧
      (list.head = none →
        added = { head := some h.listNodes.length, tail := some h.listNodes.length } ∧
        ∀ a, a < h.listNodes.length → h'.listNode a = h.listNode a) ∧
      (list.head ≠ none → added = { list with tail := some h.listNodes.length }) := by
  have hlen1 : (h.newListNode { context := context, next := none }).1.listNodes.length
      = h.listNodes.length + 1 := by simp [Heap.newListNode]
  have hread1 := listNode_newListNode h { context := context, next := none }
  have hmL : m.listNodes ≤ h.listNodes.length := hm.1
  cases hhead : list.head with
  | none =>
    refine ⟨(h.newListNode { context := context, next := none }).1,
      { head := some h.listNodes.length, tail := some h.listNodes.length }, ?_, ?_, rfl, rfl,
      hlen1, ?_, ?_, ?_, ?_⟩
    · simp [Heap.addToList, hhead, Heap.newListNode]
    · refine step_of_new_listNodes hw hc hm rfl rfl (by omega) ?_ ?_
      · intro a ha; rw [hread1, if_neg (by omega)]
      · intro a cell ha hcell p hp
        rw [hread1] at hcell
        split_ifs at hcell with h0
        · cases hcell; cases hp
        · exact absurd (listNode_lt (isSome_of_eq_some hcell)) (by omega)
    · rw [hread1, if_pos rfl]
    · intro a ha; rw [hread1, if_neg (by omega)]
    · intro _
      exact ⟨rfl, fun a ha => by rw [hread1, if_neg (by omega)]⟩
    · intro hne; exact absurd rfl hne
  | some q0 =>
    rcases hlist with hnone | ⟨t, htail, hlive, hmt⟩
    · rw [hhead] at hnone; cases hnone
    have htlt := listNode_lt hlive
    obtain ⟨ct, hct⟩ := Option.isSome_iff_exists.1 hlive
    have hct1 : (h.newListNode { context := context, next := none }).1.listNode t = some ct := by
      rw [hread1, if_neg (by omega), hct]
    obtain ⟨h2, hset, ht2, hts2, hlen2, hread2⟩ :=
      setNext_spec _ t ct (some h.listNodes.length) hct1
    have hread : ∀ a, h2.listNode a =
        if a = t then some { ct with next := some h.listNodes.length }
        else if a = h.listNodes.length then some { context := context, next := none }
        else h.listNode a := by
      intro a; rw [hread2, hread1]
    have hlive2 : ∀ a, (h.listNode a).isSome = true → (h2.listNode a).isSome = true := by
      intro a ha
      rw [hread]
      split_ifs
      · rfl
      · rfl
      · exact ha
    refine ⟨h2, { list with tail := some h.listNodes.length }, ?_, ?_, ht2, hts2,
      by omega, ?_, ?_, ?_, ?_⟩
    · simp only [Heap.addToList, hhead, htail]
      rw [show (h.newListNode { context := context, next := none }).2 = h.listNodes.length
        from rfl, hset]
      rfl
    · refine step_of_listNodes hw hc ht2 hts2 (by omega) ?_ hlive2 ?_
      · intro a ha
        rw [hread, if_neg (by omega), if_neg (by omega)]
      · intro a cell hcell p hp
        rw [hread] at hcell
        split_ifs at hcell with h0 h1
        · cases hcell
          simp only at hp
          cases hp
          refine ⟨by omega, ?_⟩
          rw [hread, if_neg (by omega), if_pos rfl]; rfl
        · cases hcell; cases hp
        · obtain ⟨h3, h4⟩ := hw.next a cell hcell p hp
          exact ⟨h3, hlive2 p h4⟩
    · rw [hread, if_neg (by omega), if_pos rfl]
    · intro a ha
      rw [hread, if_neg (by omega), if_neg (by omega)]
    · intro hn; cases hn
    · intro _; rw [hhead]

/-- `TreeNode::setLeftChild` on a node after the mark, with null or a later node. -/
theorem setLeftChild_step {m : Mark} {h : Heap} (hw : WellFormed h) (hc : Closed m h)
    (x : Nat) (cell : TreeCell) (hx : h.treeNode x = some cell) (hmx : m.treeNodes ≤ x)
    (child : Option Nat)
    (hchild : ∀ p, child = some p → x < p ∧ (h.treeNode p).isSome = true) :
    ∃ h', setLeftChild h (some x) child = some h' ∧ Step m h h' ∧ h'.trees = h.trees ∧
      h'.listNodes = h.listNodes ∧ h'.treeNodes.length = h.treeNodes.length ∧
      ∀ a, h'.treeNode a =
        if a = x then some { cell with leftChildPtr := child } else h.treeNode a := by
  obtain ⟨h', hset, hl, hts, hlen, hread⟩ := setLeftChild_spec h x cell child hx
  have hlive : ∀ a, (h.treeNode a).isSome = true → (h'.treeNode a).isSome = true := by
    intro a ha
    rw [hread]; split_ifs
    · rfl
    · exact ha
  refine ⟨h', hset, ?_, hts, hl, hlen, hread⟩
  obtain ⟨q, hq1, hq2⟩ := hw.head x cell hx
  obtain ⟨t, ht1, ht2⟩ := hw.tail x cell hx
  refine step_of_treeNode hw hc x { cell with leftChildPtr := child } hl hts (by omega)
    (fun a ha => by rw [hread, if_neg ha]) (by rw [hread, if_pos rfl]) hmx ?_ ?_
    ⟨q, hq1, hq2, hc.head x cell hmx hx q hq1⟩ ⟨t, ht1, ht2, hc.tail x cell hmx hx t ht1⟩
  · intro p hp
    obtain ⟨h1, h2⟩ := hchild p hp
    exact ⟨h1, hlive p h2⟩
  · intro p hp
    obtain ⟨h1, h2⟩ := hw.right x cell hx p hp
    exact ⟨h1, hlive p h2⟩

/-- `TreeNode::setRightChild` on a node after the mark, with null or a later node. -/
theorem setRightChild_step {m : Mark} {h : Heap} (hw : WellFormed h) (hc : Closed m h)
    (x : Nat) (cell : TreeCell) (hx : h.treeNode x = some cell) (hmx : m.treeNodes ≤ x)
    (child : Option Nat)
    (hchild : ∀ p, child = some p → x < p ∧ (h.treeNode p).isSome = true) :
    ∃ h', setRightChild h (some x) child = some h' ∧ Step m h h' ∧ h'.trees = h.trees ∧
      h'.listNodes = h.listNodes ∧ h'.treeNodes.length = h.treeNodes.length ∧
      ∀ a, h'.treeNode a =
        if a = x then some { cell with rightChildPtr := child } else h.treeNode a := by
  obtain ⟨h', hset, hl, hts, hlen, hread⟩ := setRightChild_spec h x cell child hx
  have hlive : ∀ a, (h.treeNode a).isSome = true → (h'.treeNode a).isSome = true := by
    intro a ha
    rw [hread]; split_ifs
    · rfl
    · exact ha
  refine ⟨h', hset, ?_, hts, hl, hlen, hread⟩
  obtain ⟨q, hq1, hq2⟩ := hw.head x cell hx
  obtain ⟨t, ht1, ht2⟩ := hw.tail x cell hx
  refine step_of_treeNode hw hc x { cell with rightChildPtr := child } hl hts (by omega)
    (fun a ha => by rw [hread, if_neg ha]) (by rw [hread, if_pos rfl]) hmx ?_ ?_
    ⟨q, hq1, hq2, hc.head x cell hmx hx q hq1⟩ ⟨t, ht1, ht2, hc.tail x cell hmx hx t ht1⟩
  · intro p hp
    obtain ⟨h1, h2⟩ := hw.left x cell hx p hp
    exact ⟨h1, hlive p h2⟩
  · intro p hp
    obtain ⟨h1, h2⟩ := hchild p hp
    exact ⟨h1, hlive p h2⟩

/-- The allocation of a `TreeNode` without children whose list is after the mark. -/
theorem newTreeNode_step {m : Mark} {h : Heap} (hw : WellFormed h) (hc : Closed m h)
    (hm : m.le h.mark) (cell : TreeCell) (hleft : cell.leftChildPtr = none)
    (hright : cell.rightChildPtr = none)
    (hhead : ∃ p, cell.contextList.head = some p ∧ (h.listNode p).isSome = true ∧
      m.listNodes ≤ p)
    (htail : ∃ p, cell.contextList.tail = some p ∧ (h.listNode p).isSome = true ∧
      m.listNodes ≤ p) : Step m h (h.newTreeNode cell).1 := by
  refine step_of_treeNode hw hc h.treeNodes.length cell rfl rfl (by simp [Heap.newTreeNode])
    (fun a ha => by rw [treeNode_newTreeNode, if_neg ha])
    (by rw [treeNode_newTreeNode, if_pos rfl]) hm.2.1 ?_ ?_ hhead htail
  · intro p hp; rw [hleft] at hp; cases hp
  · intro p hp; rw [hright] at hp; cases hp

/-- `TreeNode::updateContextList` on a node after the mark. -/
theorem updateContextList_spec {m : Mark} {h : Heap} (hw : WellFormed h) (hc : Closed m h)
    (hm : m.le h.mark) (x : Nat) (cell : TreeCell) (hx : h.treeNode x = some cell)
    (hmx : m.treeNodes ≤ x) (context : contextArr) :
    ∃ h', updateContextList h x context = some h' ∧ Step m h h' ∧ h'.trees = h.trees ∧
      (h'.treeNode x).isSome = true := by
  obtain ⟨q, hq1, hq2⟩ := hw.head x cell hx
  obtain ⟨t, ht1, ht2⟩ := hw.tail x cell hx
  obtain ⟨h1, added, hadd, hstep, htn1, hts1, hlen1, hnew1, -, -, hadded⟩ :=
    addToList_spec hw hc hm cell.contextList context
      (Or.inr ⟨t, ht1, ht2, hc.tail x cell hmx hx t ht1⟩)
  have hadded := hadded (by rw [hq1]; exact Option.some_ne_none _)
  have hx1 : h1.treeNode x = some cell := by rw [treeNode_congr htn1, hx]
  have hread : ∀ a, Heap.treeNode { h1 with
      treeNodes := (h1.treeNodes.set x (some { cell with contextList := added })) } a =
      if a = x then some { cell with contextList := added } else h1.treeNode a :=
    fun a => treeNode_set h1 x _ a (isSome_of_eq_some hx1)
  have hlive : ∀ a, (h1.treeNode a).isSome = true →
      (Heap.treeNode { h1 with
        treeNodes := (h1.treeNodes.set x (some { cell with contextList := added })) } a).isSome = true := by
    intro a ha
    rw [hread]; split_ifs
    · rfl
    · exact ha
  refine ⟨{ h1 with
    treeNodes := (h1.treeNodes.set x (some { cell with contextList := added })) }, ?_,
    step_trans hstep ?_, hts1, ?_⟩
  · rw [updateContextList, hx, Option.some_bind, hadd, Option.map_some']
  · refine step_of_treeNode hstep.wellFormed hstep.closed x { cell with contextList := added }
      rfl rfl (by simp) (fun a ha => by rw [hread, if_neg ha]) (by rw [hread, if_pos rfl]) hmx
      ?_ ?_ ?_ ?_
    · intro p hp
      obtain ⟨h3, h4⟩ := hstep.wellFormed.left x cell hx1 p hp
      exact ⟨h3, hlive p h4⟩
    · intro p hp
      obtain ⟨h3, h4⟩ := hstep.wellFormed.right x cell hx1 p hp
      exact ⟨h3, hlive p h4⟩
    · refine ⟨q, ?_, hstep.grows.listNode q hq2, hc.head x cell hmx hx q hq1⟩
      rw [hadded]; exact hq1
    · refine ⟨h.listNodes.length, ?_, isSome_of_eq_some hnew1, hm.1⟩
      rw [hadded]
  · rw [hread, if_pos rfl]; rfl

/-! ## `insert` on the free store -/

/-- Deleting a `ListNode` after the mark that no object points to keeps the state well
formed and closed, and changes no other object. -/
theorem delete_listNode {m : Mark} {h h' : Heap} (hw : WellFormed h) (hc : Closed m h)
    (a0 : Nat) (hma : m.listNodes ≤ a0)
    (hl : ∀ a, h'.listNode a = if a = a0 then none else h.listNode a)
    (ht : h'.treeNodes = h.treeNodes) (hts : h'.trees = h.trees)
    (hnext : ∀ a cell, h.listNode a = some cell → cell.next ≠ some a0)
    (hhead : ∀ a cell, h.treeNode a = some cell →
      cell.contextList.head ≠ some a0 ∧ cell.contextList.tail ≠ some a0) :
    WellFormed h' ∧ Closed m h' ∧ Agree m h h' := by
  have hkeep : ∀ p, p ≠ a0 → (h.listNode p).isSome = true → (h'.listNode p).isSome = true := by
    intro p hp hlive
    rw [hl, if_neg hp]; exact hlive
  refine ⟨⟨?_, ?_, ?_, ?_, ?_, ?_⟩, ⟨?_, ?_, ?_⟩, ⟨?_, ?_, ?_⟩⟩
  · intro a cell hcell p hp
    rw [hl] at hcell
    split_ifs at hcell with h0
    obtain ⟨h1, h2⟩ := hw.next a cell hcell p hp
    refine ⟨h1, hkeep p ?_ h2⟩
    intro hpa
    exact hnext a cell hcell (hpa ▸ hp)
  · intro a cell hcell p hp
    rw [treeNode_congr ht] at hcell ⊢
    exact hw.left a cell hcell p hp
  · intro a cell hcell p hp
    rw [treeNode_congr ht] at hcell ⊢
    exact hw.right a cell hcell p hp
  · intro a cell hcell
    rw [treeNode_congr ht] at hcell
    obtain ⟨p, h1, h2⟩ := hw.head a cell hcell
    refine ⟨p, h1, hkeep p ?_ h2⟩
    intro hpa
    exact (hhead a cell hcell).1 (hpa ▸ h1)
  · intro a cell hcell
    rw [treeNode_congr ht] at hcell
    obtain ⟨p, h1, h2⟩ := hw.tail a cell hcell
    refine ⟨p, h1, hkeep p ?_ h2⟩
    intro hpa
    exact (hhead a cell hcell).2 (hpa ▸ h1)
  · intro a t hcell p hp
    rw [tree_congr hts] at hcell
    rw [treeNode_congr ht]
    exact hw.root a t hcell p hp
  · intro a cell ha hcell
    rw [treeNode_congr ht] at hcell
    exact hc.head a cell ha hcell
  · intro a cell ha hcell
    rw [treeNode_congr ht] at hcell
    exact hc.tail a cell ha hcell
  · intro a t ha hcell
    rw [tree_congr hts] at hcell
    exact hc.root a t ha hcell
  · intro a ha
    rw [hl, if_neg (by omega)]
  · intro a _
    exact treeNode_congr ht a
  · intro a _
    exact tree_congr hts a

/-- The first branch of `insert`: a new `TreeNode` with a list of one new `ListNode`; the
local list is destroyed, and nothing that existed is changed. -/
theorem insert_new_spec {m : Mark} {h : Heap} (hw : WellFormed h) (hc : Closed m h)
    (hm : m.le h.mark) (fuel : Nat) (keyWord : Str) (context : contextArr) :
    ∃ h', Heap.insert (fuel + 1) h none keyWord context = some (h', some h.treeNodes.length) ∧
      Step m h h' ∧ h'.trees = h.trees ∧ (h'.treeNode h.treeNodes.length).isSome = true := by
  have hmL : m.listNodes ≤ h.listNodes.length := hm.1
  obtain ⟨h1, added, hadd, hstep1, htn1, hts1, hlen1, hnew1, -, hadded, -⟩ :=
    addToList_spec hw hc hm { head := none, tail := none } context (Or.inl rfl)
  obtain ⟨hadded, hold1⟩ := hadded rfl
  have hm1 : m.le h1.mark := mark_le_trans hm hstep1.grows.mark
  obtain ⟨h2, member, hcopy, hstep2, htn2, hts2, hold2, q, t, hq, ht, hq1, ht1, hq2, ht2⟩ :=
    copyList_spec hstep1.wellFormed hstep1.closed hm1 added h.listNodes.length
      (by rw [hadded]) (isSome_of_eq_some hnew1)
  rw [hlen1] at hold2 hq1 ht1
  have hm2 : m.le h2.mark := mark_le_trans hm1 hstep2.grows.mark
  have hstep3 := newTreeNode_step hstep2.wellFormed hstep2.closed hm2
    { keyWord := keyWord, contextList := member, leftChildPtr := none, rightChildPtr := none }
    rfl rfl ⟨q, hq, hq2, by omega⟩ ⟨t, ht, ht2, by omega⟩
  have hlen2 : h2.treeNodes.length = h.treeNodes.length := by rw [htn2, htn1]
  -- the state after `new TreeNode(...)`
  obtain ⟨h3, hh3⟩ : ∃ h3, h3 = (h2.newTreeNode
    { keyWord := keyWord, contextList := member, leftChildPtr := none,
      rightChildPtr := none }).1 := ⟨_, rfl⟩
  rw [← hh3] at hstep3
  have hl3 : h3.listNodes = h2.listNodes := by rw [hh3]; rfl
  have hts3 : h3.trees = h2.trees := by rw [hh3]; rfl
  have hread3 : ∀ a, h3.treeNode a =
      if a = h.treeNodes.length then some (TreeCell.mk keyWord member none none)
      else h2.treeNode a := by
    intro a; rw [hh3, treeNode_newTreeNode, hlen2]
  have hcell3 : h3.listNode h.listNodes.length = some { context := context, next := none } := by
    rw [listNode_congr hl3, hold2 _ (by omega), hnew1]
  have hlen3 : ∃ n, h3.listNodes.length = n + 1 :=
    ⟨h3.listNodes.length - 1, by have := listNode_lt (isSome_of_eq_some hcell3); omega⟩
  obtain ⟨n, hn⟩ := hlen3
  -- the state after the destructor of the local list
  obtain ⟨h4, hh4⟩ : ∃ h4, h4 =
    ({ h3 with listNodes := (h3.listNodes.set h.listNodes.length none) } : Heap) := ⟨_, rfl⟩
  have hl4 : ∀ a, h4.listNode a = if a = h.listNodes.length then none else h3.listNode a := by
    intro a; rw [hh4]; exact listNode_set h3 _ _ a (isSome_of_eq_some hcell3)
  have htn4 : h4.treeNodes = h3.treeNodes := by rw [hh4]
  have hts4 : h4.trees = h3.trees := by rw [hh4]
  have hdel := delete_listNode hstep3.wellFormed hstep3.closed h.listNodes.length hmL hl4 htn4
    hts4
    (by
      intro a cell hcell hnext
      obtain ⟨h5, -⟩ := hstep3.wellFormed.next a cell hcell _ hnext
      rw [listNode_congr hl3, hold2 a (by omega), hold1 a h5] at hcell
      obtain ⟨-, h6⟩ := hw.next a cell hcell _ hnext
      exact absurd (listNode_lt h6) (by omega))
    (by
      intro a cell hcell
      rw [hread3] at hcell
      split_ifs at hcell with h0
      · cases hcell
        simp only [hq, ht]
        constructor <;> intro hcon <;> cases hcon <;> omega
      · rw [treeNode_congr htn2, treeNode_congr htn1] at hcell
        obtain ⟨p, hp1, hp2⟩ := hw.head a cell hcell
        obtain ⟨p', hp3, hp4⟩ := hw.tail a cell hcell
        have := listNode_lt hp2
        have := listNode_lt hp4
        rw [hp1, hp3]
        constructor <;> intro hcon <;> cases hcon <;> omega)
  obtain ⟨hw4, hc4, hag4⟩ := hdel
  refine ⟨h4, ?_, ⟨hw4, hc4,
    agree_trans (step_trans (step_trans hstep1 hstep2) hstep3).agree hag4, ?_⟩, ?_, ?_⟩
  · rw [Heap.insert]
    simp only [hadd, Option.some_bind, hcopy]
    rw [← hh3, hn, Heap.clearList]
    simp only [hadded, hcell3, Option.some_bind]
    rw [← hh4, Heap.clearList]
    simp only [Option.map_some', hh3, Heap.newTreeNode, hlen2]
  · have hg := (step_trans (step_trans hstep1 hstep2) hstep3).grows
    refine ⟨⟨?_, ?_, ?_⟩, ?_, ?_⟩
    · have := hg.mark.1
      have h5 : h4.listNodes.length = h3.listNodes.length := by rw [hh4]; simp
      show h.listNodes.length ≤ h4.listNodes.length
      rw [h5]; exact this
    · show h.treeNodes.length ≤ h4.treeNodes.length
      rw [htn4]; exact hg.mark.2.1
    · show h.trees.length ≤ h4.trees.length
      rw [hts4]; exact hg.mark.2.2
    · intro a ha
      rw [hl4, if_neg (by have := listNode_lt ha; omega)]
      exact hg.listNode a ha
    · intro a ha
      rw [treeNode_congr htn4]
      exact hg.treeNode a ha
  · rw [hts4, hts3, hts2, hts1]
  · rw [treeNode_congr htn4, hread3, if_pos rfl]; rfl

/-- `insert` on a subtree after the mark: it completes, is a step, and returns the pointer it
was given or, for the null pointer, a new node. -/
theorem insert_spec {m : Mark} (keyWord : Str) (context : contextArr) :
    ∀ (fuel : Nat) (h : Heap) (ptr : Option Nat), WellFormed h → Closed m h → m.le h.mark →
      (∀ a, ptr = some a → (h.treeNode a).isSome = true ∧ m.treeNodes ≤ a ∧
        h.treeNodes.length - a < fuel) →
      0 < fuel →
      ∃ h' r, Heap.insert fuel h ptr keyWord context = some (h', some r) ∧ Step m h h' ∧
        h'.trees = h.trees ∧ (h'.treeNode r).isSome = true ∧ m.treeNodes ≤ r ∧
        (∀ a, ptr = some a → r = a) ∧ (ptr = none → h.treeNodes.length ≤ r) := by
  intro fuel
  induction fuel with
  | zero => intro h ptr _ _ _ _ hf; exact absurd hf (by decide)
  | succ fuel ih =>
    intro h ptr hw hc hm hptr _
    cases ptr with
    | none =>
      obtain ⟨h', hins, hstep, hts, hlive⟩ := insert_new_spec hw hc hm fuel keyWord context
      exact ⟨h', _, hins, hstep, hts, hlive, hm.2.1, (fun a ha => by cases ha),
        fun _ => Nat.le_refl _⟩
    | some a =>
      obtain ⟨hlive, hma, hfuel⟩ := hptr a rfl
      obtain ⟨cell, hcell⟩ := Option.isSome_iff_exists.1 hlive
      have halt := treeNode_lt hlive
      by_cases hlt : keyWord < cell.keyWord
      · obtain ⟨h1, r, hrec, hstep1, hts1, hr1, hr2, hr3, hr4⟩ :=
          ih h cell.leftChildPtr hw hc hm
            (by
              intro p hp
              obtain ⟨h1, h2⟩ := hw.left a cell hcell p hp
              exact ⟨h2, by omega, by omega⟩)
            (by omega)
        obtain ⟨cell1, hcell1⟩ := Option.isSome_iff_exists.1 (hstep1.grows.treeNode a hlive)
        have har : a < r := by
          cases hleft : cell.leftChildPtr with
          | none => have := hr4 hleft; omega
          | some p =>
            rw [hr3 p hleft]
            exact (hw.left a cell hcell p hleft).1
        obtain ⟨h2, hset, hstep2, hts2, -, -, hread2⟩ :=
          setLeftChild_step hstep1.wellFormed hstep1.closed a cell1 hcell1 hma (some r)
            (by intro p hp; cases hp; exact ⟨har, hr1⟩)
        refine ⟨h2, a, ?_, step_trans hstep1 hstep2, hts2.trans hts1, ?_, hma,
          (fun x hx => by cases hx; rfl), fun hx => by cases hx⟩
        · rw [Heap.insert]
          simp only [hcell, Option.some_bind, if_pos hlt, hrec, hset, Option.map_some']
        · rw [hread2, if_pos rfl]; rfl
      · by_cases heq : keyWord = cell.keyWord
        · obtain ⟨h1, hupd, hstep1, hts1, hlive1⟩ :=
            updateContextList_spec hw hc hm a cell hcell hma context
          refine ⟨h1, a, ?_, hstep1, hts1, hlive1, hma, (fun x hx => by cases hx; rfl),
            fun hx => by cases hx⟩
          rw [Heap.insert]
          simp only [hcell, Option.some_bind, if_neg hlt, if_pos heq, hupd, Option.map_some']
        · obtain ⟨h1, r, hrec, hstep1, hts1, hr1, hr2, hr3, hr4⟩ :=
            ih h cell.rightChildPtr hw hc hm
              (by
                intro p hp
                obtain ⟨h1, h2⟩ := hw.right a cell hcell p hp
                exact ⟨h2, by omega, by omega⟩)
              (by omega)
          obtain ⟨cell1, hcell1⟩ := Option.isSome_iff_exists.1 (hstep1.grows.treeNode a hlive)
          have har : a < r := by
            cases hright : cell.rightChildPtr with
            | none => have := hr4 hright; omega
            | some p =>
              rw [hr3 p hright]
              exact (hw.right a cell hcell p hright).1
          obtain ⟨h2, hset, hstep2, hts2, -, -, hread2⟩ :=
            setRightChild_step hstep1.wellFormed hstep1.closed a cell1 hcell1 hma (some r)
              (by intro p hp; cases hp; exact ⟨har, hr1⟩)
          refine ⟨h2, a, ?_, step_trans hstep1 hstep2, hts2.trans hts1, ?_, hma,
            (fun x hx => by cases hx; rfl), fun hx => by cases hx⟩
          · rw [Heap.insert]
            simp only [hcell, Option.some_bind, if_neg hlt, if_neg heq, hrec, hset,
              Option.map_some']
          · rw [hread2, if_pos rfl]; rfl

/-! ## Copying a tree on the free store -/

/-- `copyTree` on a tree whose nodes are all before position `mT`: it completes, changes no
object that existed, and returns null for null and a new node otherwise. -/
theorem copyTree_spec (mT : Nat) :
    ∀ (fuel : Nat) (h : Heap) (ptr : Option Nat), WellFormed h →
      (∀ a cell, a < mT → h.treeNode a = some cell →
        (∀ p, cell.leftChildPtr = some p → p < mT) ∧
        (∀ p, cell.rightChildPtr = some p → p < mT)) →
      mT ≤ h.treeNodes.length →
      (∀ a, ptr = some a → (h.treeNode a).isSome = true ∧ a < mT ∧ mT - a < fuel) →
      0 < fuel →
      ∃ h' r, Heap.copyTree fuel h ptr = some (h', r) ∧ Step h.mark h h' ∧
        h'.trees = h.trees ∧ (ptr = none → r = none) ∧
        (∀ a, ptr = some a →
          ∃ q, r = some q ∧ h.treeNodes.length ≤ q ∧ (h'.treeNode q).isSome = true) := by
  intro fuel
  induction fuel with
  | zero => intro h ptr _ _ _ _ hf; exact absurd hf (by decide)
  | succ fuel ih =>
    intro h ptr hw hbelow hmT hptr _
    cases ptr with
    | none =>
      exact ⟨h, none, rfl, step_refl hw (closed_mark h), rfl, fun _ => rfl,
        fun a ha => by cases ha⟩
    | some a =>
      obtain ⟨hlive, ham, hfuel⟩ := hptr a rfl
      obtain ⟨orig, horig⟩ := Option.isSome_iff_exists.1 hlive
      obtain ⟨q0, hq0, hq0live⟩ := hw.head a orig horig
      have hagree_orig : ∀ h', Step h.mark h h' → h'.treeNode a = some orig := by
        intro h' hs
        rw [hs.agree.treeNode a (by show a < h.treeNodes.length; omega), horig]
      have hagree_below : ∀ h', Step h.mark h h' →
          ∀ x cell, x < mT → h'.treeNode x = some cell →
            (∀ p, cell.leftChildPtr = some p → p < mT) ∧
            (∀ p, cell.rightChildPtr = some p → p < mT) := by
        intro h' hs x cell hx hcell
        rw [hs.agree.treeNode x (by show x < h.treeNodes.length; omega)] at hcell
        exact hbelow x cell hx hcell
      -- the member list of the new node
      obtain ⟨h1, member, hcopy, hstep1, htn1, hts1, -, q, t, hq, ht, hq1, ht1, hq2, ht2⟩ :=
        copyList_spec hw (closed_mark h) (mark_le_refl _) orig.contextList q0 hq0 hq0live
      -- the new node
      obtain ⟨h2, hh2⟩ : ∃ h2, h2 =
        (h1.newTreeNode (TreeCell.mk orig.keyWord member none none)).1 := ⟨_, rfl⟩
      have hstep2 : Step h.mark h1 h2 := by
        rw [hh2]
        exact newTreeNode_step hstep1.wellFormed hstep1.closed hstep1.grows.mark _ rfl rfl
          ⟨q, hq, hq2, hq1⟩ ⟨t, ht, ht2, ht1⟩
      have hlen1 : h1.treeNodes.length = h.treeNodes.length := by rw [htn1]
      have hlen2 : h2.treeNodes.length = h.treeNodes.length + 1 := by
        rw [hh2]; simp [Heap.newTreeNode, hlen1]
      have hts2 : h2.trees = h1.trees := by rw [hh2]; rfl
      have hnew2 : h2.treeNode h.treeNodes.length =
          some (TreeCell.mk orig.keyWord member none none) := by
        rw [hh2, treeNode_newTreeNode, hlen1, if_pos rfl]
      have hs02 := step_trans hstep1 hstep2
      have horig2 := hagree_orig h2 hs02
      -- the copy of the left subtree
      obtain ⟨h3, left, hrecl, hstep3, hts3, hnonel, hsomel⟩ :=
        ih h2 orig.leftChildPtr hs02.wellFormed (hagree_below h2 hs02) (by omega)
          (by
            intro p hp
            obtain ⟨h5, h6⟩ := hw.left a orig horig p hp
            exact ⟨hs02.grows.treeNode p h6, (hbelow a orig ham horig).1 p hp, by omega⟩)
          (by omega)
      have hstep3' : Step h.mark h2 h3 := step_weaken hstep3 hs02.grows.mark hs02.closed
      have hnew3 : h3.treeNode h.treeNodes.length =
          some (TreeCell.mk orig.keyWord member none none) := by
        rw [hstep3.agree.treeNode _ (by show h.treeNodes.length < h2.treeNodes.length; omega),
          hnew2]
      obtain ⟨h4, hsetl, hstep4, hts4, -, hlen4, hread4⟩ :=
        setLeftChild_step hstep3.wellFormed hstep3'.closed h.treeNodes.length _ hnew3
          (Nat.le_refl _) left
          (by
            intro p hp
            cases hl : orig.leftChildPtr with
            | none => rw [hnonel hl] at hp; cases hp
            | some p0 =>
              obtain ⟨q', hq', hq1', hq2'⟩ := hsomel p0 hl
              rw [hq'] at hp; cases hp
              exact ⟨by omega, hq2'⟩)
      have hs04 := step_trans (step_trans hs02 hstep3') hstep4
      have horig4 := hagree_orig h4 hs04
      -- the copy of the right subtree
      obtain ⟨h5, right, hrecr, hstep5, hts5, hnoner, hsomer⟩ :=
        ih h4 orig.rightChildPtr hs04.wellFormed (hagree_below h4 hs04)
          (by have := hs04.grows.mark.2.1; exact Nat.le_trans hmT this)
          (by
            intro p hp
            obtain ⟨h7, h8⟩ := hw.right a orig horig p hp
            exact ⟨hs04.grows.treeNode p h8, (hbelow a orig ham horig).2 p hp, by omega⟩)
          (by omega)
      have hstep5' : Step h.mark h4 h5 := step_weaken hstep5 hs04.grows.mark hs04.closed
      have hlt4 : h.treeNodes.length < h4.treeNodes.length := by
        have := hstep3.grows.mark.2.1
        have h9 : h2.treeNodes.length ≤ h3.treeNodes.length := this
        omega
      have hnew5 : h5.treeNode h.treeNodes.length =
          some { (TreeCell.mk orig.keyWord member none none) with leftChildPtr := left } := by
        rw [hstep5.agree.treeNode _ hlt4, hread4, if_pos rfl]
      obtain ⟨h6, hsetr, hstep6, hts6, -, hlen6, hread6⟩ :=
        setRightChild_step hstep5.wellFormed hstep5'.closed h.treeNodes.length _ hnew5
          (Nat.le_refl _) right
          (by
            intro p hp
            cases hr : orig.rightChildPtr with
            | none => rw [hnoner hr] at hp; cases hp
            | some p0 =>
              obtain ⟨q', hq', hq1', hq2'⟩ := hsomer p0 hr
              rw [hq'] at hp; cases hp
              have : h.treeNodes.length < h4.treeNodes.length := hlt4
              exact ⟨by omega, hq2'⟩)
      refine ⟨h6, some h.treeNodes.length, ?_, step_trans (step_trans hs04 hstep5') hstep6, ?_,
        (fun hn => by cases hn), ?_⟩
      · rw [Heap.copyTree]
        simp only [horig, Option.some_bind, hcopy]
        rw [← hh2]
        simp only [horig2, Option.some_bind, hrecl]
        rw [show (h1.newTreeNode (TreeCell.mk orig.keyWord member none none)).2 =
          h.treeNodes.length from hlen1]
        simp only [hsetl, Option.some_bind, horig4, hrecr, hsetr, Option.map_some']
      · rw [hts6, hts5, hts4, hts3, hts2, hts1]
      · intro _ _
        refine ⟨_, rfl, Nat.le_refl _, ?_⟩
        rw [hread6, if_pos rfl]; rfl

/-! ## The index objects of the free store -/

theorem wellFormed_empty : WellFormed Heap.empty := by
  refine ⟨?_, ?_, ?_, ?_, ?_, ?_⟩ <;> intro a c hc <;> simp [Heap.empty, Heap.listNode,
    Heap.treeNode, Heap.tree] at hc

/-- The default constructor for a new object is a step. -/
theorem newIndex_step {m : Mark} {h : Heap} (hw : WellFormed h) (hc : Closed m h)
    (hm : m.le h.mark) : Step m h h.newIndex.1 := by
  refine step_of_tree hw hc h.trees.length _ rfl rfl (by simp [Heap.newIndex, Heap.newTree])
    (fun a ha => by rw [Heap.newIndex, tree_newTree, if_neg ha])
    (by rw [Heap.newIndex, tree_newTree, if_pos rfl]) hm.2.2 ?_
  intro p hp; cases hp

/-- The copy constructor of `BinarySearchTree`: it completes, the copy is a new object, and no
object that existed is changed. -/
theorem copyIndex_spec {h : Heap} (hw : WellFormed h) (tree : Nat) (source : TreeObject)
    (hsource : h.tree tree = some source) :
    ∃ h' r, h.copyIndex tree = some (h', h.trees.length) ∧ Step h.mark h h' ∧
      h'.tree h.trees.length = some { source with root := r } := by
  obtain ⟨h1, r, hcopy, hstep1, hts1, hnone, hsome⟩ :=
    copyTree_spec h.treeNodes.length (h.treeNodes.length + 1) h source.root hw
      (by
        intro a cell _ hcell
        exact ⟨fun p hp => treeNode_lt (hw.left a cell hcell p hp).2,
          fun p hp => treeNode_lt (hw.right a cell hcell p hp).2⟩)
      (Nat.le_refl _)
      (by
        intro a ha
        have := hw.root tree source hsource a ha
        exact ⟨this, treeNode_lt this, by omega⟩)
      (by omega)
  have hlen1 : h1.trees.length = h.trees.length := by rw [hts1]
  refine ⟨(h1.newTree { source with root := r }).1, r, ?_, step_trans hstep1 ?_, ?_⟩
  · simp only [Heap.copyIndex, hsource, Option.some_bind, hcopy, Option.map_some']
    simp [Heap.newTree, hlen1]
  · refine step_of_tree hstep1.wellFormed hstep1.closed h.trees.length
      { source with root := r } rfl rfl (by simp [Heap.newTree])
      (fun a ha => by rw [tree_newTree, hlen1, if_neg ha])
      (by rw [tree_newTree, hlen1, if_pos rfl]) (Nat.le_refl _) ?_
    intro p hp
    simp only at hp
    cases hroot : source.root with
    | none => rw [hnone hroot] at hp; cases hp
    | some a =>
      obtain ⟨q, hq, hq1, hq2⟩ := hsome a hroot
      rw [hq] at hp; cases hp
      exact ⟨hq2, hq1⟩
  · rw [tree_newTree, hlen1, if_pos rfl]

/-- `BinarySearchTree::add` on an object after the mark: it completes and is a step. -/
theorem heap_add_spec {m : Mark} {h : Heap} (hw : WellFormed h) (hc : Closed m h)
    (hm : m.le h.mark) (self : Nat) (hself : m.trees ≤ self) (hlive : self < h.trees.length)
    (keyWord : Str) (newContext : contextArr) :
    ∃ h', h.add self keyWord newContext = some h' ∧ Step m h h' ∧
      h'.trees.length = h.trees.length := by
  obtain ⟨t, ht⟩ : ∃ t, h.tree self = some t :=
    ⟨h.trees[self], by simp [Heap.tree, hlive]⟩
  have hroot : ∀ a, t.root = some a → (h.treeNode a).isSome = true ∧ m.treeNodes ≤ a ∧
      h.treeNodes.length - a < h.treeNodes.length + 1 := by
    intro a ha
    exact ⟨hw.root self t ht a ha, hc.root self t hself ht a ha, by omega⟩
  have hwrite : ∀ (h1 : Heap) (t1 : TreeObject), Step m h h1 → h1.trees = h.trees →
      (∀ p, t1.root = some p → (h1.treeNode p).isSome = true ∧ m.treeNodes ≤ p) →
      Step m h ({ h1 with trees := (h1.trees.set self (t1.setMaxLengths newContext)) } : Heap)
      := by
    intro h1 t1 hs hts hr
    refine step_trans hs (step_of_tree hs.wellFormed hs.closed self (t1.setMaxLengths newContext)
      rfl rfl (by simp) (fun a ha => by rw [tree_set _ _ _ _ (by rw [hts]; exact hlive),
        if_neg ha]) (by rw [tree_set _ _ _ _ (by rw [hts]; exact hlive), if_pos rfl]) hself hr)
  have hins : ∃ h1 r, Heap.insert (h.treeNodes.length + 1) h t.root (normalize keyWord)
      newContext = some (h1, some r) ∧ Step m h h1 ∧ h1.trees = h.trees ∧
      (h1.treeNode r).isSome = true ∧ m.treeNodes ≤ r := by
    obtain ⟨h1, r, h2, h3, h4, h5, h6, -⟩ :=
      insert_spec (normalize keyWord) newContext (h.treeNodes.length + 1) h t.root hw hc hm
        hroot (by omega)
    exact ⟨h1, r, h2, h3, h4, h5, h6⟩
  obtain ⟨h1, r, hins, hstep1, hts1, hr1, hr2⟩ := hins
  have hdone := hwrite h1 { t with root := some r } hstep1 hts1
    (by intro p hp; cases hp; exact ⟨hr1, hr2⟩)
  have hskip := hwrite h t (step_refl hw hc) rfl (fun p hp => ⟨(hroot p hp).1, (hroot p hp).2.1⟩)
  unfold Heap.add
  rw [ht, Option.some_bind, removePunctAndLower_eq, Option.some_bind]
  by_cases hsw : t.stopWords = true
  · by_cases hstop : t.members.isStopWord (normalize keyWord) = true
    · refine ⟨_, ?_, hskip, by simp⟩
      simp [hsw, hstop]
    · refine ⟨_, ?_, hdone, by simp [hts1]⟩
      simp [hsw, hstop, hins]
  · refine ⟨_, ?_, hdone, by simp [hts1]⟩
    simp [hsw, hins]

/-- A sequence of calls of `add` on an object after the mark completes and is a step. -/
theorem heap_addAll_spec {m : Mark} (self : Nat) (hself : m.trees ≤ self)
    (calls : List (Str × contextArr)) :
    ∀ (h : Heap), WellFormed h → Closed m h → m.le h.mark → self < h.trees.length →
      ∃ h', h.addAll self calls = some h' ∧ Step m h h' := by
  induction calls with
  | nil => intro h hw hc _ _; exact ⟨h, rfl, step_refl hw hc⟩
  | cons call rest ih =>
    intro h hw hc hm hlive
    obtain ⟨h1, hadd, hstep1, hlen1⟩ := heap_add_spec hw hc hm self hself hlive call.1 call.2
    obtain ⟨h2, hrest, hstep2⟩ := ih h1 hstep1.wellFormed hstep1.closed
      (mark_le_trans hm hstep1.grows.mark) (by omega)
    exact ⟨h2, by simp [Heap.addAll, hadd, hrest], step_trans hstep1 hstep2⟩

/-! ## Reading an index back from the free store -/

/-- The contexts of a chain are read from nodes that exist, so states that agree on them
give the same contexts. -/
theorem chain_agree {h h' : Heap} (hw : WellFormed h)
    (hag : ∀ a, (h.listNode a).isSome = true → h'.listNode a = h.listNode a) :
    ∀ (fuel : Nat) (ptr : Option Nat), (∀ a, ptr = some a → (h.listNode a).isSome = true) →
      Heap.chain fuel h' ptr = Heap.chain fuel h ptr := by
  intro fuel
  induction fuel with
  | zero => intro ptr _; rfl
  | succ fuel ih =>
    intro ptr hptr
    cases ptr with
    | none => rfl
    | some a =>
      have hlive := hptr a rfl
      obtain ⟨cell, hcell⟩ := Option.isSome_iff_exists.1 hlive
      rw [Heap.chain, Heap.chain, hag a hlive, hcell]
      simp only [Option.some_bind]
      rw [ih cell.next (fun p hp => (hw.next a cell hcell p hp).2)]

/-- The tree below a pointer is read from objects that exist. -/
theorem subtree_agree {h h' : Heap} (hw : WellFormed h)
    (hagl : ∀ a, (h.listNode a).isSome = true → h'.listNode a = h.listNode a)
    (hagt : ∀ a, (h.treeNode a).isSome = true → h'.treeNode a = h.treeNode a) :
    ∀ (fuel : Nat) (ptr : Option Nat), (∀ a, ptr = some a → (h.treeNode a).isSome = true) →
      Heap.subtree fuel h' ptr = Heap.subtree fuel h ptr := by
  intro fuel
  induction fuel with
  | zero => intro ptr _; rfl
  | succ fuel ih =>
    intro ptr hptr
    cases ptr with
    | none => rfl
    | some a =>
      have hlive := hptr a rfl
      obtain ⟨cell, hcell⟩ := Option.isSome_iff_exists.1 hlive
      obtain ⟨q, hq, hq2⟩ := hw.head a cell hcell
      rw [Heap.subtree, Heap.subtree, hagt a hlive, hcell]
      simp only [Option.some_bind]
      rw [chain_agree hw hagl (fuel + 1) cell.contextList.head
          (fun p hp => by rw [hq] at hp; cases hp; exact hq2),
        ih cell.leftChildPtr (fun p hp => (hw.left a cell hcell p hp).2),
        ih cell.rightChildPtr (fun p hp => (hw.right a cell hcell p hp).2)]

/-- The chain from a node of a well-formed state is read within as many steps as there are
`ListNode` objects after the node. -/
theorem chain_total {h : Heap} (hw : WellFormed h) :
    ∀ (fuel : Nat) (ptr : Option Nat),
      (∀ a, ptr = some a → (h.listNode a).isSome = true ∧ h.listNodes.length - a < fuel) →
      0 < fuel → ∃ l, Heap.chain fuel h ptr = some l := by
  intro fuel
  induction fuel with
  | zero => intro _ _ hf; exact absurd hf (by decide)
  | succ fuel ih =>
    intro ptr hptr _
    cases ptr with
    | none => exact ⟨[], rfl⟩
    | some a =>
      obtain ⟨hlive, hfuel⟩ := hptr a rfl
      obtain ⟨cell, hcell⟩ := Option.isSome_iff_exists.1 hlive
      have := listNode_lt hlive
      obtain ⟨l, hl⟩ := ih cell.next
        (fun p hp => ⟨(hw.next a cell hcell p hp).2, by
          have := (hw.next a cell hcell p hp).1; omega⟩) (by omega)
      exact ⟨cell.context :: l, by simp [Heap.chain, hcell, hl]⟩

/-- The tree below a node of a well-formed state is read when the steps allowed exceed the
number of objects. -/
theorem subtree_total {h : Heap} (hw : WellFormed h) :
    ∀ (fuel : Nat) (ptr : Option Nat),
      (∀ a, ptr = some a → (h.treeNode a).isSome = true ∧
        h.listNodes.length + (h.treeNodes.length - a) < fuel) →
      h.listNodes.length < fuel → ∃ t, Heap.subtree fuel h ptr = some t := by
  intro fuel
  induction fuel with
  | zero => intro _ _ hf; exact absurd hf (by omega)
  | succ fuel ih =>
    intro ptr hptr hf
    cases ptr with
    | none => exact ⟨.nullptr, rfl⟩
    | some a =>
      obtain ⟨hlive, hfuel⟩ := hptr a rfl
      obtain ⟨cell, hcell⟩ := Option.isSome_iff_exists.1 hlive
      have halt := treeNode_lt hlive
      obtain ⟨q, hq, hq2⟩ := hw.head a cell hcell
      obtain ⟨l, hl⟩ := chain_total hw (fuel + 1) cell.contextList.head
        (fun p hp => by rw [hq] at hp; cases hp; exact ⟨hq2, by omega⟩) (by omega)
      have hchild : ∀ p, a < p → (h.treeNode p).isSome = true →
          (h.treeNode p).isSome = true ∧
            h.listNodes.length + (h.treeNodes.length - p) < fuel := by
        intro p hp hpl
        exact ⟨hpl, by have := treeNode_lt hpl; omega⟩
      have hf2 : h.listNodes.length < fuel := by
        omega
      obtain ⟨tl, htl⟩ := ih cell.leftChildPtr
        (fun p hp => hchild p (hw.left a cell hcell p hp).1 (hw.left a cell hcell p hp).2) hf2
      obtain ⟨tr, htr⟩ := ih cell.rightChildPtr
        (fun p hp => hchild p (hw.right a cell hcell p hp).1 (hw.right a cell hcell p hp).2) hf2
      exact ⟨.node cell.keyWord l tl tr, by simp [Heap.subtree, hcell, hl, htl, htr]⟩

theorem heapAbY_eq : Heap.empty.newIndex.1.addAll 0
    [("ab".toList, recordAb), ("y".toList, recordY), ("Ab.".toList, recordAb)] =
      some heapAbY := by decide

theorem wellFormed_heapAbY : WellFormed heapAbY := by
  have h0 := newIndex_step wellFormed_empty (closed_mark Heap.empty) (mark_le_refl _)
  obtain ⟨h', he, hs⟩ := heap_addAll_spec 0 (Nat.le_refl _)
    [("ab".toList, recordAb), ("y".toList, recordY), ("Ab.".toList, recordAb)]
    Heap.empty.newIndex.1 h0.wellFormed h0.closed h0.grows.mark (by decide)
  rw [heapAbY_eq] at he
  cases he
  exact hs.wellFormed

theorem frame_of_step {h h' : Heap} (hw : WellFormed h) (hs : Step h.mark h h')
    (tree : Nat) (htree : tree < h.trees.length) :
    h'.tree tree = h.tree tree ∧
    (∀ a, (h.listNode a).isSome = true → h'.listNode a = h.listNode a) ∧
    (∀ a, (h.treeNode a).isSome = true → h'.treeNode a = h.treeNode a) ∧
    (∀ fuel, h'.index fuel tree = h.index fuel tree) := by
  have hl : ∀ a, (h.listNode a).isSome = true → h'.listNode a = h.listNode a :=
    fun a ha => hs.agree.listNode a (listNode_lt ha)
  have ht : ∀ a, (h.treeNode a).isSome = true → h'.treeNode a = h.treeNode a :=
    fun a ha => hs.agree.treeNode a (treeNode_lt ha)
  refine ⟨hs.agree.tree tree htree, hl, ht, ?_⟩
  intro fuel
  unfold Heap.index
  rw [hs.agree.tree tree htree]
  cases hobj : h.tree tree with
  | none => rfl
  | some t =>
    simp only [Option.some_bind]
    rw [subtree_agree hw hl ht fuel t.root (fun p hp => hw.root tree t hobj p hp)]

/-! ## Single slots, search trees, entries without an empty list -/

theorem assignAt_int (arr : contextArr) (i : Int) (h0 : 0 ≤ i) (h1 : i < 11) (s : Str) :
    ∃ assigned, arr.assignAt i s = some assigned ∧
      ∀ m : Fin 11, assigned.slot m = if (m.val : Int) = i then s else arr.slot m := by
  obtain ⟨assigned, ha, hget⟩ := assignAt_some arr i.toNat (by omega) s
  rw [Int.toNat_of_nonneg h0] at ha
  refine ⟨assigned, ha, ?_⟩
  intro m
  have := hget m.val m.isLt
  unfold contextArr.slot
  rw [this]
  by_cases hm : (m.val : Int) = i
  · rw [if_pos hm, if_pos (by omega)]
  · rw [if_neg hm, if_neg (by omega)]

theorem mem_occurrences {t0 : BinarySearchTree} {calls : List (Str × contextArr)} {k : Str}
    {r : contextArr} (h : r ∈ occurrences t0 calls k) :
    ∃ call ∈ calls, call.2 = r ∧ normalize call.1 = k ∧ t0.indexes call.1 = true := by
  rw [occurrences, List.mem_map] at h
  obtain ⟨call, hc, rfl⟩ := h
  rw [List.mem_filter, Bool.and_eq_true, decide_eq_true_eq] at hc
  exact ⟨call, hc.1, rfl, hc.2.2, hc.2.1⟩

theorem listsNonEmpty_addAll (calls : List (Str × contextArr)) :
    ∀ t : BinarySearchTree, listsNonEmpty t.root = true →
      ∃ t', addAll t calls = some t' ∧ listsNonEmpty t'.root = true := by
  induction calls with
  | nil => intro t h; exact ⟨t, rfl, h⟩
  | cons call rest ih =>
    intro t h
    obtain ⟨t1, h1, hl1⟩ := listsNonEmpty_add t call.1 call.2 h
    obtain ⟨t2, h2, hl2⟩ := ih t1 hl1
    exact ⟨t2, by simp [addAll, h1, h2], hl2⟩

theorem ne_nil_of_listsNonEmpty (t : TreeNode) (h : listsNonEmpty t = true) :
    ∀ e ∈ inorder t, e.2 ≠ [] := by
  induction t with
  | nullptr => intro e he; cases he
  | node key list left right ihl ihr =>
    simp only [listsNonEmpty, Bool.and_eq_true, Bool.not_eq_true', List.isEmpty_eq_false] at h
    obtain ⟨⟨h1, h2⟩, h3⟩ := h
    intro e he
    rw [inorder, List.mem_append, List.mem_cons] at he
    rcases he with he | rfl | he
    · exact ihl h2 e he
    · intro hnil
      simp only at hnil
      rw [hnil] at h1
      simp at h1
    · exact ihr h3 e he

theorem isSearchTree_insert (t : TreeNode) (k : Str) (c : contextArr) (h : isSearchTree t) :
    isSearchTree (insert t k c) := by
  induction t with
  | nullptr =>
    simp [insert, isSearchTree, keys, inorder]
  | node key list left right ihl ihr =>
    obtain ⟨hl, hr, hsl, hsr⟩ := h
    rw [insert]
    split_ifs with h1 h2
    · refine ⟨?_, hr, ihl hsl, hsr⟩
      intro k' hk'
      rw [mem_keys_insert] at hk'
      rcases hk' with rfl | hk'
      · exact h1
      · exact hl k' hk'
    · exact ⟨hl, hr, hsl, hsr⟩
    · have h3 : key < k := lt_of_le_of_ne (not_lt.1 h1) (Ne.symm h2)
      refine ⟨hl, ?_, hsl, ihr hsr⟩
      intro k' hk'
      rw [mem_keys_insert] at hk'
      rcases hk' with rfl | hk'
      · exact h3
      · exact hr k' hk'

theorem expectedCalls_key (ws : List Str) :
    ∀ call ∈ expectedCalls ws ws.length, call.1 = call.2.slot 5 := by
  intro call hc
  obtain ⟨i, hi, rfl⟩ := (mem_expectedCalls ws call).1 hc
  rw [expectedRecord_slot]
  exact (expectedSlot_key ws i hi).symm

theorem entries_key {t0 t : BinarySearchTree} {calls : List (Str × contextArr)}
    (hr : Represents t0 t calls) (hkey : ∀ call ∈ calls, call.1 = call.2.slot 5) :
    ∀ e ∈ inorder t.root, ∀ r ∈ e.2,
      normalize (r.slot 5) = e.1 ∧ ∃ call ∈ calls, call.2 = r ∧ normalize call.1 = e.1 := by
  intro e he r hre
  rw [hr.entries e he] at hre
  obtain ⟨call, hc, hcr, hn, -⟩ := mem_occurrences hre
  refine ⟨?_, call, hc, hcr, hn⟩
  rw [← hcr, ← hkey call hc, hn]

/-! ## The claims -/

/-- C1: for every corpus of non-empty tokens, `main` (the reading loop with `fillContextArray` and
the emit-and-shift branch, with or without a failed last read, then the flush loop) passes to
`add` exactly one context record for each admitted token, in corpus order. The record of the
word at position `i` is passed with that word as key, has the word in slot 5, in slot `5 - j`
(`1 ≤ j ≤ 5`) the word `j` places before it when there is one and the empty string otherwise,
and in slot `5 + j` the word `j` places after it when there is one and the empty string
otherwise. -/
theorem C1_every_admitted_word_gets_its_window (stopWordFile : Option (List Str))
    (tokens : List Str) (trailing : Bool) (hne : ∀ w ∈ tokens, w ≠ []) :
    ∃ s, run stopWordFile tokens trailing = some s ∧
      s.calls.length = (admitted tokens).length ∧
      ∀ (i : Nat) (hi : i < s.calls.length),
        s.calls[i].1 = (admitted tokens).getD i [] ∧
        s.calls[i].2.slot 5 = (admitted tokens).getD i [] ∧
        (∀ (j : Nat) (h1 : 1 ≤ j) (h5 : j ≤ 5),
          s.calls[i].2.slot ⟨5 - j, by omega⟩ =
            if j ≤ i then (admitted tokens).getD (i - j) [] else []) ∧
        (∀ (j : Nat) (h1 : 1 ≤ j) (h5 : j ≤ 5),
          s.calls[i].2.slot ⟨5 + j, by omega⟩ =
            if i + j < (admitted tokens).length then (admitted tokens).getD (i + j) [] else []) := by
  obtain ⟨s, hs, hcalls, -⟩ := run_represents stopWordFile tokens trailing hne
  refine ⟨s, hs, by rw [hcalls, expectedCalls_length], ?_⟩
  intro i hi
  have hi' : i < (admitted tokens).length := by
    rw [hcalls, expectedCalls_length] at hi; exact hi
  have hget : s.calls[i] = ((admitted tokens).getD i [], expectedRecord (admitted tokens) i) := by
    simp only [hcalls]
    exact expectedCalls_getElem _ _ _ _
  rw [hget]
  refine ⟨rfl, ?_, ?_, ?_⟩
  · rw [expectedRecord_slot]; exact expectedSlot_key _ _ hi'
  · intro j h1 h5
    rw [expectedRecord_slot]
    show expectedSlot (admitted tokens) i (5 - j) = _
    unfold expectedSlot
    by_cases hji : j ≤ i
    · rw [if_pos (by omega), if_pos hji]
      congr 1; omega
    · rw [if_neg (by omega), if_neg hji]
  · intro j h1 h5
    rw [expectedRecord_slot]
    show expectedSlot (admitted tokens) i (5 + j) = _
    unfold expectedSlot
    by_cases hji : i + j < (admitted tokens).length
    · rw [if_pos (by omega), if_pos hji]
      congr 1; omega
    · rw [if_neg (by omega), if_neg hji]

/-- Witness for C1: the corpus "a b c d e f g h" has no empty token, `main` makes 8 calls of
`add`, and the record of the keyword "f" has "a b c d e" before it and "g h" and three empty
strings after it. -/
theorem C1_witness_corpus_a_to_h :
    (∀ w ∈ corpusAH, w ≠ []) ∧
    ∃ s, run none corpusAH true = some s ∧ s.calls.length = 8 ∧
      (s.calls.map fun call => call.2.val).getD 5 [] =
        ["a", "b", "c", "d", "e", "f", "g", "h", "", "", ""].map String.toList := by
  have hne : ∀ w ∈ corpusAH, w ≠ [] := by decide
  obtain ⟨s, hs, hlen, -⟩ := C1_every_admitted_word_gets_its_window none corpusAH true hne
  refine ⟨hne, s, hs, by rw [hlen]; decide, ?_⟩
  have hd : (run none corpusAH true).map
      (fun s => (s.calls.map fun call => call.2.val).getD 5 []) =
      some (["a", "b", "c", "d", "e", "f", "g", "h", "", "", ""].map String.toList) := by
    decide
  rw [hs] at hd
  exact Option.some.inj hd

/-- C2: when stop words are inactive (no stop-word file, or one without tokens), for every
corpus of non-empty tokens the index built by `main` has a key for the normalised form of every
admitted token, the calls of `add` made are the expected records in corpus order, and the
occurrence list of each key `k` holds exactly the records of the positions `i` whose admitted
token normalises to `k`, by increasing `i`; its length is the number of admitted tokens that
normalise to `k`. -/
theorem C2_one_record_per_occurrence_in_corpus_order (stopWordFile : Option (List Str))
    (tokens : List Str) (trailing : Bool)
    (hinactive : stopWordFile = none ∨ stopWordFile = some [])
    (hne : ∀ w ∈ tokens, w ≠ []) :
    ∃ s, run stopWordFile tokens trailing = some s ∧ s.concordance.stopWords = false ∧
      s.calls = expectedCalls (admitted tokens) (admitted tokens).length ∧
      (∀ w ∈ admitted tokens, normalize w ∈ keys s.concordance.root) ∧
      ∀ e ∈ inorder s.concordance.root,
        e.2 = ((List.range (admitted tokens).length).filter fun i =>
                normalize ((admitted tokens).getD i []) = e.1).map
                (expectedRecord (admitted tokens)) ∧
        e.2.length = ((admitted tokens).filter fun w => normalize w = e.1).length := by
  obtain ⟨s, hs, hcalls, hr⟩ := run_represents stopWordFile tokens trailing hne
  rw [stopConfig_inactive stopWordFile hinactive] at hr
  have hocc : ∀ k, occurrences (emptyIndex false [])
      (expectedCalls (admitted tokens) (admitted tokens).length) k =
      ((List.range (admitted tokens).length).filter fun i =>
        normalize ((admitted tokens).getD i []) = k).map (expectedRecord (admitted tokens)) := by
    intro k
    rw [occurrences_expectedCalls]
    simp [indexes_of_inactive (emptyIndex false []) rfl]
  refine ⟨s, hs, hr.stop, hcalls, ?_, ?_⟩
  · intro w hw
    rw [hr.mem]
    exact (exists_call_iff (admitted tokens)
      (fun x => (emptyIndex false []).indexes x = true ∧ normalize x = normalize w)).2
      ⟨w, hw, indexes_of_inactive _ rfl w, rfl⟩
  · intro e he
    have h1 := hr.entries e he
    rw [hocc] at h1
    refine ⟨h1, ?_⟩
    rw [h1, List.length_map]
    exact length_filter_range (admitted tokens) (fun w => decide (normalize w = e.1))

/-- Witness for C2: in the corpus "b a B. a" the words "a" and "b" (the latter also as "B.")
each occur twice, and each has its two records in the order met. -/
theorem C2_witness_repeated_words :
    (∀ w ∈ corpusRepeat, w ≠ []) ∧
    ∃ s, run none corpusRepeat false = some s ∧
      (inorder s.concordance.root).map (fun e => (e.1, e.2.map Subtype.val)) =
        [("a".toList,
            [["", "", "", "", "b", "a", "B.", "a", "", "", ""].map String.toList,
             ["", "", "b", "a", "B.", "a", "", "", "", "", ""].map String.toList]),
         ("b".toList,
            [["", "", "", "", "", "b", "a", "B.", "a", "", ""].map String.toList,
             ["", "", "", "b", "a", "B.", "a", "", "", "", ""].map String.toList])] := by
  have hne : ∀ w ∈ corpusRepeat, w ≠ [] := by decide
  obtain ⟨s, hs, -, -, -, -⟩ :=
    C2_one_record_per_occurrence_in_corpus_order none corpusRepeat false (Or.inl rfl) hne
  refine ⟨hne, s, hs, ?_⟩
  have hd : (run none corpusRepeat false).map
      (fun s => (inorder s.concordance.root).map (fun e => (e.1, e.2.map Subtype.val))) =
      some [("a".toList,
            [["", "", "", "", "b", "a", "B.", "a", "", "", ""].map String.toList,
             ["", "", "b", "a", "B.", "a", "", "", "", "", ""].map String.toList]),
         ("b".toList,
            [["", "", "", "", "", "b", "a", "B.", "a", "", ""].map String.toList,
             ["", "", "", "b", "a", "B.", "a", "", "", "", ""].map String.toList])] := by
    decide
  rw [hs] at hd
  exact Option.some.inj hd

/-- C3: after any sequence of calls of `add` on a new index (stop words inactive) the in-order
traversal lists the distinct normalised words in ascending lexicographic order, each with the
contexts of exactly the calls whose normalised word is that key, in call order; the keys are
strictly increasing, so no key has a second node. -/
theorem C3_inorder_lists_sorted_distinct_keys (calls : List (Str × contextArr)) :
    ∃ t, addAll BinarySearchTree.new calls = some t ∧
      inorder t.root =
        (((calls.map fun call => normalize call.1).dedup).insertionSort (· ≤ ·)).map
          (fun k => (k, (calls.filter fun call => normalize call.1 = k).map Prod.snd)) ∧
      (keys t.root).Sorted (· < ·) ∧ (keys t.root).Nodup := by
  obtain ⟨t, ht, hr⟩ := represents_emptyIndex false [] calls
  refine ⟨t, ht, ?_, hr.sorted, hr.sorted.nodup⟩
  rw [inorder_eq_of_represents hr, filter_indexes_of_inactive _ rfl]
  apply List.map_congr_left
  intro k _
  rw [occurrences_of_inactive _ rfl]

/-- C4: in every index reached from an empty index (with any stop-word configuration) by calls
of `add`, the keys in traversal order are strictly increasing: no key is visited twice, and the
key at place `i` comes before the key at place `j` exactly when it is the smaller one. -/
theorem C4_traversal_strictly_increasing (stopWords : Bool) (stopWordVector : List Str)
    (calls : List (Str × contextArr)) :
    ∃ t, addAll (emptyIndex stopWords stopWordVector) calls = some t ∧
      (keys t.root).Sorted (· < ·) ∧ (keys t.root).Nodup ∧
      ∀ (i j : Nat) (hi : i < (keys t.root).length) (hj : j < (keys t.root).length),
        (i < j ↔ (keys t.root)[i] < (keys t.root)[j]) := by
  obtain ⟨t, ht, hr⟩ := represents_emptyIndex stopWords stopWordVector calls
  exact ⟨t, ht, hr.sorted, hr.sorted.nodup, sorted_lt_getElem_iff _ hr.sorted⟩

/-- C5: with the stop-word filter active (a stop-word file with at least one token), after
`main` has processed a corpus of non-empty tokens the index has an entry for `k` exactly when
`k` is the normalised form of an admitted token and `k` is not in the stop-word vector. -/
theorem C5_entries_are_the_non_stop_words (stopTokens tokens : List Str) (trailing : Bool)
    (hactive : stopTokens ≠ []) (hne : ∀ w ∈ tokens, w ≠ []) :
    ∃ s, run (some stopTokens) tokens trailing = some s ∧
      s.concordance.stopWords = true ∧
      s.concordance.stopWordVector = stopTokens.map normalize ∧
      ∀ k, k ∈ keys s.concordance.root ↔
        (∃ w ∈ admitted tokens, normalize w = k) ∧ k ∉ stopTokens.map normalize := by
  obtain ⟨s, hs, -, hr⟩ := run_represents (some stopTokens) tokens trailing hne
  have hcfg : stopConfig (some stopTokens) = (true, stopTokens.map normalize) := by
    cases stopTokens with
    | nil => exact absurd rfl hactive
    | cons a l => rfl
  rw [hcfg] at hr
  refine ⟨s, hs, hr.stop, hr.vec, ?_⟩
  intro k
  rw [hr.mem, exists_call_iff (admitted tokens)
    (fun x => (emptyIndex true (stopTokens.map normalize)).indexes x = true ∧ normalize x = k)]
  have hix : ∀ w, (emptyIndex true (stopTokens.map normalize)).indexes w = true ↔
      normalize w ∉ stopTokens.map normalize := by
    intro w
    unfold BinarySearchTree.indexes
    rw [Bool.or_eq_true, Bool.not_eq_true', Bool.not_eq_true', ← Bool.not_eq_true (b := BinarySearchTree.isStopWord _ _),
      isStopWord_iff]
    simp [emptyIndex]
  constructor
  · rintro ⟨w, hw, h1, rfl⟩
    exact ⟨⟨w, hw, rfl⟩, (hix w).1 h1⟩
  · rintro ⟨⟨w, hw, rfl⟩, h2⟩
    exact ⟨w, hw, (hix w).2 h2, rfl⟩

/-- Witness for C5: with the stop words "the" and "a", the corpus "the cat sat" gives entries
exactly for "cat" and "sat". -/
theorem C5_witness_the_cat_sat :
    (["the", "a"].map String.toList ≠ []) ∧ (∀ w ∈ corpusCat, w ≠ []) ∧
    ∃ s, run (some (["the", "a"].map String.toList)) corpusCat true = some s ∧
      keys s.concordance.root = ["cat", "sat"].map String.toList := by
  have hne : ∀ w ∈ corpusCat, w ≠ [] := by decide
  obtain ⟨s, hs, -, -, -⟩ :=
    C5_entries_are_the_non_stop_words (["the", "a"].map String.toList) corpusCat true
      (by decide) hne
  refine ⟨by decide, hne, s, hs, ?_⟩
  have hd : (run (some (["the", "a"].map String.toList)) corpusCat true).map
      (fun s => keys s.concordance.root) = some (["cat", "sat"].map String.toList) := by
    decide
  rw [hs] at hd
  exact Option.some.inj hd

/-- C6: with the stop-word filter active, a call `add(word, ctx)` whose normalised word is a stop
word leaves the tree, the stop-word flag and the stop-word vector unchanged, and sets the three
maximum lengths as `setMaxLengths(ctx)` does, which is what `add` does for every other word too. -/
theorem C6_stop_word_leaves_tree_updates_lengths (t : BinarySearchTree) (word : Str)
    (ctx : contextArr) (hactive : t.stopWords = true)
    (hstop : t.isStopWord (normalize word) = true) :
    ∃ t', t.add word ctx = some t' ∧ t'.root = t.root ∧ inorder t'.root = inorder t.root ∧
      t'.stopWords = t.stopWords ∧ t'.stopWordVector = t.stopWordVector ∧
      t'.maxPreKeyLen = (t.setMaxLengths ctx).maxPreKeyLen ∧
      t'.maxKeyLen = (t.setMaxLengths ctx).maxKeyLen ∧
      t'.maxPostKeyLen = (t.setMaxLengths ctx).maxPostKeyLen ∧
      ∀ other : Str, ∃ t2, t.add other ctx = some t2 ∧ t2.maxPreKeyLen = t'.maxPreKeyLen ∧
        t2.maxKeyLen = t'.maxKeyLen ∧ t2.maxPostKeyLen = t'.maxPostKeyLen := by
  refine ⟨_, add_eq_setMaxLengths_of_stop t word ctx hactive hstop, rfl, rfl, rfl, rfl, rfl, rfl,
    rfl, ?_⟩
  intro other
  obtain ⟨t2, h2, hp, hk, hq⟩ := add_max t other ctx
  exact ⟨t2, h2, by rw [hp, setMaxLengths_maxPre], by rw [hk, setMaxLengths_maxKey],
    by rw [hq, setMaxLengths_maxPost]⟩

/-- Witness for C6: in an empty index with the stop word "the", adding "The" with the context
"The cat" leaves the tree empty and sets the maximum key and post-context lengths to 3. -/
theorem C6_witness_the_is_a_stop_word :
    ∃ t', (emptyIndex true ["the".toList]).add "The".toList
        ⟨["", "", "", "", "", "The", "cat", "", "", "", ""].map String.toList, by decide⟩ = some t' ∧
      t'.root = TreeNode.nullptr ∧ t'.maxKeyLen = 3 ∧ t'.maxPostKeyLen = 3 := by
  obtain ⟨t', h, hroot, -, -, -, -, hk, hp, -⟩ :=
    C6_stop_word_leaves_tree_updates_lengths (emptyIndex true ["the".toList]) "The".toList
      ⟨["", "", "", "", "", "The", "cat", "", "", "", ""].map String.toList, by decide⟩
      (by decide) (by decide)
  exact ⟨t', h, hroot, by rw [hk]; decide, by rw [hp]; decide⟩

/-- C7: after any sequence of calls of `add` on an empty index (with any stop-word
configuration), each of the three maximum lengths is 0 when no call was made, bounds the
corresponding length (total length of slots 0-4, length of slot 5, total length of slots 6-10)
of the context of every call, stop words included, and is attained by some call. -/
theorem C7_max_lengths_are_maxima_over_all_contexts (stopWords : Bool)
    (stopWordVector : List Str) (calls : List (Str × contextArr)) :
    ∃ t, addAll (emptyIndex stopWords stopWordVector) calls = some t ∧
      (calls = [] → t.maxPreKeyLen = 0 ∧ t.maxKeyLen = 0 ∧ t.maxPostKeyLen = 0) ∧
      (∀ call ∈ calls,
        (((call.2.slot 0).length + (call.2.slot 1).length + (call.2.slot 2).length +
          (call.2.slot 3).length + (call.2.slot 4).length : Nat) : Int) ≤ t.maxPreKeyLen ∧
        ((call.2.slot 5).length : Int) ≤ t.maxKeyLen ∧
        (((call.2.slot 6).length + (call.2.slot 7).length + (call.2.slot 8).length +
          (call.2.slot 9).length + (call.2.slot 10).length : Nat) : Int) ≤ t.maxPostKeyLen) ∧
      (calls ≠ [] →
        (∃ call ∈ calls, t.maxPreKeyLen =
          (((call.2.slot 0).length + (call.2.slot 1).length + (call.2.slot 2).length +
            (call.2.slot 3).length + (call.2.slot 4).length : Nat) : Int)) ∧
        (∃ call ∈ calls, t.maxKeyLen = ((call.2.slot 5).length : Int)) ∧
        (∃ call ∈ calls, t.maxPostKeyLen =
          (((call.2.slot 6).length + (call.2.slot 7).length + (call.2.slot 8).length +
            (call.2.slot 9).length + (call.2.slot 10).length : Nat) : Int))) := by
  obtain ⟨t, ht, hr⟩ := represents_emptyIndex stopWords stopWordVector calls
  have hp := foldl_max_map_spec calls preKeyLen preKeyLen_nonneg _ hr.maxPre
  have hk := foldl_max_map_spec calls keyLen keyLen_nonneg _ hr.maxKey
  have hq := foldl_max_map_spec calls postKeyLen postKeyLen_nonneg _ hr.maxPost
  simp only [preKeyLen_eq] at hp
  simp only [postKeyLen_eq] at hq
  simp only [keyLen] at hk
  exact ⟨t, ht, fun h => ⟨hp.1 h, hk.1 h, hq.1 h⟩,
    fun call hc => ⟨hp.2.1 call hc, hk.2.1 call hc, hq.2.1 call hc⟩,
    fun h => ⟨hp.2.2 h, hk.2.2 h, hq.2.2 h⟩⟩

/-- C8: the maximum lengths never decrease: after `add(word, ctx)` and after
`setMaxLengths(ctx)` each of the three is at least its value before, and it is unchanged when
the corresponding length of `ctx` does not exceed it. -/
theorem C8_max_lengths_never_decrease (t : BinarySearchTree) (word : Str) (ctx : contextArr) :
    (∃ t', t.add word ctx = some t' ∧
      t.maxPreKeyLen ≤ t'.maxPreKeyLen ∧ t.maxKeyLen ≤ t'.maxKeyLen ∧
      t.maxPostKeyLen ≤ t'.maxPostKeyLen ∧
      (preKeyLen ctx ≤ t.maxPreKeyLen → t'.maxPreKeyLen = t.maxPreKeyLen) ∧
      (keyLen ctx ≤ t.maxKeyLen → t'.maxKeyLen = t.maxKeyLen) ∧
      (postKeyLen ctx ≤ t.maxPostKeyLen → t'.maxPostKeyLen = t.maxPostKeyLen)) ∧
    (t.maxPreKeyLen ≤ (t.setMaxLengths ctx).maxPreKeyLen ∧
      t.maxKeyLen ≤ (t.setMaxLengths ctx).maxKeyLen ∧
      t.maxPostKeyLen ≤ (t.setMaxLengths ctx).maxPostKeyLen ∧
      (preKeyLen ctx ≤ t.maxPreKeyLen → (t.setMaxLengths ctx).maxPreKeyLen = t.maxPreKeyLen) ∧
      (keyLen ctx ≤ t.maxKeyLen → (t.setMaxLengths ctx).maxKeyLen = t.maxKeyLen) ∧
      (postKeyLen ctx ≤ t.maxPostKeyLen →
        (t.setMaxLengths ctx).maxPostKeyLen = t.maxPostKeyLen)) := by
  constructor
  · obtain ⟨t', h, hp, hk, hq⟩ := add_max t word ctx
    refine ⟨t', h, ?_, ?_, ?_, ?_, ?_, ?_⟩
    · rw [hp]; exact le_max_left _ _
    · rw [hk]; exact le_max_left _ _
    · rw [hq]; exact le_max_left _ _
    · intro hle; rw [hp]; exact max_eq_left hle
    · intro hle; rw [hk]; exact max_eq_left hle
    · intro hle; rw [hq]; exact max_eq_left hle
  · rw [setMaxLengths_maxPre, setMaxLengths_maxKey, setMaxLengths_maxPost]
    exact ⟨le_max_left _ _, le_max_left _ _, le_max_left _ _, max_eq_left, max_eq_left,
      max_eq_left⟩

/-- C9: for every word, `removePunctAndLower` leaves exactly the characters of the word that are
not punctuation, in their original order, each converted to lower case; a word of only
punctuation becomes the empty string; "Don't," and "dont" both normalise to "dont". -/
theorem C9_removePunctAndLower_filters_and_lowers (word : Str) :
    removePunctAndLower word = some ((word.filter fun c => !ispunct c).map tolower) ∧
    ((∀ c ∈ word, ispunct c = true) → removePunctAndLower word = some []) ∧
    removePunctAndLower "Don't,".toList = some "dont".toList ∧
    removePunctAndLower "dont".toList = some "dont".toList := by
  refine ⟨removePunctAndLower_eq word, ?_, by decide, by decide⟩
  intro h
  rw [removePunctAndLower_eq, normalize, List.filter_eq_nil_iff.2 (by simpa using h)]
  rfl

/-- C10: normalisation is idempotent: `removePunctAndLower` returns a word, and applied to
that word it returns the same word. -/
theorem C10_normalisation_idempotent (word : Str) :
    ∃ once, removePunctAndLower word = some once ∧ removePunctAndLower once = some once := by
  refine ⟨normalize word, removePunctAndLower_eq word, ?_⟩
  rw [removePunctAndLower_eq]
  congr 1
  unfold normalize
  rw [List.filter_map, List.map_map, List.filter_filter]
  have h1 : (fun c => !ispunct c) ∘ tolower = fun c => !ispunct c := by
    funext c; simp [ispunct_tolower]
  have h2 : tolower ∘ tolower = tolower := by
    funext c; simp [tolower_tolower]
  rw [h1, h2]
  congr 1
  apply List.filter_congr
  intro c _
  simp

/-- C11: the token "--" consists of punctuation characters only, yet `isPunct` is false for it
(its length is not 1). On the corpus "a -- b" the reading loop therefore places it in the
window, `main` passes a record with "--" in slot 5 to `add`, and the index gets an entry with
the empty key next to "a" and "b". -/
theorem C11_punctuation_token_of_two_characters_is_indexed :
    (∀ c ∈ "--".toList, ispunct c = true) ∧ isPunct "--".toList = false ∧
    (run none corpusHyphens false).map
        (fun s => (s.calls.map fun call => call.2.val, keys s.concordance.root)) =
      some ([["", "", "", "", "", "a", "--", "b", "", "", ""].map String.toList,
             ["", "", "", "", "a", "--", "b", "", "", "", ""].map String.toList,
             ["", "", "", "a", "--", "b", "", "", "", "", ""].map String.toList],
            ["", "a", "b"].map String.toList) := by
  decide

/-- C12: `isPunct` holds exactly for the tokens that are one punctuation character, and for every
state of `main` an iteration of the reading loop on such a token leaves the window, `wordCount`,
the calls of `add` and the concordance as they were; so it is for the token ",". -/
theorem C12_lone_punctuation_changes_nothing (s : MainState) (word : Str) :
    (isPunct word = true ↔ ∃ c, word = [c] ∧ ispunct c = true) ∧
    (isPunct word = true →
      ∃ s', loopBody s (some word) = some s' ∧ s'.theContext = s.theContext ∧
        s'.wordCount = s.wordCount ∧ s'.calls = s.calls ∧ s'.concordance = s.concordance) ∧
    ∃ s', loopBody s (some ",".toList) = some s' ∧ s'.theContext = s.theContext ∧
        s'.wordCount = s.wordCount ∧ s'.calls = s.calls ∧ s'.concordance = s.concordance := by
  refine ⟨isPunct_iff word, ?_, ?_⟩
  · intro h
    exact ⟨s, loopBody_punct s word h, rfl, rfl, rfl, rfl⟩
  · exact ⟨s, loopBody_punct s _ (by decide), rfl, rfl, rfl, rfl⟩

/-- C13: for a corpus of non-empty tokens with fewer than 6 admitted words, the reading loop
(with or without a failed last read) ends without any call of `add`; the flush loop then makes
one call for each admitted word, in corpus order, with the word as key and a record whose slot
`m` holds the word `m - 5` places after it when there is one and the empty string otherwise. -/
theorem C13_short_corpus_is_emitted_by_the_flush_only (stopWordFile : Option (List Str))
    (tokens : List Str) (trailing : Bool) (hne : ∀ w ∈ tokens, w ≠ [])
    (hshort : (admitted tokens).length < 6) :
    ∃ s0 s1 s, initialState stopWordFile = some s0 ∧
      readLoop s0 (reads tokens trailing) = some s1 ∧ s1.calls = [] ∧
      flushLoop 7 s1 = some s ∧ run stopWordFile tokens trailing = some s ∧
      s.calls.length = (admitted tokens).length ∧
      ∀ (i : Nat) (hi : i < s.calls.length) (m : Fin 11),
        s.calls[i].1 = (admitted tokens).getD i [] ∧
        s.calls[i].2.slot m =
          if 5 ≤ i + m.val ∧ i + m.val < (admitted tokens).length + 5
          then (admitted tokens).getD (i + m.val - 5) [] else [] := by
  obtain ⟨s0, s1, s, h0, h1, hc1, hf, hrun, hcalls⟩ :=
    run_short stopWordFile tokens trailing hne hshort
  refine ⟨s0, s1, s, h0, h1, hc1, hf, hrun, by rw [hcalls, expectedCalls_length], ?_⟩
  intro i hi m
  have hget : s.calls[i] = ((admitted tokens).getD i [], expectedRecord (admitted tokens) i) := by
    simp only [hcalls]
    exact expectedCalls_getElem _ _ _ _
  rw [hget]
  exact ⟨rfl, expectedRecord_slot _ _ _⟩

/-- Witness for C13: the corpus "x y" is flushed as the record of "x" with empty slots 0-4 and
"y" in slot 6, then the record of "y" with "x" in slot 4 and empty slots 6-10. -/
theorem C13_witness_corpus_x_y :
    (∀ w ∈ corpusXY, w ≠ []) ∧ (admitted corpusXY).length < 6 ∧
    ∃ s, run none corpusXY true = some s ∧
      s.calls.map (fun call => (call.1, call.2.val)) =
        [("x".toList, ["", "", "", "", "", "x", "y", "", "", "", ""].map String.toList),
         ("y".toList, ["", "", "", "", "x", "y", "", "", "", "", ""].map String.toList)] := by
  have hne : ∀ w ∈ corpusXY, w ≠ [] := by decide
  have hshort : (admitted corpusXY).length < 6 := by decide
  obtain ⟨-, -, s, -, -, -, -, hs, -⟩ :=
    C13_short_corpus_is_emitted_by_the_flush_only none corpusXY true hne hshort
  refine ⟨hne, hshort, s, hs, ?_⟩
  have hd : (run none corpusXY true).map
      (fun s => s.calls.map (fun call => (call.1, call.2.val))) =
      some [("x".toList, ["", "", "", "", "", "x", "y", "", "", "", ""].map String.toList),
         ("y".toList, ["", "", "", "", "x", "y", "", "", "", "", ""].map String.toList)] := by
    decide
  rw [hs] at hd
  exact Option.some.inj hd

/-- C14: from every state of `main` the flush loop ends: with 7 units of fuel, and with any
larger amount, it returns the same state, in which slot 5 is empty. It makes one call of `add`
for each string of the longest run of non-empty strings that starts at slot 5, at most 6, each
call with a non-empty slot 5, and none when slot 5 is empty at the start. -/
theorem C14_flush_terminates_within_six_calls (s : MainState) :
    ∃ s' added, flushLoop 7 s = some s' ∧
      (∀ fuel, 7 ≤ fuel → flushLoop fuel s = some s') ∧
      s'.theContext.slot 5 = [] ∧
      s'.calls = s.calls ++ added ∧ added.length = pending s.theContext ∧
      added.length ≤ 6 ∧ (∀ call ∈ added, call.2.slot 5 ≠ []) ∧
      (s.theContext.slot 5 = [] → s' = s) := by
  obtain ⟨s', added, hs', hslot, hcalls, hlen, hall, -⟩ :=
    flushLoop_general 7 s (Nat.lt_succ_of_le (pending_le _))
  refine ⟨s', added, hs', ?_, hslot, hcalls, hlen, by rw [hlen]; exact pending_le _, hall, ?_⟩
  · intro fuel hfuel
    have := flushLoop_mono s s' 7 hs' (fuel - 7)
    rwa [show 7 + (fuel - 7) = fuel by omega] at this
  · intro hkey
    have : flushLoop 7 s = some s := by simp [flushLoop, hkey]
    rw [this] at hs'
    exact (Option.some.inj hs').symm

/-- C15: for every corpus of non-empty tokens, with or without a failed last read, every record
that `main` passes to `add` (from the reading loop or from the flush loop) has a non-empty slot
5, which is also the key passed. -/
theorem C15_no_record_with_empty_keyword_is_added (stopWordFile : Option (List Str))
    (tokens : List Str) (trailing : Bool) (hne : ∀ w ∈ tokens, w ≠ []) :
    ∃ s, run stopWordFile tokens trailing = some s ∧
      ∀ call ∈ s.calls, call.2.slot 5 ≠ [] ∧ call.1 = call.2.slot 5 := by
  obtain ⟨s, hs, hcalls, -⟩ := run_represents stopWordFile tokens trailing hne
  refine ⟨s, hs, ?_⟩
  intro call hc
  rw [hcalls] at hc
  obtain ⟨i, hi, rfl⟩ := (mem_expectedCalls _ _).1 hc
  have hkey : (expectedRecord (admitted tokens) i).slot 5 = (admitted tokens).getD i [] := by
    rw [expectedRecord_slot]; exact expectedSlot_key _ _ hi
  refine ⟨?_, hkey.symm⟩
  rw [hkey, List.getD_eq_getElem?_getD, List.getElem?_eq_getElem hi]
  exact hne _ (List.mem_filter.1 (List.getElem_mem _)).1

/-- Witness for C15: in the run on the corpus "a b c d e f g h" with a failed last read, the
keyword slots of the records passed to `add` are the eight words. -/
theorem C15_witness_corpus_a_to_h_with_failed_read :
    (∀ w ∈ corpusAH, w ≠ []) ∧
    ∃ s, run none corpusAH true = some s ∧
      s.calls.map (fun call => call.2.slot 5) = corpusAH := by
  have hne : ∀ w ∈ corpusAH, w ≠ [] := by decide
  obtain ⟨s, hs, -⟩ := C15_no_record_with_empty_keyword_is_added none corpusAH true hne
  refine ⟨hne, s, hs, ?_⟩
  have hd : (run none corpusAH true).map
      (fun s => s.calls.map (fun call => call.2.slot 5)) = some corpusAH := by
    decide
  rw [hs] at hd
  exact Option.some.inj hd

/-- C16: for every corpus of non-empty tokens and every record stored in the index that `main`
builds, the line `printFormatted` writes for it with the maximum lengths of that index starts
with the non-empty words of slots 0-4 joined by single spaces, preceded by spaces up to exactly
`maxPreKeyLen + 40` characters, and ends with the non-empty words of slots 6-10 joined by single
spaces, followed by spaces up to exactly `maxPostKeyLen + 40` characters. -/
theorem C16_context_fields_are_the_joined_words_padded (stopWordFile : Option (List Str))
    (tokens : List Str) (trailing : Bool) (hne : ∀ w ∈ tokens, w ≠ []) :
    ∃ s, run stopWordFile tokens trailing = some s ∧
      ∀ e ∈ inorder s.concordance.root, ∀ r ∈ e.2, ∃ key,
        printLine s.concordance.maxPreKeyLen s.concordance.maxKeyLen
            s.concordance.maxPostKeyLen r =
          some (preField s.concordance.maxPreKeyLen r ++ key ++
            postField s.concordance.maxPostKeyLen r) ∧
        preField s.concordance.maxPreKeyLen r =
          List.replicate ((s.concordance.maxPreKeyLen + 40).toNat -
            (joinWords [r.slot 0, r.slot 1, r.slot 2, r.slot 3, r.slot 4]).length) ' ' ++
            joinWords [r.slot 0, r.slot 1, r.slot 2, r.slot 3, r.slot 4] ∧
        ((preField s.concordance.maxPreKeyLen r).length : Int) =
          s.concordance.maxPreKeyLen + 40 ∧
        postField s.concordance.maxPostKeyLen r =
          joinWords [r.slot 6, r.slot 7, r.slot 8, r.slot 9, r.slot 10] ++
            List.replicate ((s.concordance.maxPostKeyLen + 40).toNat -
              (joinWords [r.slot 6, r.slot 7, r.slot 8, r.slot 9, r.slot 10]).length) ' ' ∧
        ((postField s.concordance.maxPostKeyLen r).length : Int) =
          s.concordance.maxPostKeyLen + 40 := by
  obtain ⟨s, hs, -, hr⟩ := run_represents stopWordFile tokens trailing hne
  have hne' : ∀ w ∈ admitted tokens, w ≠ [] := fun w hw => hne w (List.mem_filter.1 hw).1
  refine ⟨s, hs, ?_⟩
  intro e he r hre
  obtain ⟨hp, hk, hq⟩ := stored_lengths_le_max hr he hre
  obtain ⟨call, hc, hcr⟩ := record_of_entry hr he hre
  obtain ⟨i, hi, rfl⟩ := (mem_expectedCalls _ _).1 hc
  obtain ⟨key, -, -, hline⟩ := printLine_eq s.concordance.maxPreKeyLen s.concordance.maxKeyLen
    s.concordance.maxPostKeyLen r hk
  subst hcr
  exact ⟨key, hline, preField_window _ hne' i hi _ hp, preField_length _ _ hp,
    postField_window _ hne' i _ hq, postField_length _ _ hq⟩

/-- Witness for C16: the eight lines printed for the corpus "a b c d e f g h". -/
theorem C16_witness_corpus_a_to_h :
    (∀ w ∈ corpusAH, w ≠ []) ∧
    ∃ s, run none corpusAH false = some s ∧
      s.concordance.printConcordance = some
        ["                                                  a     b c d e f                                    ".toList,
         "                                            a     b     c d e f g                                    ".toList,
         "                                          a b     c     d e f g h                                    ".toList,
         "                                        a b c     d     e f g h                                      ".toList,
         "                                      a b c d     e     f g h                                        ".toList,
         "                                    a b c d e     f     g h                                          ".toList,
         "                                    b c d e f     g     h                                            ".toList,
         "                                    c d e f g     h                                                  ".toList] := by
  have hne : ∀ w ∈ corpusAH, w ≠ [] := by decide
  obtain ⟨s, hs, -⟩ := C16_context_fields_are_the_joined_words_padded none corpusAH false hne
  refine ⟨hne, s, hs, ?_⟩
  have hd : (run none corpusAH false).bind (fun s => s.concordance.printConcordance) = some
        ["                                                  a     b c d e f                                    ".toList,
         "                                            a     b     c d e f g                                    ".toList,
         "                                          a b     c     d e f g h                                    ".toList,
         "                                        a b c     d     e f g h                                      ".toList,
         "                                      a b c d     e     f g h                                        ".toList,
         "                                    a b c d e     f     g h                                          ".toList,
         "                                    b c d e f     g     h                                            ".toList,
         "                                    c d e f g     h                                                  ".toList] := by
    decide
  rw [hs] at hd
  exact hd

/-- C17: for a record whose keyword is at most `keyLen` long, the keyword field that
`printFormatted` writes is `padBefore` spaces, the keyword, `padAfter` spaces, where
`padAfter = (width - len) / 2` and `padBefore = width - padAfter - len` for
`width = keyLen + 10`; the three lengths add up to `width` and the two paddings differ by at
most 1. -/
theorem C17_keyword_field_is_centred_by_integer_division (keyLen : Int) (context : contextArr)
    (hlen : ((context.slot 5).length : Int) ≤ keyLen) :
    ∃ before after : Nat,
      (after : Int) = padAfter (keyLen + 10) (context.slot 5).length ∧
      (before : Int) = padBefore (keyLen + 10) (context.slot 5).length ∧
      keyField keyLen context =
        some (List.replicate before ' ' ++ (context.slot 5 ++ List.replicate after ' ')) ∧
      (after : Int) = (keyLen + 10 - (context.slot 5).length) / 2 ∧
      (before : Int) = keyLen + 10 - after - (context.slot 5).length ∧
      (before : Int) + (context.slot 5).length + after = keyLen + 10 ∧
      (before : Int) - after ≤ 1 ∧ (after : Int) - before ≤ 1 := by
  have h : ((context.slot 5).length : Int) ≤ keyLen + 10 := by omega
  obtain ⟨h0, ha1, ha2, ha3⟩ := padAfter_spec _ _ h
  obtain ⟨h1, h2, h3⟩ := padBefore_spec _ _ h
  refine ⟨(padBefore (keyLen + 10) (context.slot 5).length).toNat,
    (padAfter (keyLen + 10) (context.slot 5).length).toNat, ?_, ?_, keyField_eq keyLen context h,
    ?_, ?_, ?_, ?_, ?_⟩
  · exact Int.toNat_of_nonneg h0
  · exact Int.toNat_of_nonneg (le_trans h0 h1)
  · rw [Int.toNat_of_nonneg h0]; exact ha3
  · rw [Int.toNat_of_nonneg h0, Int.toNat_of_nonneg (le_trans h0 h1)]; rfl
  · rw [Int.toNat_of_nonneg h0, Int.toNat_of_nonneg (le_trans h0 h1)]; exact h3
  · rw [Int.toNat_of_nonneg h0, Int.toNat_of_nonneg (le_trans h0 h1)]; omega
  · rw [Int.toNat_of_nonneg h0, Int.toNat_of_nonneg (le_trans h0 h1)]; omega

/-- Witness for C17: the keyword "ab" with `keyLen = 3` is written as 6 spaces, "ab",
5 spaces. -/
theorem C17_witness_keyword_ab_in_width_13 :
    ((recordAb.slot 5).length : Int) ≤ 3 ∧
    keyField 3 recordAb = some "      ab     ".toList := by
  obtain ⟨before, after, ha, hb, hk, -⟩ :=
    C17_keyword_field_is_centred_by_integer_division 3 recordAb (by decide)
  refine ⟨by decide, ?_⟩
  have h1 : after = 5 := by
    have : (after : Int) = 5 := by rw [ha]; decide
    omega
  have h2 : before = 6 := by
    have : (before : Int) = 6 := by rw [hb]; decide
    omega
  rw [hk, h1, h2]
  decide

/-- Counterexample to C18 as stated: for the keyword "ab" and `keyLen = 3` (width 13, total
padding 11) `printFormatted` puts 6 spaces before the keyword and 5 after it, so the number
before is not at most the number after. -/
theorem C18_counterexample_more_spaces_before_than_after :
    keyField 3 recordAb =
      some (List.replicate 6 ' ' ++ (recordAb.slot 5 ++ List.replicate 5 ' ')) ∧
    padBefore (3 + 10) (recordAb.slot 5).length = 6 ∧
    padAfter (3 + 10) (recordAb.slot 5).length = 5 ∧
    ¬ (padBefore (3 + 10) (recordAb.slot 5).length ≤
        padAfter (3 + 10) (recordAb.slot 5).length) := by
  decide

/-- C18, amended: when the keyword is no longer than the column width `keyLen + 10`, the
keyword field is `padBefore` spaces, the keyword, `padAfter` spaces with
`padAfter ≤ padBefore ≤ padAfter + 1`: the larger (or equal) half of the padding is before the
keyword, one more than after it when the total padding is odd and the same when it is even. -/
theorem C18_larger_half_of_the_padding_is_before_the_keyword (keyLen : Int)
    (context : contextArr) (hlen : ((context.slot 5).length : Int) ≤ keyLen + 10) :
    ∃ before after : Nat,
      keyField keyLen context =
        some (List.replicate before ' ' ++ (context.slot 5 ++ List.replicate after ' ')) ∧
      (before : Int) = padBefore (keyLen + 10) (context.slot 5).length ∧
      (after : Int) = padAfter (keyLen + 10) (context.slot 5).length ∧
      after ≤ before ∧ before ≤ after + 1 ∧
      ((keyLen + 10 - (context.slot 5).length) % 2 = 1 → before = after + 1) ∧
      ((keyLen + 10 - (context.slot 5).length) % 2 = 0 → before = after) := by
  obtain ⟨h0, ha1, ha2, ha3⟩ := padAfter_spec _ _ hlen
  obtain ⟨h1, h2, h3⟩ := padBefore_spec _ _ hlen
  have hb0 := le_trans h0 h1
  refine ⟨(padBefore (keyLen + 10) (context.slot 5).length).toNat,
    (padAfter (keyLen + 10) (context.slot 5).length).toNat, keyField_eq keyLen context hlen,
    Int.toNat_of_nonneg hb0, Int.toNat_of_nonneg h0, ?_, ?_, ?_, ?_⟩
  · omega
  · omega
  · intro hodd; omega
  · intro heven; omega

/-- Witness for C18, amended: the keyword "ab" in the width 13. -/
theorem C18_witness_keyword_ab_in_width_13 :
    ((recordAb.slot 5).length : Int) ≤ 3 + 10 ∧
    ∃ before after : Nat,
      keyField 3 recordAb =
        some (List.replicate before ' ' ++ (recordAb.slot 5 ++ List.replicate after ' ')) ∧
      after ≤ before ∧ before ≤ after + 1 :=
  ⟨by decide,
    (C18_larger_half_of_the_padding_is_before_the_keyword 3 recordAb (by decide)).imp
      fun _ h => h.imp fun _ h => ⟨h.1, h.2.2.2.1, h.2.2.2.2.1⟩⟩

/-- C19: for every index built by calls of `add` on an empty index, `printConcordance` writes
its lines without failing, one line for each stored record: the lines correspond, in order, to
the records of the entries in traversal order (keys strictly increasing) and, within an entry,
in the order of the calls that appended them; their number is the total number of stored
records, and nothing is written for an index without entries. -/
theorem C19_one_line_per_record_in_traversal_order (stopWords : Bool)
    (stopWordVector : List Str) (calls : List (Str × contextArr)) :
    ∃ t lines, addAll (emptyIndex stopWords stopWordVector) calls = some t ∧
      t.printConcordance = some lines ∧
      List.Forall₂
        (fun r line => printLine t.maxPreKeyLen t.maxKeyLen t.maxPostKeyLen r = some line)
        ((inorder t.root).flatMap fun e => e.2) lines ∧
      lines.length = ((inorder t.root).map fun e => e.2.length).sum ∧
      (keys t.root).Sorted (· < ·) ∧
      (∀ e ∈ inorder t.root,
        e.2 = occurrences (emptyIndex stopWords stopWordVector) calls e.1) ∧
      (t.isEmpty = true → lines = []) ∧
      (emptyIndex stopWords stopWordVector).printConcordance = some [] := by
  obtain ⟨t, ht, hr⟩ := represents_emptyIndex stopWords stopWordVector calls
  obtain ⟨lines, hl, hf⟩ := printConcordance_forall₂ hr
  refine ⟨t, lines, ht, hl, hf, ?_, hr.sorted, hr.entries, ?_, rfl⟩
  · rw [← hf.length_eq, List.length_flatMap]
    rfl
  · intro hempty
    have hroot : t.root = .nullptr := by
      unfold BinarySearchTree.isEmpty at hempty
      cases hroot : t.root with
      | nullptr => rfl
      | node _ _ _ _ => rw [hroot] at hempty; cases hempty
    rw [hroot] at hf
    cases hf
    rfl

/-- C20: for every index built by calls of `add` on an empty index, every line that
`printConcordance` writes has the length
`(maxPreKeyLen + 40) + (maxKeyLen + 10) + (maxPostKeyLen + 40)`, and the keyword field of its
record, `maxKeyLen + 10` characters long, is the part of the line that starts at offset
`maxPreKeyLen + 40`. -/
theorem C20_every_line_has_the_keyword_in_the_same_columns (stopWords : Bool)
    (stopWordVector : List Str) (calls : List (Str × contextArr)) :
    ∃ t lines, addAll (emptyIndex stopWords stopWordVector) calls = some t ∧
      t.printConcordance = some lines ∧
      ∀ line ∈ lines,
        (line.length : Int) =
          (t.maxPreKeyLen + 40) + (t.maxKeyLen + 10) + (t.maxPostKeyLen + 40) ∧
        ∃ e ∈ inorder t.root, ∃ r ∈ e.2, ∃ key,
          printLine t.maxPreKeyLen t.maxKeyLen t.maxPostKeyLen r = some line ∧
          keyField t.maxKeyLen r = some key ∧
          (key.length : Int) = t.maxKeyLen + 10 ∧
          (line.drop (t.maxPreKeyLen + 40).toNat).take (t.maxKeyLen + 10).toNat = key := by
  obtain ⟨t, ht, hr⟩ := represents_emptyIndex stopWords stopWordVector calls
  obtain ⟨lines, hl, hf⟩ := printConcordance_forall₂ hr
  refine ⟨t, lines, ht, hl, ?_⟩
  intro line hline
  obtain ⟨r, hrmem, hprint⟩ := forall₂_exists_left hf line hline
  obtain ⟨e, he, hre⟩ := List.mem_flatMap.1 hrmem
  obtain ⟨hp, hk, hq⟩ := stored_lengths_le_max hr he hre
  obtain ⟨key, hkey, hklen, hline_eq⟩ := printLine_eq t.maxPreKeyLen t.maxKeyLen
    t.maxPostKeyLen r hk
  have hpl := preField_length t.maxPreKeyLen r hp
  have hql := postField_length t.maxPostKeyLen r hq
  have hl_eq : line = preField t.maxPreKeyLen r ++ key ++ postField t.maxPostKeyLen r := by
    rw [hline_eq] at hprint
    exact (Option.some.inj hprint).symm
  refine ⟨?_, e, he, r, hre, key, hprint, hkey, hklen, ?_⟩
  · rw [hl_eq]
    simp only [List.length_append]
    push_cast
    omega
  · rw [hl_eq, List.append_assoc]
    have h1 : (t.maxPreKeyLen + 40).toNat = (preField t.maxPreKeyLen r).length := by omega
    have h2 : (t.maxKeyLen + 10).toNat = key.length := by omega
    rw [h1, List.drop_left, h2, List.take_left]

/-- C21: `getPreKeyContext` and `getPostKeyContext` never return the empty string. For the
record of "ab" alone, whose slots other than 5 are all empty, each returns the four separating
spaces; for the record of "y" in "x y" the result is "x" after four spaces. The comments in
`ListNode.h` promise the empty string when there is no context word. -/
theorem C21_context_strings_always_hold_four_separators :
    (∀ i : Fin 11, i.val ≠ 5 → recordAb.slot i = []) ∧
    getPreKeyContext recordAb = "    ".toList ∧ getPostKeyContext recordAb = "    ".toList ∧
    getPreKeyContext recordY = "    x".toList ∧
    (∀ context : contextArr, getPreKeyContext context ≠ [] ∧ getPostKeyContext context ≠ []) := by
  refine ⟨by decide, by decide, by decide, by decide, ?_⟩
  exact fun context => ⟨getPreKeyContext_ne_nil context, getPostKeyContext_ne_nil context⟩

/-- C22: `isStopWord(word)` is true exactly when `word` is an element of the stop-word vector,
with no normalisation of `word`; on an empty vector every query is false. With the vector
holding "the", the queries "The" and "the," are false. -/
theorem C22_isStopWord_is_exact_membership (t : BinarySearchTree) (word : Str) :
    (t.isStopWord word = true ↔ word ∈ t.stopWordVector) ∧
    (t.stopWordVector = [] → t.isStopWord word = false) ∧
    (emptyIndex true ["the".toList]).isStopWord "the".toList = true ∧
    (emptyIndex true ["the".toList]).isStopWord "The".toList = false ∧
    (emptyIndex true ["the".toList]).isStopWord "the,".toList = false := by
  refine ⟨isStopWord_iff t word, ?_, by decide, by decide, by decide⟩
  intro h
  have := isStopWord_iff t word
  rw [h] at this
  cases hw : t.isStopWord word
  · rfl
  · exact absurd (this.1 hw) (List.not_mem_nil _)

/-- C23: `excludeStopWords` on an index whose vector already holds "the". With a file that
cannot be opened it returns false and clears `stopWords`, but the vector keeps its one element;
with a file without tokens it returns true. On an index whose vector is empty the call does
what its comment says: the result is true exactly for a file with at least one token, the
vector then holds the normalised tokens, `stopWords` equals the result, and the vector is
empty when the result is false. -/
theorem C23_second_load_keeps_the_first_vector :
    BinarySearchTree.new.excludeStopWords (some ["the".toList]) = some (indexWithThe, true) ∧
    indexWithThe.excludeStopWords none =
      some ({ indexWithThe with stopWords := false }, false) ∧
    ({ indexWithThe with stopWords := false } : BinarySearchTree).stopWordVector.length = 1 ∧
    indexWithThe.excludeStopWords (some []) = some (indexWithThe, true) ∧
    (∀ (t : BinarySearchTree) (stopWordFile : Option (List Str)), t.stopWordVector = [] →
      ∃ t' result, t.excludeStopWords stopWordFile = some (t', result) ∧
        t'.stopWords = result ∧ t'.root = t.root ∧
        (result = true ↔ ∃ tokens, stopWordFile = some tokens ∧ tokens ≠ []) ∧
        (∀ tokens, stopWordFile = some tokens → t'.stopWordVector = tokens.map normalize) ∧
        (result = false → t'.stopWordVector = [])) := by
  refine ⟨by decide, by decide, by decide, by decide, ?_⟩
  intro t stopWordFile hv
  rw [excludeStopWords_eq, hv]
  cases stopWordFile with
  | none => exact ⟨_, _, rfl, rfl, rfl, by simp, by simp, fun _ => rfl⟩
  | some tokens =>
    refine ⟨_, _, rfl, rfl, rfl, ?_, ?_, ?_⟩
    · cases tokens <;> simp
    · intro tokens' h; cases h; simp
    · cases tokens <;> simp

/-- C24: the value returned by `add` is `true` for every index, keyword and context; for the
index that excludes "the" and the keyword "the" nothing is inserted (the tree stays empty) and
the value returned is still `true`. The comment of `add` promises `false` there. -/
theorem C24_add_returns_true_for_an_excluded_stop_word :
    indexWithThe.isStopWord "the".toList = true ∧
    (indexWithThe.add "the".toList recordThe).map (fun t => t.root) = some TreeNode.nullptr ∧
    indexWithThe.addResult "the".toList recordThe = some true ∧
    (∀ (t : BinarySearchTree) (keyWord : Str) (newContext : contextArr),
      t.addResult keyWord newContext = some true) := by
  refine ⟨by decide, by decide, by decide, ?_⟩
  intro t keyWord newContext
  rw [BinarySearchTree.addResult, add_eq, Option.map_some']

/-- C25: after `main` has processed a corpus, `isEmpty()` is true exactly when the traversal
has no entry, and exactly when every admitted token normalises to an active stop word; it is
true when no token is admitted and for a new index. When it is true `main` writes the line
"No words found in corpus file!", otherwise what `printConcordance` writes. -/
theorem C25_isEmpty_iff_no_indexed_word (stopWordFile : Option (List Str))
    (tokens : List Str) (trailing : Bool) (hne : ∀ w ∈ tokens, w ≠ []) :
    ∃ s, run stopWordFile tokens trailing = some s ∧
      (s.concordance.isEmpty = true ↔ inorder s.concordance.root = []) ∧
      (s.concordance.isEmpty = true ↔
        ∀ w ∈ admitted tokens,
          s.concordance.stopWords = true ∧ normalize w ∈ s.concordance.stopWordVector) ∧
      (admitted tokens = [] → s.concordance.isEmpty = true) ∧
      (s.concordance.isEmpty = true →
        output s.concordance = some ["No words found in corpus file!".toList]) ∧
      (s.concordance.isEmpty = false →
        output s.concordance = s.concordance.printConcordance) ∧
      BinarySearchTree.new.isEmpty = true := by
  obtain ⟨s, hs, -, hr⟩ := run_represents stopWordFile tokens trailing hne
  have hiff : s.concordance.isEmpty = true ↔
      ∀ w ∈ admitted tokens,
        s.concordance.stopWords = true ∧ normalize w ∈ s.concordance.stopWordVector := by
    rw [isEmpty_iff_keys, List.eq_nil_iff_forall_not_mem, hr.stop, hr.vec]
    constructor
    · intro h w hw
      by_contra hcon
      refine h (normalize w) ((hr.mem _).2 ?_)
      exact (exists_call_iff (admitted tokens) (fun x =>
        (emptyIndex (stopConfig stopWordFile).1 (stopConfig stopWordFile).2).indexes x = true ∧
          normalize x = normalize w)).2 ⟨w, hw, (indexes_emptyIndex_iff _ _ w).2 hcon, rfl⟩
    · intro h k hk
      obtain ⟨w, hw, hix, -⟩ := (exists_call_iff (admitted tokens) (fun x =>
        (emptyIndex (stopConfig stopWordFile).1 (stopConfig stopWordFile).2).indexes x = true ∧
          normalize x = k)).1 ((hr.mem k).1 hk)
      exact (indexes_emptyIndex_iff _ _ w).1 hix (h w hw)
  refine ⟨s, hs, isEmpty_iff _, hiff, ?_, ?_, ?_, rfl⟩
  · intro hnil
    rw [hiff, hnil]
    intro w hw
    cases hw
  · intro h
    simp [output, h]
  · intro h
    simp [output, h]

/-- C25 at the corpus "the , The" with the stop word "the" and a failed last read: two calls
of `add`, an empty index, the message as output. -/
theorem C25_witness_corpus_of_stop_words_only :
    (∀ w ∈ corpusOnlyThe, w ≠ []) ∧
    ∃ s, run (some ["the".toList]) corpusOnlyThe true = some s ∧
      s.concordance.isEmpty = true ∧ s.calls.length = 2 ∧
      output s.concordance = some ["No words found in corpus file!".toList] := by
  have hne : ∀ w ∈ corpusOnlyThe, w ≠ [] := by decide
  obtain ⟨s, hs, -, -, -, hout, -, -⟩ :=
    C25_isEmpty_iff_no_indexed_word (some ["the".toList]) corpusOnlyThe true hne
  have hd : (run (some ["the".toList]) corpusOnlyThe true).map
      (fun s => (s.concordance.isEmpty, s.calls.length)) = some (true, 2) := by
    decide
  rw [hs] at hd
  have h1 : s.concordance.isEmpty = true := congrArg Prod.fst (Option.some.inj hd)
  have h2 : s.calls.length = 2 := congrArg Prod.snd (Option.some.inj hd)
  exact ⟨hne, s, hs, h1, h2, hout h1⟩

/-- C26: for an index in which every node holds at least one context, the copy constructor
returns an index equal to the original: the same tree, keys, traversal, maximum lengths,
stop-word flag and vector, and the same printed concordance; assignment to any other index
gives the same value and self-assignment changes nothing. The condition on the nodes holds for
a new index and is kept by `add` and by `excludeStopWords`. -/
theorem C26_copy_equals_the_original (t : BinarySearchTree)
    (hlists : listsNonEmpty t.root = true) :
    (∃ c, t.copy = some c ∧ c.root = t.root ∧ keys c.root = keys t.root ∧
      inorder c.root = inorder t.root ∧ c.maxPreKeyLen = t.maxPreKeyLen ∧
      c.maxKeyLen = t.maxKeyLen ∧ c.maxPostKeyLen = t.maxPostKeyLen ∧
      c.stopWords = t.stopWords ∧ c.stopWordVector = t.stopWordVector ∧
      c.printConcordance = t.printConcordance ∧ c = t) ∧
    (∀ self : BinarySearchTree, self.assign t false = some t) ∧
    t.assign t true = some t ∧
    listsNonEmpty BinarySearchTree.new.root = true ∧
    (∀ (w : Str) (context : contextArr),
      ∃ t', t.add w context = some t' ∧ listsNonEmpty t'.root = true) ∧
    (∀ stopWordFile : Option (List Str),
      ∃ r, t.excludeStopWords stopWordFile = some r ∧ listsNonEmpty r.1.root = true) := by
  have hcopy : t.copy = some t := by
    rw [BinarySearchTree.copy, copyTree_eq t.root hlists]; rfl
  refine ⟨⟨t, hcopy, rfl, rfl, rfl, rfl, rfl, rfl, rfl, rfl, rfl, rfl⟩, ?_, rfl, rfl,
    fun w context => listsNonEmpty_add t w context hlists,
    fun f => listsNonEmpty_excludeStopWords t f hlists⟩
  intro self
  rw [BinarySearchTree.assign]
  simp only [Bool.false_eq_true, if_false, copyTree_eq t.root hlists, Option.map_some']

/-- C26 at the index built by `add` for "ab", "y" and "Ab.": two entries, the first with
two contexts; its copy and the assignment of it to a new index equal it. -/
theorem C26_witness_index_of_ab_y_ab :
    ((BinarySearchTree.new.add "ab".toList recordAb).bind fun t1 =>
      (t1.add "y".toList recordY).bind fun t2 => t2.add "Ab.".toList recordAb) =
        some indexAbY ∧
    inorder indexAbY.root =
      [("ab".toList, [recordAb, recordAb]), ("y".toList, [recordY])] ∧
    listsNonEmpty indexAbY.root = true ∧
    indexAbY.copy = some indexAbY ∧
    BinarySearchTree.new.assign indexAbY false = some indexAbY := by
  have h : listsNonEmpty indexAbY.root = true := by decide
  obtain ⟨⟨c, hcopy, -, -, -, -, -, -, -, -, -, hct⟩, hassign, -⟩ :=
    C26_copy_equals_the_original indexAbY h
  exact ⟨by decide, by decide, h, hct ▸ hcopy, hassign _⟩

/-- C27: in a well-formed state of the free store, the copy constructor of `BinarySearchTree`
on an index completes and makes a new object, every sequence of calls of `add` on the copy
completes, and afterwards the original is unchanged: its `BinarySearchTree` object (with its
three maximum lengths), every `TreeNode` and every `ListNode` that existed before the copy,
and so the tree and the occurrence lists that are read from the original, which are read
within as many steps as there are objects. -/
theorem C27_adds_on_the_copy_leave_the_original_unchanged (h : Heap) (tree : Nat)
    (calls : List (Str × contextArr)) (hw : WellFormed h) (htree : tree < h.trees.length) :
    ∃ h1 copy h2, h.copyIndex tree = some (h1, copy) ∧ copy ≠ tree ∧
      h1.addAll copy calls = some h2 ∧ WellFormed h2 ∧
      h2.tree tree = h.tree tree ∧
      (∀ a, (h.listNode a).isSome = true → h2.listNode a = h.listNode a) ∧
      (∀ a, (h.treeNode a).isSome = true → h2.treeNode a = h.treeNode a) ∧
      (∃ original,
        h.index (h.listNodes.length + h.treeNodes.length + 1) tree = some original) ∧
      (∀ fuel, h2.index fuel tree = h.index fuel tree) := by
  obtain ⟨source, hsource⟩ : ∃ t, h.tree tree = some t :=
    ⟨h.trees[tree], by simp [Heap.tree, htree]⟩
  obtain ⟨h1, r, hcopy, hstep1, hnew⟩ := copyIndex_spec hw tree source hsource
  obtain ⟨h2, hadd, hstep2⟩ := heap_addAll_spec h.trees.length (Nat.le_refl _) calls h1
    hstep1.wellFormed hstep1.closed hstep1.grows.mark (tree_lt hnew)
  obtain ⟨f1, f2, f3, f4⟩ := frame_of_step hw (step_trans hstep1 hstep2) tree htree
  refine ⟨h1, h.trees.length, h2, hcopy, by omega, hadd, hstep2.wellFormed, f1, f2, f3, ?_, f4⟩
  unfold Heap.index
  rw [hsource, Option.some_bind]
  obtain ⟨t, ht⟩ := subtree_total hw (h.listNodes.length + h.treeNodes.length + 1) source.root
    (fun a ha => ⟨hw.root tree source hsource a ha, by omega⟩) (by omega)
  exact ⟨_, by rw [ht]; rfl⟩

/-- C27 at the state built by `add` for "ab", "y" and "Ab.": the copy stands for the same
index, and after `add` for "zz" and "ab" on the copy it has three entries while the original
is as before. -/
theorem C27_witness_copy_of_ab_y_gets_two_more_words :
    WellFormed heapAbY ∧ 0 < heapAbY.trees.length ∧
    heapAbY.index 8 0 = some indexAbY ∧
    ((heapAbY.copyIndex 0).bind fun r => r.1.index 8 r.2) = some indexAbY ∧
    ((heapAbY.copyIndex 0).bind fun r =>
      (r.1.addAll r.2 [("zz".toList, recordThe), ("ab".toList, recordY)]).bind fun h2 =>
        (h2.index 8 r.2).map fun t => inorder t.root) =
      some [("ab".toList, [recordAb, recordAb, recordY]), ("y".toList, [recordY]),
        ("zz".toList, [recordThe])] ∧
    ∃ h1 copy h2, heapAbY.copyIndex 0 = some (h1, copy) ∧ copy ≠ 0 ∧
      h1.addAll copy [("zz".toList, recordThe), ("ab".toList, recordY)] = some h2 ∧
      WellFormed h2 ∧ h2.tree 0 = heapAbY.tree 0 ∧
      (∀ a, (heapAbY.listNode a).isSome = true → h2.listNode a = heapAbY.listNode a) ∧
      (∀ a, (heapAbY.treeNode a).isSome = true → h2.treeNode a = heapAbY.treeNode a) ∧
      (∃ original, heapAbY.index
        (heapAbY.listNodes.length + heapAbY.treeNodes.length + 1) 0 = some original) ∧
      (∀ fuel, h2.index fuel 0 = heapAbY.index fuel 0) :=
  ⟨wellFormed_heapAbY, by decide, by decide, by decide, by decide,
    C27_adds_on_the_copy_leave_the_original_unchanged heapAbY 0
      [("zz".toList, recordThe), ("ab".toList, recordY)] wellFormed_heapAbY (by decide)⟩

/-- C28: on a list whose `tail` points to its last node (or whose chain is empty),
`ContextList::add` succeeds, the chain afterwards is the earlier chain followed by the new
context, `tail` points to the new last node, and `printFormatted` writes the earlier lines
followed by the line of the new context. -/
theorem C28_add_appends_at_the_tail (list : LinkedList) (c : contextArr)
    (hlinked : WellLinked list) :
    ∃ list', list.add c = some list' ∧ list'.chain = list.chain ++ [c] ∧ WellLinked list' ∧
      ContextList.add list.chain c = list'.chain ∧
      ∀ preLen keyLen' postLen : Int,
        printFormatted preLen keyLen' postLen list'.chain =
          (printFormatted preLen keyLen' postLen list.chain).bind fun before =>
            (printLine preLen keyLen' postLen c).map fun line => before ++ [line] := by
  obtain ⟨l', hadd, hchain, hwl⟩ := LinkedList_add_eq list c hlinked
  refine ⟨l', hadd, hchain, hwl, by rw [hchain, ContextList_add_eq], ?_⟩
  intro preLen keyLen' postLen
  rw [hchain, printFormatted_append]

/-- C28 at the list of the two records of "ab" and "y" and the new record of "the". -/
theorem C28_witness_add_to_a_list_of_two :
    WellLinked { chain := [recordAb, recordY], tail := some 1 } ∧
    ∃ list', LinkedList.add { chain := [recordAb, recordY], tail := some 1 } recordThe =
        some list' ∧
      list'.chain = [recordAb, recordY] ++ [recordThe] ∧ WellLinked list' ∧
      ContextList.add [recordAb, recordY] recordThe = list'.chain ∧
      ∀ preLen keyLen' postLen : Int,
        printFormatted preLen keyLen' postLen list'.chain =
          (printFormatted preLen keyLen' postLen [recordAb, recordY]).bind fun before =>
            (printLine preLen keyLen' postLen recordThe).map fun line => before ++ [line] :=
  ⟨Or.inr rfl, C28_add_appends_at_the_tail { chain := [recordAb, recordY], tail := some 1 }
    recordThe (Or.inr rfl)⟩

/-- C29: the copy constructor and the assignment operator of `ContextList` do not complete on
the empty list: `copyNodes` returns the null pointer and the walk to the last node reads
through it. On every list with at least one node both complete with the same contexts in the
same order and `tail` at the last node. -/
theorem C29_copying_the_empty_list_dereferences_null :
    LinkedList.new.copy = none ∧
    (∀ self : LinkedList, self.assign LinkedList.new false = none) ∧
    ContextList.copy [] = none ∧
    (∀ aList : LinkedList, aList.chain ≠ [] →
      aList.copy = some { chain := aList.chain, tail := some (aList.chain.length - 1) } ∧
      ∀ self : LinkedList, self.assign aList false =
        some { chain := aList.chain, tail := some (aList.chain.length - 1) }) := by
  refine ⟨rfl, fun _ => rfl, rfl, ?_⟩
  intro aList h
  exact ⟨LinkedList_copy_eq aList h, fun self => LinkedList_assign_eq self aList h⟩

/-- C30: for every corpus and stop-word file, the run with the file and the run without stop
words make the same calls of `add` (the same words with the same context records), every key
that is not an active stop word has the same occurrence list in both traversals, and no active
stop word is a key of the filtered run. -/
theorem C30_stop_words_only_remove_keys (stopWordFile : Option (List Str)) (tokens : List Str)
    (trailing : Bool) (hne : ∀ w ∈ tokens, w ≠ []) :
    ∃ s u, run stopWordFile tokens trailing = some s ∧ run none tokens trailing = some u ∧
      s.calls = u.calls ∧
      (∀ k, ¬ (s.concordance.stopWords = true ∧ k ∈ s.concordance.stopWordVector) →
        ∀ l, (k, l) ∈ inorder s.concordance.root ↔ (k, l) ∈ inorder u.concordance.root) ∧
      (∀ k, s.concordance.stopWords = true → k ∈ s.concordance.stopWordVector →
        k ∉ keys s.concordance.root) := by
  obtain ⟨s, hs, hcs, hrs⟩ := run_represents stopWordFile tokens trailing hne
  obtain ⟨u, hu, hcu, hru⟩ := run_represents none tokens trailing hne
  refine ⟨s, u, hs, hu, hcs.trans hcu.symm, ?_, ?_⟩
  · intro k hk l
    rw [hrs.stop, hrs.vec] at hk
    rw [mem_inorder_iff hrs, mem_inorder_iff hru]
    have hidx : ∀ w : Str, normalize w = k →
        (emptyIndex (stopConfig stopWordFile).1 (stopConfig stopWordFile).2).indexes w =
          (emptyIndex (stopConfig none).1 (stopConfig none).2).indexes w := by
      intro w hw
      have h1 := (indexes_emptyIndex_iff (stopConfig stopWordFile).1
        (stopConfig stopWordFile).2 w).2 (by rw [hw]; simpa [emptyIndex, BinarySearchTree.new] using hk)
      have h2 := (indexes_emptyIndex_iff (stopConfig none).1 (stopConfig none).2 w).2
        (by simp [stopConfig])
      rw [h1, h2]
    have hocc : occurrences (emptyIndex (stopConfig stopWordFile).1 (stopConfig stopWordFile).2)
        (expectedCalls (admitted tokens) (admitted tokens).length) k =
        occurrences (emptyIndex (stopConfig none).1 (stopConfig none).2)
        (expectedCalls (admitted tokens) (admitted tokens).length) k := by
      unfold occurrences
      congr 1
      apply List.filter_congr
      intro call _
      by_cases hw : normalize call.1 = k
      · rw [hidx call.1 hw]
      · simp [hw]
    rw [hocc]
    constructor
    · rintro ⟨⟨call, hc, hi, hn⟩, hl⟩
      exact ⟨⟨call, hc, by rw [← hidx call.1 hn]; exact hi, hn⟩, hl⟩
    · rintro ⟨⟨call, hc, hi, hn⟩, hl⟩
      exact ⟨⟨call, hc, by rw [hidx call.1 hn]; exact hi, hn⟩, hl⟩
  · intro k hsw hk hkeys
    rw [hrs.stop] at hsw
    rw [hrs.vec] at hk
    obtain ⟨call, -, hi, hn⟩ := (hrs.mem k).1 hkeys
    have := (indexes_emptyIndex_iff _ _ call.1).1 hi
    apply this
    rw [hn]
    exact ⟨by simpa [emptyIndex, BinarySearchTree.new] using hsw,
      by simpa [emptyIndex, BinarySearchTree.new] using hk⟩

/-- C30 at the corpus "the cat sat" with the stop word "the". -/
theorem C30_witness_the_cat_sat_without_the :
    (∀ w ∈ corpusCat, w ≠ []) ∧
    ∃ s u, run (some ["the".toList]) corpusCat false = some s ∧
      run none corpusCat false = some u ∧ s.calls = u.calls ∧
      (∀ k, ¬ (s.concordance.stopWords = true ∧ k ∈ s.concordance.stopWordVector) →
        ∀ l, (k, l) ∈ inorder s.concordance.root ↔ (k, l) ∈ inorder u.concordance.root) ∧
      (∀ k, s.concordance.stopWords = true → k ∈ s.concordance.stopWordVector →
        k ∉ keys s.concordance.root) :=
  ⟨by decide, C30_stop_words_only_remove_keys (some ["the".toList]) corpusCat false (by decide)⟩

/-- C31: `shiftArray` completes on every array (no index leaves 0..10, so `at` never
throws); afterwards slot `i` holds the old slot `i + 1` for `i` from 0 to 9 and slot 10 is the
empty string: the array is the old one without its first slot, followed by an empty string. -/
theorem C31_shiftArray_moves_every_slot_one_to_the_left (arr : contextArr) :
    ∃ shifted, shiftArray arr = some shifted ∧
      (∀ i : Fin 11, i.val < 10 → shifted.val.getD i.val [] = arr.val.getD (i.val + 1) []) ∧
      shifted.slot 10 = [] ∧ shifted.val = arr.val.tail ++ [[]] := by
  obtain ⟨shifted, hs, hget⟩ := shiftArray_some arr
  obtain ⟨shifted', hs', hval⟩ := shiftArray_val arr
  rw [hs] at hs'
  cases hs'
  refine ⟨shifted, hs, ?_, ?_, hval⟩
  · intro i hi
    rw [hget i.val i.isLt, if_pos hi]
  · have := hget 10 (by decide)
    simpa [contextArr.slot] using this

/-- C32: `fillContextArray` completes for every array, word and `wordCount`, and leaves
`wordCount` as it was. For `wordCount` from 0 to 4 the word is in slot `wordCount + 5`, for
`wordCount` of 5 or more it is in slot 10, and every other slot is unchanged; for a negative
`wordCount` the array is unchanged. -/
theorem C32_fillContextArray_writes_one_slot (word : Str) (arr : contextArr)
    (wordCount : Int) :
    ∃ filled, fillContextArray word arr wordCount = some filled ∧
      fillContextArrayRef word arr wordCount = some (filled, wordCount) ∧
      (0 ≤ wordCount → wordCount ≤ 4 →
        ∀ m : Fin 11, filled.slot m = if (m.val : Int) = wordCount + 5 then word else arr.slot m) ∧
      (5 ≤ wordCount →
        ∀ m : Fin 11, filled.slot m = if m.val = 10 then word else arr.slot m) ∧
      (wordCount < 0 → filled = arr) := by
  have key : ∃ filled, fillContextArray word arr wordCount = some filled ∧
      (0 ≤ wordCount → wordCount ≤ 4 →
        ∀ m : Fin 11, filled.slot m = if (m.val : Int) = wordCount + 5 then word else arr.slot m) ∧
      (5 ≤ wordCount →
        ∀ m : Fin 11, filled.slot m = if m.val = 10 then word else arr.slot m) ∧
      (wordCount < 0 → filled = arr) := by
    unfold fillContextArray
    by_cases hneg : wordCount < 0
    · exact ⟨arr, by rw [if_pos hneg], fun h => by omega, fun h => by omega, fun _ => rfl⟩
    · by_cases h5 : wordCount < 5
      · obtain ⟨filled, hf, hslot⟩ := assignAt_int arr (wordCount + 5) (by omega) (by omega) word
        exact ⟨filled, by rw [if_neg hneg, if_pos h5, hf], fun _ _ => hslot,
          fun h => by omega, fun h => absurd h hneg⟩
      · obtain ⟨filled, hf, hslot⟩ := assignAt_int arr 10 (by decide) (by decide) word
        refine ⟨filled, by rw [if_neg hneg, if_neg h5, hf], fun _ h => by omega, ?_,
          fun h => absurd h hneg⟩
        intro _ m
        rw [hslot m]
        by_cases hm : m.val = 10
        · rw [if_pos hm, if_pos (by omega)]
        · rw [if_neg hm, if_neg (by omega)]
  obtain ⟨filled, hf, h1, h2, h3⟩ := key
  exact ⟨filled, hf, by rw [fillContextArrayRef, hf]; rfl, h1, h2, h3⟩

/-- C33: for every stop-word file and corpus, the run in which the stream ends right after the
last token and the run with one more, failed, read make the same calls of `add` and end with
the same index (the same tree, traversal and maximum lengths) and the same array. -/
theorem C33_result_does_not_depend_on_a_failed_last_read (stopWordFile : Option (List Str))
    (tokens : List Str) (hne : ∀ w ∈ tokens, w ≠ []) :
    ∃ s u, run stopWordFile tokens false = some s ∧ run stopWordFile tokens true = some u ∧
      s.calls = u.calls ∧ s.concordance = u.concordance ∧
      s.concordance.maxPreKeyLen = u.concordance.maxPreKeyLen ∧
      s.concordance.maxKeyLen = u.concordance.maxKeyLen ∧
      s.concordance.maxPostKeyLen = u.concordance.maxPostKeyLen ∧
      inorder s.concordance.root = inorder u.concordance.root ∧
      s.theContext = u.theContext := by
  obtain ⟨s, hs, hws⟩ := run_window stopWordFile tokens false hne
  obtain ⟨u, hu, hwu⟩ := run_window stopWordFile tokens true hne
  have hcalls : s.calls = u.calls := hws.calls.trans hwu.calls.symm
  have hconc : s.concordance = u.concordance := by
    have h1 := hws.conc
    have h2 := hwu.conc
    rw [hcalls, h2] at h1
    exact (Option.some.inj h1).symm
  refine ⟨s, u, hs, hu, hcalls, hconc, by rw [hconc], by rw [hconc], by rw [hconc],
    by rw [hconc], ?_⟩
  apply contextArr_ext
  intro n hn
  rw [hws.ctx n hn, hwu.ctx n hn]

/-- C33 at the corpus "a b c d e f g h": the reading loop makes three calls of `add`
without the failed read and four with it, and the two runs end alike. -/
theorem C33_witness_corpus_a_to_h :
    (∀ w ∈ corpusAH, w ≠ []) ∧
    ((initialState none).bind fun s0 => (readLoop s0 (reads corpusAH false)).map
      fun s1 => s1.calls.length) = some 3 ∧
    ((initialState none).bind fun s0 => (readLoop s0 (reads corpusAH true)).map
      fun s1 => s1.calls.length) = some 4 ∧
    ∃ s u, run none corpusAH false = some s ∧ run none corpusAH true = some u ∧
      s.calls = u.calls ∧ s.concordance = u.concordance ∧
      s.concordance.maxPreKeyLen = u.concordance.maxPreKeyLen ∧
      s.concordance.maxKeyLen = u.concordance.maxKeyLen ∧
      s.concordance.maxPostKeyLen = u.concordance.maxPostKeyLen ∧
      inorder s.concordance.root = inorder u.concordance.root ∧
      s.theContext = u.theContext :=
  ⟨by decide, by decide, by decide,
    C33_result_does_not_depend_on_a_failed_last_read none corpusAH (by decide)⟩

/-- C34 fails for calls of `add` whose keyword is not slot 5 of the context: after
`add("x", recordAb)` the entry with key "x" holds the record whose slot 5 is "ab". -/
theorem C34_counterexample_keyword_differs_from_slot_5 :
    (addAll BinarySearchTree.new [("x".toList, recordAb)]).map (fun t => inorder t.root) =
      some [("x".toList, [recordAb])] ∧
    normalize (recordAb.slot 5) = "ab".toList ∧
    ¬ ∀ (calls : List (Str × contextArr)) (t : BinarySearchTree),
      addAll BinarySearchTree.new calls = some t →
        ∀ e ∈ inorder t.root, ∀ r ∈ e.2, normalize (r.slot 5) = e.1 := by
  have h1 : (addAll BinarySearchTree.new [("x".toList, recordAb)]).map
      (fun t => inorder t.root) = some [("x".toList, [recordAb])] := by decide
  refine ⟨h1, by decide, ?_⟩
  intro h
  cases hadd : addAll BinarySearchTree.new [("x".toList, recordAb)] with
  | none => rw [hadd] at h1; cases h1
  | some t =>
    rw [hadd, Option.map_some', Option.some.injEq] at h1
    have := h _ t hadd ("x".toList, [recordAb]) (by rw [h1]; exact List.mem_singleton.2 rfl)
      recordAb (List.mem_singleton.2 rfl)
    revert this
    decide

/-- C34, amended: for every index built by calls of `add` each of which passes slot 5 of its
context as the keyword, every record of the entry with key `k` has a slot 5 that normalises to
`k`, and it is the context of one of the calls, unaltered, whose keyword normalises to `k`.
The calls of `main` are of this kind, so the same holds for the index at the end of every
run. -/
theorem C34_stored_keyword_normalises_to_the_key (stopWords : Bool)
    (stopWordVector : List Str) (calls : List (Str × contextArr))
    (hkey : ∀ call ∈ calls, call.1 = call.2.slot 5) :
    (∃ t, addAll (emptyIndex stopWords stopWordVector) calls = some t ∧
      ∀ e ∈ inorder t.root, ∀ r ∈ e.2,
        normalize (r.slot 5) = e.1 ∧
        ∃ call ∈ calls, call.2 = r ∧ normalize call.1 = e.1) ∧
    ∀ (stopWordFile : Option (List Str)) (tokens : List Str) (trailing : Bool),
      (∀ w ∈ tokens, w ≠ []) →
      ∃ s, run stopWordFile tokens trailing = some s ∧
        (∀ call ∈ s.calls, call.1 = call.2.slot 5) ∧
        ∀ e ∈ inorder s.concordance.root, ∀ r ∈ e.2, normalize (r.slot 5) = e.1 := by
  constructor
  · obtain ⟨t, ht, hr⟩ := represents_emptyIndex stopWords stopWordVector calls
    exact ⟨t, ht, entries_key hr hkey⟩
  · intro stopWordFile tokens trailing hne
    obtain ⟨s, hs, hcalls, hr⟩ := run_represents stopWordFile tokens trailing hne
    refine ⟨s, hs, ?_, fun e he r hre =>
      (entries_key hr (expectedCalls_key (admitted tokens)) e he r hre).1⟩
    rw [hcalls]
    exact expectedCalls_key (admitted tokens)

/-- C34 at the calls for "ab" and "Ab.", each with its keyword in slot 5. -/
theorem C34_witness_ab_and_Ab_dot :
    (∀ call ∈ [("ab".toList, recordAb), ("Ab.".toList, recordAbDot)],
      call.1 = call.2.slot 5) ∧
    (∃ t, addAll (emptyIndex false [])
        [("ab".toList, recordAb), ("Ab.".toList, recordAbDot)] = some t ∧
      ∀ e ∈ inorder t.root, ∀ r ∈ e.2,
        normalize (r.slot 5) = e.1 ∧
        ∃ call ∈ [("ab".toList, recordAb), ("Ab.".toList, recordAbDot)],
          call.2 = r ∧ normalize call.1 = e.1) ∧
    ∀ (stopWordFile : Option (List Str)) (tokens : List Str) (trailing : Bool),
      (∀ w ∈ tokens, w ≠ []) →
      ∃ s, run stopWordFile tokens trailing = some s ∧
        (∀ call ∈ s.calls, call.1 = call.2.slot 5) ∧
        ∀ e ∈ inorder s.concordance.root, ∀ r ∈ e.2, normalize (r.slot 5) = e.1 :=
  ⟨by decide, C34_stored_keyword_normalises_to_the_key false []
    [("ab".toList, recordAb), ("Ab.".toList, recordAbDot)] (by decide)⟩

/-- C35: for every index built by calls of `add` on an empty index and every record stored in
it, the length of slot 5 and the total lengths of slots 0-4 and of slots 6-10 are at most
`maxKeyLen`, `maxPreKeyLen` and `maxPostKeyLen`; so `padAfter` and `padBefore` of
`printFormatted` are at least 5, and the context strings, four characters longer than the
total lengths, are not longer than the column widths `maxPreKeyLen + 40` and
`maxPostKeyLen + 40`. -/
theorem C35_stored_lengths_are_within_the_maxima (stopWords : Bool)
    (stopWordVector : List Str) (calls : List (Str × contextArr)) :
    ∃ t, addAll (emptyIndex stopWords stopWordVector) calls = some t ∧
      ∀ e ∈ inorder t.root, ∀ r ∈ e.2,
        keyLen r ≤ t.maxKeyLen ∧ preKeyLen r ≤ t.maxPreKeyLen ∧
        postKeyLen r ≤ t.maxPostKeyLen ∧
        5 ≤ padAfter (t.maxKeyLen + 10) (keyLen r) ∧
        5 ≤ padBefore (t.maxKeyLen + 10) (keyLen r) ∧
        ((getPreKeyContext r).length : Int) = preKeyLen r + 4 ∧
        ((getPostKeyContext r).length : Int) = postKeyLen r + 4 ∧
        ((getPreKeyContext r).length : Int) ≤ t.maxPreKeyLen + 40 ∧
        ((getPostKeyContext r).length : Int) ≤ t.maxPostKeyLen + 40 := by
  obtain ⟨t, ht, hr⟩ := represents_emptyIndex stopWords stopWordVector calls
  refine ⟨t, ht, ?_⟩
  intro e he r hre
  obtain ⟨hp, hk, hq⟩ := stored_lengths_le_max hr he hre
  have hle : keyLen r ≤ t.maxKeyLen + 10 := by omega
  obtain ⟨-, h1, h2, -⟩ := padAfter_spec (t.maxKeyLen + 10) (keyLen r) hle
  obtain ⟨h3, -, -⟩ := padBefore_spec (t.maxKeyLen + 10) (keyLen r) hle
  have hpre := getPreKeyContext_length r
  have hpost := getPostKeyContext_length r
  refine ⟨hk, hp, hq, by omega, by omega, hpre, hpost, by omega, by omega⟩

/-- C36: when the tree is ordered as a binary search tree, so is the tree that `insert`
returns, for every keyword and context, and its keys are the keyword and the keys of the
tree before. -/
theorem C36_insert_keeps_the_search_tree_order (t : TreeNode) (keyWord : Str)
    (context : contextArr) (horder : isSearchTree t) :
    isSearchTree (insert t keyWord context) ∧
    ∀ k, k ∈ keys (insert t keyWord context) ↔ k = keyWord ∨ k ∈ keys t :=
  ⟨isSearchTree_insert t keyWord context horder, mem_keys_insert t keyWord context⟩

/-- C36 at the tree with the keys "ab" and "y" and the keyword "m". -/
theorem C36_witness_insert_m_between_ab_and_y :
    isSearchTree indexAbY.root ∧ keys indexAbY.root = ["ab".toList, "y".toList] ∧
    keys (insert indexAbY.root "m".toList recordThe) =
      ["ab".toList, "m".toList, "y".toList] ∧
    isSearchTree (insert indexAbY.root "m".toList recordThe) ∧
    ∀ k, k ∈ keys (insert indexAbY.root "m".toList recordThe) ↔
      k = "m".toList ∨ k ∈ keys indexAbY.root := by
  have h : isSearchTree indexAbY.root := by
    simp only [indexAbY, BinarySearchTree.new, insert, isSearchTree, keys, inorder]
    decide
  exact ⟨h, by decide, by decide,
    C36_insert_keeps_the_search_tree_order indexAbY.root "m".toList recordThe h⟩

/-- C37: in every index built by calls of `add` on an empty index no entry has an empty list;
so the walk to the last node finds one for every entry, the copy constructor of `ContextList`
completes on every entry and on the one-node list from which `insert` constructs a `TreeNode`,
and `copyTree` and the copy constructor of the index complete. On the free store the same calls
complete, leave a well-formed state (every `TreeNode` has a first node), and the copy of the
index completes. -/
theorem C37_every_entry_has_a_first_node (stopWords : Bool) (stopWordVector : List Str)
    (calls : List (Str × contextArr)) :
    ∃ t, addAll (emptyIndex stopWords stopWordVector) calls = some t ∧
      (∀ e ∈ inorder t.root, e.2 ≠ []) ∧
      (∀ e ∈ inorder t.root, ∃ last, tailWalk (ContextList.copyNodes e.2) = some last) ∧
      (∀ e ∈ inorder t.root, ContextList.copy e.2 = some e.2) ∧
      copyTree t.root = some t.root ∧ t.copy = some t ∧
      (∀ context : contextArr,
        ContextList.copy (ContextList.add [] context) =
          some (ContextList.copyNodes (ContextList.add [] context))) ∧
      ∃ h copied, Heap.empty.newIndex.1.addAll 0 calls = some h ∧ WellFormed h ∧
        h.copyIndex 0 = some copied := by
  obtain ⟨t, ht, hl⟩ := listsNonEmpty_addAll calls (emptyIndex stopWords stopWordVector) rfl
  have hne := ne_nil_of_listsNonEmpty t.root hl
  have h0 := newIndex_step wellFormed_empty (closed_mark Heap.empty) (mark_le_refl _)
  obtain ⟨h, hh, hs⟩ := heap_addAll_spec 0 (Nat.le_refl _) calls
    Heap.empty.newIndex.1 h0.wellFormed h0.closed h0.grows.mark (by decide)
  have hlen : 0 < h.trees.length := by
    have := hs.grows.mark.2.2
    have h1 : Heap.empty.newIndex.1.trees.length = 1 := rfl
    have h2 : Heap.empty.newIndex.1.trees.length ≤ h.trees.length := this
    omega
  obtain ⟨source, hsource⟩ : ∃ s, h.tree 0 = some s := ⟨h.trees[0], by simp [Heap.tree, hlen]⟩
  obtain ⟨h', r, hcopy, -, -⟩ := copyIndex_spec hs.wellFormed 0 source hsource
  refine ⟨t, ht, hne, ?_, fun e he => ContextList_copy_eq e.2 (hne e he),
    copyTree_eq t.root hl, ?_, ?_, h, _, hh, hs.wellFormed, hcopy⟩
  · intro e he
    rw [copyNodes_eq, tailWalk_eq e.2 (hne e he)]
    exact ⟨_, rfl⟩
  · rw [BinarySearchTree.copy, copyTree_eq t.root hl]; rfl
  · intro context
    rw [copyNodes_eq]
    exact ContextList_copy_eq _ (by simp [ContextList.add])

/-- C38: the loop of `removePunctAndLower` on "a.." reads `word[2]` when the word has length
1, and on "--" it reads `word[1]` when the word is empty: after two erasures the counter,
bounded by the length measured before the loop, passes the end of the word. On "a.b", with one
erasure, the last read is at the length of the word. -/
theorem C38_read_past_the_end_after_two_erasures :
    removePunctAndLowerReads "a..".toList = [(0, 3), (1, 3), (1, 2), (1, 1), (2, 1)] ∧
    removePunctAndLowerReads "--".toList = [(0, 2), (0, 1), (0, 0), (1, 0)] ∧
    removePunctAndLowerReads "a.b".toList = [(0, 3), (1, 3), (1, 2), (2, 2)] ∧
    ¬ ∀ word : Str, ∀ read ∈ removePunctAndLowerReads word, read.1 ≤ (read.2 : Int) := by
  refine ⟨by decide, by decide, by decide, ?_⟩
  intro h
  have := h "a..".toList (2, 1) (by decide)
  revert this
  decide

end Concordance
